import Mathlib

/-!
# SilenceMale: notch-filter cascade and WAV codec

A shallow embedding of `lib/voice_filter.cpp` and `lib/wav_io.cpp`.

* The WAV codec is modelled at the level of bytes.  A `float` is its 32-bit
  IEEE-754 pattern (`F32`), so that reinterpreting bytes as floats, comparing
  floats (`<` with unordered NaN and `-0 = +0`) and converting a 16-bit
  integer to a float are all exact.
* `std::ifstream` is modelled by `IStream`: the file contents, the read
  position and the `eofbit`/`failbit` flags, with the behaviour of `read`,
  `seekg`, `tellg` and `clear` on a regular file.
* The chunk walk of `readWavAsFloats` can seek backwards (the skip of the `fmt `
  extension bytes goes through `int`), so it need not end; it is modelled with a
  bound on the number of passes (`fuel`), and `none` means the bound was reached.
* The filter is modelled twice.  `makeNotch`, `applyBiquad`, `processChunk` read the
  arithmetic of the source exactly, over an arbitrary linearly ordered field (`ℝ` with
  the real `cos`, `exp`, `arccos` is the intended instance); they serve the facts that
  do not depend on rounding (order of the stages, state carried between samples and
  calls, the disabled path).  `makeNotch32`, `applyBiquad32` read the same statements
  in binary32 (`Binary32`: every operation rounds its exact result to nearest, ties to
  even, with the infinities and NaN); they serve the facts about the values the program
  computes.  The C math library is taken as correctly rounded, and each operation is
  rounded on its own (no fused multiply-add).
-/

namespace SilenceMale

/-! ## Bytes and little-endian integers -/

abbrev Byte := Fin 256

/-- Value of a little-endian byte string. -/
def leValue : List Byte → Nat
  | [] => 0
  | b :: bs => b.val + 256 * leValue bs

/-- The `w` little-endian bytes of `v` (the low `8*w` bits of `v`). -/
def leBytes : Nat → Nat → List Byte
  | 0, _ => []
  | w + 1, v => ⟨v % 256, Nat.mod_lt _ (by decide)⟩ :: leBytes w (v / 256)

/-- Conversion of an unsigned 32-bit value to `int` (two's complement), as in
`int(chunkSize - 16)`. -/
def toInt32 (n : Nat) : Int :=
  if n % 4294967296 < 2147483648 then (n % 4294967296 : Nat)
  else ((n % 4294967296 : Nat) : Int) - 4294967296

/-- Reinterpretation of an unsigned 16-bit value as `int16_t`. -/
def toInt16 (n : Nat) : Int :=
  if n % 65536 < 32768 then (n % 65536 : Nat) else ((n % 65536 : Nat) : Int) - 65536

/-! ## 32-bit floats as bit patterns -/

/-- A `float`, given by its IEEE-754 binary32 bit pattern. -/
abbrev F32 := Fin 4294967296

/-- The bit pattern of `1.0f`. -/
def f32One : F32 := 1065353216

/-- The bit pattern of `-1.0f`. -/
def f32NegOne : F32 := 3212836864

/-- NaN test: exponent field all ones and a non-zero mantissa. -/
def f32IsNaN (x : F32) : Bool :=
  x.val / 8388608 % 256 == 255 && x.val % 8388608 != 0

/-- Sign-magnitude key: for two non-NaN floats, `x < y` as floats exactly when
`f32Key x < f32Key y` (both zeros have key `0`, infinities are extreme). -/
def f32Key (x : F32) : Int :=
  if x.val < 2147483648 then (x.val : Int) else -((x.val - 2147483648 : Nat) : Int)

/-- The `<` of `float`: false whenever an operand is NaN. -/
def f32Lt (x y : F32) : Bool :=
  !f32IsNaN x && !f32IsNaN y && decide (f32Key x < f32Key y)

/-- The `<=` of `float`: false whenever an operand is NaN. -/
def f32Le (x y : F32) : Bool :=
  !f32IsNaN x && !f32IsNaN y && decide (f32Key x ≤ f32Key y)

/-- The function `std::min(a, b)`, which is `(b < a) ? b : a`. -/
def f32Min (a b : F32) : F32 := if f32Lt b a then b else a

/-- The function `std::max(a, b)`, which is `(a < b) ? b : a`. -/
def f32Max (a b : F32) : F32 := if f32Lt a b then b else a

/-- The encoder's clamp `std::max(-1.0f, std::min(1.0f, v))`. -/
def clampSample (v : F32) : F32 := f32Max f32NegOne (f32Min f32One v)

/-- The rational value of a finite float (`0` for infinities and NaN). -/
def f32ToRat (x : F32) : ℚ :=
  let sgn : ℚ := if x.val < 2147483648 then 1 else -1
  let e := x.val / 8388608 % 256
  let m := x.val % 8388608
  if e = 255 then 0
  else if e = 0 then sgn * m * (2 : ℚ) ^ (-149 : Int)
  else sgn * (8388608 + m) * (2 : ℚ) ^ ((e : Int) - 150)

/-- Position of the leading one bit of `m`, for `0 < m < 2^(k+1)`. -/
def topBit : Nat → Nat → Nat
  | 0, _ => 0
  | k + 1, m => if 2 ≤ m then topBit k (m / 2) + 1 else 0

/-- The float `static_cast<float>(pcm) / 32768.0f` for a 16-bit integer `pcm`:
both the conversion and the division by a power of two are exact, so the
result is the float with value `pcm / 32768`: sign bit, exponent field
`e - 15 + 127` and the bits of `|pcm|` below its leading one, where `e` is the
position of that leading one. -/
def f32OfPcm (pcm : Int) : F32 :=
  if pcm = 0 then 0
  else
    let m := pcm.natAbs
    let e := topBit 16 m
    let sgn := if pcm < 0 then 2147483648 else 0
    ⟨(sgn + (e + 112) * 8388608 + (m - 2 ^ e) * 2 ^ (23 - e)) % 4294967296,
      Nat.mod_lt _ (by decide)⟩

/-- Reinterpret little-endian bytes as a float (`reinterpret_cast<char*>(&v)`). -/
def f32OfBytes (bs : List Byte) : F32 :=
  ⟨leValue bs % 4294967296, Nat.mod_lt _ (by decide)⟩

/-- The four bytes of a float in memory. -/
def f32ToBytes (x : F32) : List Byte := leBytes 4 x.val

/-! ## The input stream -/

/-- State of a `std::ifstream` opened on a regular file. -/
structure IStream where
  data : List Byte
  pos : Nat
  eofbit : Bool
  failbit : Bool
  deriving DecidableEq, Repr

/-- The call `in.read(buf, n)`: on a stream that is not good nothing is read and
`failbit` is set; otherwise the available bytes (at most `n`) are stored, and a
short read sets `eofbit` and `failbit`. -/
def IStream.read (s : IStream) (n : Nat) : List Byte × IStream :=
  if s.eofbit || s.failbit then ([], { s with failbit := true })
  else
    let got := (s.data.drop s.pos).take n
    if got.length = n then (got, { s with pos := s.pos + n })
    else (got, { s with pos := s.pos + got.length, eofbit := true, failbit := true })

/-- Reading into a `width`-byte little-endian integer variable holding `old`:
the bytes actually read overwrite the low bytes, the others keep their value. -/
def storeLE (width old : Nat) (bs : List Byte) : Nat :=
  leValue (bs ++ (leBytes width old).drop bs.length)

/-- The call `in.read(reinterpret_cast<char*>(&var), sizeof(var))`. -/
def IStream.readInt (s : IStream) (width old : Nat) : Nat × IStream :=
  let r := s.read width
  (storeLE width old r.1, r.2)

/-- The call `in.seekg(off, std::ios::cur)`: clears `eofbit`; does nothing more on a
failed stream; a target before the start of the file fails; a target past the last
byte of the file is accepted. -/
def IStream.seekCur (s : IStream) (off : Int) : IStream :=
  let s1 := { s with eofbit := false }
  if s1.failbit then s1
  else if (s1.pos : Int) + off < 0 then { s1 with failbit := true }
  else { s1 with pos := ((s1.pos : Int) + off).toNat }

/-- The calls `in.clear(); in.seekg(p)`. -/
def IStream.clearSeek (s : IStream) (p : Nat) : IStream :=
  { s with pos := p, eofbit := false, failbit := false }

/-! ## Decoder: `readWavAsFloats` -/

/-- The ASCII bytes of `RIFF`. -/
def tagRIFF : List Byte := [82, 73, 70, 70]
/-- The ASCII bytes of `WAVE`. -/
def tagWAVE : List Byte := [87, 65, 86, 69]
/-- The ASCII bytes of `fmt ` (with the trailing blank). -/
def tagFmt : List Byte := [102, 109, 116, 32]
/-- The ASCII bytes of `data`. -/
def tagData : List Byte := [100, 97, 116, 97]

/-- The variables the chunk walk updates.  `dataPos = none` stands for the
initial `std::streampos(-1)`. -/
structure WavVars where
  audioFormat : Nat
  numChannels : Nat
  bitsPerSample : Nat
  sampleRate : Nat
  dataSize : Nat
  dataPos : Option Nat
  deriving DecidableEq, Repr

/-- Initial values: `audioFormat = numChannels = bitsPerSample = sampleRate = dataSize = 0`, `dataPos = -1`. -/
def WavVars.init : WavVars := ⟨0, 0, 0, 0, 0, none⟩

/-- Outcome of one pass through the body of the `while` loop. -/
inductive LoopStep where
  | done (s : IStream) (v : WavVars)
  | next (s : IStream) (v : WavVars)
  deriving DecidableEq, Repr

/-- The `fmt ` branch: six unchecked reads, then the skip of the extension bytes. -/
def fmtBranch (s : IStream) (v : WavVars) (chunkSize : Nat) : IStream × WavVars :=
  let r1 := s.readInt 2 0
  let r2 := r1.2.readInt 2 v.numChannels
  let r3 := r2.2.readInt 4 v.sampleRate
  let r4 := r3.2.readInt 4 0
  let r5 := r4.2.readInt 2 0
  let r6 := r5.2.readInt 2 v.bitsPerSample
  let v1 : WavVars :=
    { v with audioFormat := r1.1, numChannels := r2.1, sampleRate := r3.1, bitsPerSample := r6.1 }
  let s1 := if chunkSize > 16 then r6.2.seekCur (toInt32 (chunkSize - 16)) else r6.2
  (s1, v1)

/-- One pass through the body of `while (!in.eof())`. -/
def walkBody (s : IStream) (v : WavVars) : LoopStep :=
  let rId := s.read 4
  if rId.2.eofbit || rId.2.failbit then .done rId.2 v
  else
    let rSz := rId.2.readInt 4 0
    if rSz.2.failbit then .done rSz.2 v
    else
      let chunkSize := rSz.1
      let r : IStream × WavVars :=
        if rId.1 = tagFmt then fmtBranch rSz.2 v chunkSize
        else if rId.1 = tagData then
          (rSz.2.seekCur chunkSize, { v with dataSize := chunkSize, dataPos := some rSz.2.pos })
        else (rSz.2.seekCur chunkSize, v)
      let s2 := if chunkSize % 2 = 1 then r.1.seekCur 1 else r.1
      .next s2 r.2

/-- The chunk walk `while (!in.eof()) { ... }`, with a bound on the number of
iterations; `none` means that the bound was reached. -/
def walkChunks : Nat → IStream → WavVars → Option (IStream × WavVars)
  | 0, _, _ => none
  | fuel + 1, s, v =>
    if s.eofbit then some (s, v)
    else
      match walkBody s v with
      | .done s1 v1 => some (s1, v1)
      | .next s1 v1 => walkChunks fuel s1 v1

/-- The float loop: read `n` samples, stopping at the first failed read. -/
def readFloatSamples : Nat → IStream → List F32
  | 0, _ => []
  | n + 1, s =>
    let r := s.read 4
    if r.2.failbit then [] else f32OfBytes r.1 :: readFloatSamples n r.2

/-- The 16-bit loop: read `n` samples, stopping at the first failed read. -/
def readPcmSamples : Nat → IStream → List F32
  | 0, _ => []
  | n + 1, s =>
    let r := s.read 2
    if r.2.failbit then [] else f32OfPcm (toInt16 (leValue r.1)) :: readPcmSamples n r.2

/-- What a call of `readWavAsFloats` does once it stops. -/
inductive Outcome where
  | returned (samples : List F32)
  | divideByZero
  deriving DecidableEq, Repr

/-- The part of `readWavAsFloats` after the chunk walk: the two checks, `in.clear()`,
`in.seekg(dataPos)`, the sample count and the sample loops.  `divideByZero` is the
integer division `dataSize / (bitsPerSample / 8)` with `bitsPerSample < 8`.  The call
`samples.reserve(sampleCount)` only allocates and has no counterpart here. -/
def extractSamples (s : IStream) (v : WavVars) : Outcome :=
  match v.dataPos with
  | none => .returned []
  | some dataPos =>
    if v.audioFormat = 0 then .returned []
    else
      let s1 := s.clearSeek dataPos
      if v.bitsPerSample / 8 = 0 then .divideByZero
      else
        let sampleCount := v.dataSize / (v.bitsPerSample / 8)
        if v.audioFormat = 3 ∧ v.bitsPerSample = 32 then
          .returned (readFloatSamples sampleCount s1)
        else if v.audioFormat = 1 ∧ v.bitsPerSample = 16 then
          .returned (readPcmSamples sampleCount s1)
        else .returned []

/-- The function `readWavAsFloats` on a file that could be opened, with contents `file`.
`none` means that the chunk walk did not finish within `fuel` iterations. -/
def readWavAsFloats (fuel : Nat) (file : List Byte) : Option Outcome :=
  let s0 : IStream := ⟨file, 0, false, false⟩
  let rRiff := s0.read 4
  let rSize := rRiff.2.readInt 4 0
  let rWave := rSize.2.read 4
  if rWave.2.failbit || rRiff.1 ≠ tagRIFF || rWave.1 ≠ tagWAVE then some (.returned [])
  else
    match walkChunks fuel rWave.2 WavVars.init with
    | none => none
    | some (s, v) => some (extractSamples s v)

/-! ## Encoder: `writeWAVFile` -/

/-- The bytes `writeWAVFile` writes to a file that could be opened. -/
def writeWAVFile (samples : List F32) (sampleRate : Int) : List Byte :=
  let dataBytes := (samples.length * 4) % 4294967296
  let fileSize := (36 + dataBytes) % 4294967296
  let fmtSize := 16
  let audioFormat := 3
  let numChannels := 1
  let sr := (sampleRate % 4294967296).toNat
  let byteRate := (sr * numChannels * 4) % 4294967296
  let blockAlign := (numChannels * 4) % 65536
  let bitsPerSample := 32
  tagRIFF ++ leBytes 4 fileSize ++ tagWAVE ++ tagFmt ++ leBytes 4 fmtSize
    ++ leBytes 2 audioFormat ++ leBytes 2 numChannels ++ leBytes 4 sr ++ leBytes 4 byteRate
    ++ leBytes 2 blockAlign ++ leBytes 2 bitsPerSample ++ tagData ++ leBytes 4 dataBytes
    ++ (samples.map fun v => f32ToBytes (clampSample v)).flatten

/-! ## RIFF chunks and well-formed WAV streams -/

/-- A RIFF chunk: its four-byte identifier, its payload, and the pad byte that follows
a payload of odd size. -/
structure Chunk where
  id : List Byte
  payload : List Byte
  pad : Byte
  deriving DecidableEq, Repr

/-- The bytes of a chunk: identifier, little-endian payload size, payload, and one pad
byte exactly when the size is odd. -/
def Chunk.encode (c : Chunk) : List Byte :=
  c.id ++ leBytes 4 c.payload.length ++ c.payload ++
    (if c.payload.length % 2 = 1 then [c.pad] else [])

/-- A chunk is well formed when its identifier has four bytes and its size fits the
32-bit size field; a `fmt ` chunk also holds the 16 mandatory bytes and fewer than
`2^31` extension bytes. -/
def Chunk.WellFormed (c : Chunk) : Prop :=
  c.id.length = 4 ∧ c.payload.length < 4294967296 ∧
    (c.id = tagFmt → 16 ≤ c.payload.length ∧ c.payload.length < 2147483664)

instance (c : Chunk) : Decidable c.WellFormed := by
  unfold Chunk.WellFormed; infer_instance

/-- The bytes of a chunk sequence. -/
def encodeChunks (cs : List Chunk) : List Byte := (cs.map Chunk.encode).flatten

/-- A RIFF/WAVE stream: `RIFF`, the four bytes of the size field, `WAVE`, the chunks. -/
def wavFile (sizeField : List Byte) (cs : List Chunk) : List Byte :=
  tagRIFF ++ sizeField ++ tagWAVE ++ encodeChunks cs

/-- The format tag in the payload of a `fmt ` chunk (bytes 0, 1). -/
def Chunk.formatTag (c : Chunk) : Nat := leValue (c.payload.take 2)

/-- The bits-per-sample field in the payload of a `fmt ` chunk (bytes 14, 15). -/
def Chunk.bits (c : Chunk) : Nat := leValue ((c.payload.drop 14).take 2)

/-- What walking over the chunk `c` that starts at offset `pos` does to the variables. -/
def Chunk.update (c : Chunk) (pos : Nat) (v : WavVars) : WavVars :=
  if c.id = tagFmt then
    { v with
      audioFormat := c.formatTag
      numChannels := leValue ((c.payload.drop 2).take 2)
      sampleRate := leValue ((c.payload.drop 4).take 4)
      bitsPerSample := c.bits }
  else if c.id = tagData then
    { v with dataSize := c.payload.length, dataPos := some (pos + 8) }
  else v

/-- The variables after walking over a chunk sequence that starts at offset `pos`. -/
def scanVars (pos : Nat) (v : WavVars) : List Chunk → WavVars
  | [] => v
  | c :: cs => scanVars (pos + c.encode.length) (c.update pos v) cs

/-- The floats held by the complete four-byte groups of a byte string. -/
def floatSamples : List Byte → List F32
  | b0 :: b1 :: b2 :: b3 :: rest => f32OfBytes [b0, b1, b2, b3] :: floatSamples rest
  | _ => []

/-- The 16-bit integer at bytes `2i`, `2i+1` of a byte string. -/
def pcmAt (bs : List Byte) (i : Nat) : Int :=
  toInt16 ((bs.getD (2 * i) 0).val + 256 * (bs.getD (2 * i + 1) 0).val)

/-- The samples held by the complete two-byte groups of a byte string. -/
def pcmSamples : List Byte → List F32
  | b0 :: b1 :: rest => f32OfPcm (toInt16 (leValue [b0, b1])) :: pcmSamples rest
  | _ => []

/-- The samples held by a byte string at the given bit depth (32: floats, else 16-bit). -/
def samplesOf (bits : Nat) (bs : List Byte) : List F32 :=
  if bits = 32 then floatSamples bs else pcmSamples bs

/-- A `fmt ` payload of sixteen bytes: tag, channels, sample rate, byte rate, block
align, bits per sample. -/
def fmtPayload (tag channels rate byteRate align bits : Nat) : List Byte :=
  leBytes 2 tag ++ leBytes 2 channels ++ leBytes 4 rate ++ leBytes 4 byteRate ++
    leBytes 2 align ++ leBytes 2 bits

/-- The bit pattern of `0.5f`. -/
def f32Half : F32 := 1056964608

/-- The bit pattern of `2.0f`. -/
def f32Two : F32 := 1073741824

/-- The bit pattern of a quiet NaN. -/
def f32NaN : F32 := 2143289344

/-- A 16-bit mono PCM file with a `LIST` chunk of odd size before the data, holding
the three samples `-32768`, `32767`, `1`. -/
def pcmExample : List Chunk :=
  [⟨tagFmt, fmtPayload 1 1 48000 96000 2 16, 0⟩, ⟨[76, 73, 83, 84], [1, 2, 3], 0⟩,
   ⟨tagData, [0, 128, 255, 127, 1, 0], 0⟩]

/-- A `fmt ` chunk declaring PCM with 4 bits per sample, and a two-byte `data` chunk. -/
def fourBitChunks : List Chunk :=
  [⟨tagFmt, fmtPayload 1 1 48000 24000 1 4, 0⟩, ⟨tagData, [1, 2], 0⟩]

/-- A 46-byte mono PCM file that declares 4 bits per sample, with two data bytes. -/
def fourBitFile : List Byte := wavFile [38, 0, 0, 0] fourBitChunks

/-- A 36-byte file whose only chunk is a `fmt ` chunk that declares the size
`0xFFFFFFF8`, so that `int(chunkSize - 16)` is `-24`. -/
def loopFile : List Byte :=
  tagRIFF ++ [28, 0, 0, 0] ++ tagWAVE ++ tagFmt ++ [248, 255, 255, 255] ++
    fmtPayload 1 1 48000 96000 2 16

/-- A 1073741823-sample buffer of zeros (`4n = 2^32 - 4`). -/
def hugeBuffer : List F32 := List.replicate 1073741823 0

/-! ## The notch cascade: `voice_filter.cpp` -/

section Filter

variable {α : Type} [LinearOrderedField α]

/-- The struct `Biquad`: five coefficients and two delay registers. -/
structure Biquad (α : Type) where
  b0 : α
  b1 : α
  b2 : α
  a1 : α
  a2 : α
  s1 : α
  s2 : α

/-- The C math library functions `makeNotch` calls. -/
structure MathFns (α : Type) where
  acos : α → α
  cos : α → α
  exp : α → α

/-- The function `makeNotch(fc, fs, Q)`, its arithmetic read exactly (no rounding); see
`makeNotch32` for the reading in binary32. -/
def makeNotch (M : MathFns α) (fc fs Q : α) : Biquad α :=
  let PI := M.acos (-1)
  let omega := 2 * PI * fc / fs
  let cs := M.cos omega
  let BW := fc / Q
  let r := M.exp (-PI * BW / fs)
  let b0 := 1
  let b1 := -2 * cs
  let b2 := 1
  let a1 := -2 * r * cs
  let a2 := r * r
  ⟨b0, b1, b2, a1, a2, 0, 0⟩

/-- The function `applyBiquad(x, f)` (transposed direct form II), its arithmetic read
exactly: the returned sample and the stage with its updated delay registers; see
`applyBiquad32` for the reading in binary32. -/
def applyBiquad (x : α) (f : Biquad α) : α × Biquad α :=
  let y := f.b0 * x + f.s1
  let ns1 := f.b1 * x - f.a1 * y + f.s2
  let ns2 := f.b2 * x - f.a2 * y
  (y, { f with s1 := ns1, s2 := ns2 })

/-- The data members of `VoiceGenderFilter`. -/
structure VoiceGenderFilter (α : Type) where
  male_notch : Bool
  notch_Q : α

/-- The default-constructed filter: `male_notch = true`, `notch_Q = 30.0f`. -/
def VoiceGenderFilter.new : VoiceGenderFilter α := ⟨true, 30⟩

/-- The setter `enableMaleNotch(enable)`. -/
def VoiceGenderFilter.enableMaleNotch (F : VoiceGenderFilter α) (enable : Bool) :
    VoiceGenderFilter α :=
  { F with male_notch := enable }

/-- The setter `setMaleNotchQ(q)`. -/
def VoiceGenderFilter.setMaleNotchQ (F : VoiceGenderFilter α) (q : α) : VoiceGenderFilter α :=
  { F with notch_Q := q }

/-- The setter `setFemaleBoost(enable)`, which ignores its argument. -/
def VoiceGenderFilter.setFemaleBoost (F : VoiceGenderFilter α) (_enable : Bool) :
    VoiceGenderFilter α := F

/-- The table `notches[]` of (frequency, Q multiplier) pairs. -/
def notches : List (α × α) :=
  [(135, 1 / 7), (275, 2), (561, 2), (396, 4), (530, 2),
   (50, 1 / 5), (105, 1 / 7), (4088, 1 / 5), (68, 1 / 5), (131, 1 / 5)]

/-- The first loop of `processChunk`: the array `filters`, one fresh stage per table
entry, at `fs = 48000` and `effQ = notch_Q * factor`. -/
def buildFilters (M : MathFns α) (notch_Q : α) : List (Biquad α) :=
  notches.map fun p => makeNotch M p.1 48000 (notch_Q * p.2)

/-- The inner loop `for (i ...) x = applyBiquad(x, filters[i])`. -/
def applyAll (x : α) : List (Biquad α) → α × List (Biquad α)
  | [] => (x, [])
  | f :: fs =>
    let r := applyBiquad x f
    let rest := applyAll r.1 fs
    (rest.1, r.2 :: rest.2)

/-- The function `std::clamp(x, lo, hi)` on a linear order (no NaN). -/
def clamp (x lo hi : α) : α := if x < lo then lo else if hi < x then hi else x

/-- The loop `for (auto &s : audio)`: the stored samples and the final stages. -/
def sampleLoop (filters : List (Biquad α)) : List α → List α × List (Biquad α)
  | [] => ([], filters)
  | s :: rest =>
    let r := applyAll s filters
    let out := sampleLoop r.2 rest
    (clamp r.1 (-1) 1 :: out.1, out.2)

/-- The method `VoiceGenderFilter::processChunk(audio)`: the filter object and the buffer
after the call. -/
def processChunk (M : MathFns α) (F : VoiceGenderFilter α) (audio : List α) :
    VoiceGenderFilter α × List α :=
  if !F.male_notch || audio.isEmpty then (F, audio)
  else (F, (sampleLoop (buildFilters M F.notch_Q) audio).1)

end Filter

/-- The real-number math library: `acos`, `cos`, `exp`. -/
noncomputable def realMath : MathFns ℝ := ⟨Real.arccos, Real.cos, Real.exp⟩

/-- Two consecutive calls of `processChunk` on the same filter object, on the two
halves of a buffer cut at `k`; the concatenation of the two resulting chunks. -/
def processTwoChunks {α : Type} [LinearOrderedField α] (M : MathFns α)
    (F : VoiceGenderFilter α) (k : Nat) (audio : List α) : List α :=
  let r1 := processChunk M F (audio.take k)
  let r2 := processChunk M r1.1 (audio.drop k)
  r1.2 ++ r2.2

/-- The 1000-sample buffer that is zero except for a one at index 499. -/
def impulseBuffer : List ℝ := List.replicate 499 0 ++ 1 :: List.replicate 500 0

/-! ## Auxiliary predicates on stage arrays -/

/-- Every stage has zero delay registers. -/
def ZeroState {α : Type} [LinearOrderedField α] (fs : List (Biquad α)) : Prop :=
  ∀ f ∈ fs, f.s1 = 0 ∧ f.s2 = 0

/-- Every stage has `b0 = 1`. -/
def UnitGain {α : Type} [LinearOrderedField α] (fs : List (Biquad α)) : Prop :=
  ∀ f ∈ fs, f.b0 = 1

/-- The stages after a unit sample went through a cascade at rest with `b0 = 1`. -/
def afterUnit {α : Type} [LinearOrderedField α] (fs : List (Biquad α)) : List (Biquad α) :=
  fs.map fun f => { f with s1 := f.b1 - f.a1, s2 := f.b2 - f.a2 }

/-! ## Whole-buffer filtering and the difference equation -/

section Stage

variable {α : Type} [LinearOrderedField α]

/-- One stage applied to a whole buffer: `applyBiquad` on each sample in turn, the
delay registers carried from one sample to the next. -/
def runBiquad (f : Biquad α) : List α → List α × Biquad α
  | [] => ([], f)
  | x :: xs =>
    let r := applyBiquad x f
    let rest := runBiquad r.2 xs
    (r.1 :: rest.1, rest.2)

/-- The whole buffer through the first stage, the result through the second, and so on. -/
def cascadeStages (fs : List (Biquad α)) (xs : List α) : List α :=
  fs.foldl (fun buf f => (runBiquad f buf).1) xs

/-- The sample loop of `processChunk` without the final clamp. -/
def sampleLoopRaw (filters : List (Biquad α)) : List α → List α × List (Biquad α)
  | [] => ([], filters)
  | s :: rest =>
    let r := applyAll s filters
    let out := sampleLoopRaw r.2 rest
    (r.1 :: out.1, out.2)

/-- Sample `k - j` of a sequence, and zero when that index is negative or beyond the
sequence. -/
def delayed (l : List α) (j k : Nat) : α := if k < j then 0 else l.getD (k - j) 0

/-- The biquad difference equation as the spec words it, run over a buffer:
`y[k] = b0 x[k] + b1 x[k-1] + b2 x[k-2] - a1 y[k-1] - a2 y[k-2]`, with `x1`, `x2`, `y1`,
`y2` the two preceding inputs and outputs. -/
def differenceEquation (b0 b1 b2 a1 a2 : α) (x1 x2 y1 y2 : α) : List α → List α
  | [] => []
  | x :: xs =>
    let y := b0 * x + b1 * x1 + b2 * x2 - a1 * y1 - a2 * y2
    y :: differenceEquation b0 b1 b2 a1 a2 x x1 y y1 xs

/-- A finite sequence extended by zeros. -/
def extend (l : List α) : Nat → α := fun k => l.getD k 0

/-- The unit delay on sequences: zero at index 0. -/
def shift (u : Nat → α) : Nat → α
  | 0 => 0
  | k + 1 => u k

/-- The three-tap operator `c0 + c1 z^-1 + c2 z^-2` on sequences. -/
def fir (c0 c1 c2 : α) (u : Nat → α) : Nat → α :=
  fun k => c0 * u k + c1 * shift u k + c2 * shift (shift u) k

/-- The method `processChunk` with the table `notches[]` replaced by `table`. -/
def processChunkWith (table : List (α × α)) (M : MathFns α) (F : VoiceGenderFilter α)
    (audio : List α) : VoiceGenderFilter α × List α :=
  if !F.male_notch || audio.isEmpty then (F, audio)
  else (F, (sampleLoop (table.map fun p => makeNotch M p.1 48000 (F.notch_Q * p.2)) audio).1)

end Stage

/-! ## The design formulas as the spec words them -/

/-- The last chunk of a sequence that carries the identifier `id`. -/
def lastChunk (id : List Byte) (cs : List Chunk) : Option Chunk :=
  (cs.filter fun c => c.id = id).getLast?

/-- What the sample extraction gives for a format tag, a bit depth and the bytes of a
complete `data` payload. -/
def decodePayload (tag bits : Nat) (payload : List Byte) : Outcome :=
  if tag = 0 then .returned []
  else if bits / 8 = 0 then .divideByZero
  else if tag = 3 ∧ bits = 32 then .returned (floatSamples payload)
  else if tag = 1 ∧ bits = 16 then .returned (pcmSamples payload)
  else .returned []

/-- What the decoder gives for the `fmt ` chunk and the `data` chunk in force, if any. -/
def decodeChunks (fmt data : Option Chunk) : Outcome :=
  match data with
  | none => .returned []
  | some d =>
    match fmt with
    | none => .returned []
    | some f => decodePayload f.formatTag f.bits d.payload

/-- A file with two `fmt ` chunks and two `data` chunks: the first pair says 16-bit PCM
with the bytes 1..4, the second pair says float32 with the bytes of `0.5` and `1.0`. -/
def twoDataExample : List Chunk :=
  [⟨tagFmt, fmtPayload 1 1 48000 96000 2 16, 0⟩, ⟨tagData, [1, 2, 3, 4], 0⟩,
   ⟨tagFmt, fmtPayload 3 1 48000 192000 4 32, 0⟩,
   ⟨tagData, [0, 0, 0, 63, 0, 0, 128, 63], 0⟩]

/-- A 16-bit file whose `data` chunk of four bytes is followed by a `LIST` chunk. -/
def trailingExample : List Chunk :=
  [⟨tagFmt, fmtPayload 1 1 48000 96000 2 16, 0⟩, ⟨tagData, [0, 128, 255, 127], 0⟩,
   ⟨[76, 73, 83, 84], [9, 9, 9, 9], 0⟩]

/-! ## Binary32 arithmetic by value

The arithmetic of `float` in `voice_filter.cpp`: every operation returns the binary32
value nearest to the exact result, an infinity on overflow, or NaN. -/

/-- The finite binary32 values: `m * 2^e / 2^149` with `|m| < 2^24` and `e <= 253`.
The least positive one is `2^-149`, the greatest `(2^24 - 1) * 2^104`. -/
def Rep (x : ℝ) : Prop :=
  ∃ (m : ℤ) (e : ℕ), |m| < 2 ^ 24 ∧ e ≤ 253 ∧ x = ((m * 2 ^ e : ℤ) : ℝ) / 2 ^ 149

/-- A finite binary32 value at least as near to `x` as every other one. -/
def IsNearest (x f : ℝ) : Prop := Rep f ∧ ∀ g, Rep g → |x - f| ≤ |x - g|

/-- A value of type `float`: NaN, an infinity, or a finite value (`WellFormed` says that
the finite value is one of those binary32 has; every operation below returns such a
value).  The sign of a zero is not kept. -/
inductive Binary32 where
  | nan
  | posInf
  | negInf
  | finite (v : ℝ)

/-- A `float` that is NaN, an infinity or one of the finite binary32 values. -/
def Binary32.WellFormed : Binary32 → Prop
  | .finite v => Rep v
  | _ => True

/-- The least magnitude that rounds to an infinity: `2^128 - 2^103`, half an ulp above
the greatest finite value. -/
noncomputable def overflowBound : ℝ := (2 ^ 25 - 1) * 2 ^ 103

/-- A finite binary32 value whose significand is even, the value being written with
`2^23 <= |m|` or else with the least exponent. -/
def EvenSignificand (f : ℝ) : Prop :=
  ∃ (m : ℤ) (e : ℕ), |m| < 2 ^ 24 ∧ e ≤ 253 ∧ (2 ^ 23 ≤ |m| ∨ e = 0) ∧ 2 ∣ m ∧
    f = ((m * 2 ^ e : ℤ) : ℝ) / 2 ^ 149

/-- Round to nearest, ties to even: `f` is a finite binary32 value nearest to `x`, and
its significand is even if another value is equally near. -/
def IsNearestEven (x f : ℝ) : Prop :=
  IsNearest x f ∧ ((∃ g, IsNearest x g ∧ g ≠ f) → EvenSignificand f)

/-- The rounding of `x` to a finite binary32 value: to nearest, ties to even. -/
noncomputable def nearest (x : ℝ) : ℝ := Classical.epsilon (IsNearestEven x)

/-- The result of an operation whose exact value is `x`: an infinity at or beyond the
overflow bound, else the nearest finite value. -/
noncomputable def fround (x : ℝ) : Binary32 :=
  if overflowBound ≤ x then .posInf
  else if x ≤ -overflowBound then .negInf
  else .finite (nearest x)

/-- Unary minus on `float`. -/
def fneg : Binary32 → Binary32
  | .nan => .nan
  | .posInf => .negInf
  | .negInf => .posInf
  | .finite a => .finite (-a)

/-- The product of two `float`s. -/
noncomputable def fmul : Binary32 → Binary32 → Binary32
  | .finite a, .finite b => fround (a * b)
  | .finite a, .posInf => if 0 < a then .posInf else if a < 0 then .negInf else .nan
  | .finite a, .negInf => if 0 < a then .negInf else if a < 0 then .posInf else .nan
  | .posInf, .finite b => if 0 < b then .posInf else if b < 0 then .negInf else .nan
  | .negInf, .finite b => if 0 < b then .negInf else if b < 0 then .posInf else .nan
  | .posInf, .posInf => .posInf
  | .posInf, .negInf => .negInf
  | .negInf, .posInf => .negInf
  | .negInf, .negInf => .posInf
  | _, _ => .nan

/-- The sum of two `float`s. -/
noncomputable def fadd : Binary32 → Binary32 → Binary32
  | .finite a, .finite b => fround (a + b)
  | .finite _, .posInf => .posInf
  | .finite _, .negInf => .negInf
  | .posInf, .finite _ => .posInf
  | .negInf, .finite _ => .negInf
  | .posInf, .posInf => .posInf
  | .negInf, .negInf => .negInf
  | _, _ => .nan

/-- The difference of two `float`s. -/
noncomputable def fsub (a b : Binary32) : Binary32 := fadd a (fneg b)

/-- The function `applyBiquad(x, f)` in binary32. -/
noncomputable def applyBiquad32 (x : Binary32) (f : Biquad Binary32) :
    Binary32 × Biquad Binary32 :=
  let y := fadd (fmul f.b0 x) f.s1
  let ns1 := fadd (fsub (fmul f.b1 x) (fmul f.a1 y)) f.s2
  let ns2 := fsub (fmul f.b2 x) (fmul f.a2 y)
  (y, { f with s1 := ns1, s2 := ns2 })

/-- One stage applied to a whole buffer in binary32: the outputs and the stage with its
final delay registers. -/
noncomputable def runBiquad32 (f : Biquad Binary32) :
    List Binary32 → List Binary32 × Biquad Binary32
  | [] => ([], f)
  | x :: xs =>
    let r := applyBiquad32 x f
    let rest := runBiquad32 r.2 xs
    (r.1 :: rest.1, rest.2)

/-- The difference equation of the spec with every product, difference and sum rounded
to binary32, in the association the transposed form gives it:
`y = b0 x + ((b1 x1 - a1 y1) + (b2 x2 - a2 y2))`, where `x1, x2` are the two preceding
inputs and `y1, y2` the two preceding outputs. -/
noncomputable def differenceEquation32 (b0 b1 b2 a1 a2 : Binary32) :
    Binary32 → Binary32 → Binary32 → Binary32 → List Binary32 → List Binary32
  | _, _, _, _, [] => []
  | x1, x2, y1, y2, x :: xs =>
    let y := fadd (fmul b0 x)
      (fadd (fsub (fmul b1 x1) (fmul a1 y1)) (fsub (fmul b2 x2) (fmul a2 y2)))
    y :: differenceEquation32 b0 b1 b2 a1 a2 x x1 y y1 xs

section Filter
variable {α : Type} [LinearOrderedField α]

theorem sampleLoop_append (fs : List (Biquad α)) (xs ys : List α) :
    sampleLoop fs (xs ++ ys) =
      ((sampleLoop fs xs).1 ++ (sampleLoop (sampleLoop fs xs).2 ys).1,
        (sampleLoop (sampleLoop fs xs).2 ys).2) := by
  induction xs generalizing fs with
  | nil => simp [sampleLoop]
  | cons x xs ih => simp [sampleLoop, ih]

theorem applyAll_zero (fs : List (Biquad α)) (h : ZeroState fs) : applyAll 0 fs = (0, fs) := by
  induction fs with
  | nil => rfl
  | cons f fs ih =>
    have hf := h f (List.mem_cons_self _ _)
    have hfs : ZeroState fs := fun g hg => h g (List.mem_cons_of_mem _ hg)
    obtain ⟨b0, b1, b2, a1, a2, s1, s2⟩ := f
    simp only at hf
    obtain ⟨rfl, rfl⟩ := hf
    simp [applyAll, applyBiquad, ih hfs]

theorem clamp_zero : clamp (0 : α) (-1) 1 = 0 := by
  unfold clamp
  norm_num

theorem sampleLoop_zeros (fs : List (Biquad α)) (h : ZeroState fs) (n : Nat) :
    sampleLoop fs (List.replicate n 0) = (List.replicate n 0, fs) := by
  induction n with
  | zero => rfl
  | succ n ih => simp [List.replicate_succ, sampleLoop, applyAll_zero fs h, ih, clamp_zero]

theorem applyAll_one (fs : List (Biquad α)) (h : ZeroState fs) (hu : UnitGain fs) :
    applyAll 1 fs = (1, afterUnit fs) := by
  induction fs with
  | nil => rfl
  | cons f fs ih =>
    have hf := h f (List.mem_cons_self _ _)
    have hfu := hu f (List.mem_cons_self _ _)
    have hfs : ZeroState fs := fun g hg => h g (List.mem_cons_of_mem _ hg)
    have hfsu : UnitGain fs := fun g hg => hu g (List.mem_cons_of_mem _ hg)
    obtain ⟨b0, b1, b2, a1, a2, s1, s2⟩ := f
    simp only at hf hfu
    obtain ⟨rfl, rfl⟩ := hf
    subst hfu
    simp [applyAll, applyBiquad, ih hfs hfsu, afterUnit]

theorem applyAll_afterUnit (fs : List (Biquad α)) (hu : UnitGain fs) (x : α) :
    (applyAll x (afterUnit fs)).1 = x + (fs.map fun f => f.b1 - f.a1).sum := by
  induction fs generalizing x with
  | nil => simp [afterUnit, applyAll]
  | cons f fs ih =>
    have hfu := hu f (List.mem_cons_self _ _)
    have hfsu : UnitGain fs := fun g hg => hu g (List.mem_cons_of_mem _ hg)
    have ih2 := ih hfsu
    simp only [afterUnit] at ih2 ⊢
    simp only [List.map_cons, applyAll, applyBiquad, List.sum_cons, ih2, hfu]
    ring

theorem clamp_neg {x : α} (hx : x < 0) : clamp x (-1) 1 < 0 := by
  unfold clamp
  split_ifs with h1 h2
  · norm_num
  · linarith
  · exact hx

theorem buildFilters_zeroState (M : MathFns α) (q : α) : ZeroState (buildFilters M q) := by
  intro f hf
  simp only [buildFilters, List.mem_map] at hf
  obtain ⟨p, _, rfl⟩ := hf
  exact ⟨rfl, rfl⟩

theorem buildFilters_unitGain (M : MathFns α) (q : α) : UnitGain (buildFilters M q) := by
  intro f hf
  simp only [buildFilters, List.mem_map] at hf
  obtain ⟨p, _, rfl⟩ := hf
  rfl

theorem makeNotch_real_slope {fc Q : ℝ} (h0 : 0 < fc) (h1 : fc < 12000) (hQ : 0 < Q) :
    (makeNotch realMath fc 48000 Q).b1 - (makeNotch realMath fc 48000 Q).a1 < 0 := by
  simp only [makeNotch, realMath, Real.arccos_neg_one]
  have hcos : 0 < Real.cos (2 * Real.pi * fc / 48000) := by
    apply Real.cos_pos_of_mem_Ioo
    constructor
    · have : 0 < 2 * Real.pi * fc / 48000 := by positivity
      linarith [Real.pi_pos]
    · have hp := Real.pi_pos
      have : 2 * Real.pi * fc / 48000 = Real.pi * (fc / 24000) := by ring
      rw [this]
      have h2 : fc / 24000 < 1 / 2 := by linarith
      nlinarith
  have hr : Real.exp (-Real.pi * (fc / Q) / 48000) < 1 := by
    rw [Real.exp_lt_one_iff]
    have : 0 < Real.pi * (fc / Q) / 48000 := by positivity
    have e : -Real.pi * (fc / Q) / 48000 = -(Real.pi * (fc / Q) / 48000) := by ring
    linarith
  nlinarith


theorem buildFilters_real_slope (f : Biquad ℝ) (hf : f ∈ buildFilters realMath 30) :
    f.b1 - f.a1 < 0 := by
  simp only [buildFilters, notches, List.map_cons, List.map_nil, List.mem_cons,
    List.mem_singleton, List.not_mem_nil, or_false] at hf
  rcases hf with h | h | h | h | h | h | h | h | h | h <;> subst h <;>
    exact makeNotch_real_slope (by norm_num) (by norm_num) (by norm_num)

theorem sum_neg_of_forall_neg {l : List ℝ} (hl : l ≠ []) (h : ∀ x ∈ l, x < 0) : l.sum < 0 := by
  induction l with
  | nil => exact absurd rfl hl
  | cons a t ih =>
    rw [List.sum_cons]
    have ha := h a (List.mem_cons_self _ _)
    by_cases ht : t = []
    · subst ht; simpa using ha
    · have := ih ht (fun x hx => h x (List.mem_cons_of_mem _ hx))
      linarith

theorem processChunk_enabled (M : MathFns α)
    (F : VoiceGenderFilter α) (audio : List α) (hF : F.male_notch = true) (ha : audio ≠ []) :
    processChunk M F audio = (F, (sampleLoop (buildFilters M F.notch_Q) audio).1) := by
  cases audio with
  | nil => exact absurd rfl ha
  | cons a t => simp [processChunk, hF]

theorem impulse_split (n m : Nat) :
    List.replicate n (0 : ℝ) ++ 1 :: List.replicate m 0 =
      (List.replicate n 0 ++ [1]) ++ List.replicate m 0 := by
  rw [List.append_assoc]; rfl

theorem impulse_take (n m : Nat) :
    (List.replicate n (0 : ℝ) ++ 1 :: List.replicate m 0).take (n + 1) =
      List.replicate n 0 ++ [1] := by
  rw [impulse_split]
  apply List.take_left'
  rw [List.length_append, List.length_replicate]; rfl

theorem impulse_drop (n m : Nat) :
    (List.replicate n (0 : ℝ) ++ 1 :: List.replicate m 0).drop (n + 1) =
      List.replicate m 0 := by
  rw [impulse_split]
  apply List.drop_left'
  rw [List.length_append, List.length_replicate]; rfl

theorem impulse_gap (n m : Nat) :
    (processChunk realMath VoiceGenderFilter.new
        (List.replicate n (0 : ℝ) ++ 1 :: List.replicate (m + 1) 0)).2 ≠
      processTwoChunks realMath VoiceGenderFilter.new (n + 1)
        (List.replicate n (0 : ℝ) ++ 1 :: List.replicate (m + 1) 0) := by
  intro h1
  have hz := buildFilters_zeroState realMath (30 : ℝ)
  have hu := buildFilters_unitGain realMath (30 : ℝ)
  have hF : (VoiceGenderFilter.new : VoiceGenderFilter ℝ).male_notch = true := rfl
  have hQ : (VoiceGenderFilter.new : VoiceGenderFilter ℝ).notch_Q = 30 := rfl
  rw [processTwoChunks, impulse_take, impulse_drop] at h1
  rw [processChunk_enabled _ _ _ hF (by simp), processChunk_enabled _ _ _ hF (by simp)] at h1
  simp only at h1
  rw [processChunk_enabled _ _ _ hF (by simp [List.replicate_succ])] at h1
  rw [hQ, impulse_split, sampleLoop_append] at h1
  simp only at h1
  have h2 := List.append_cancel_left h1
  rw [sampleLoop_append, sampleLoop_zeros _ hz] at h2
  rw [sampleLoop_zeros _ hz] at h2
  simp only [sampleLoop, applyAll_one _ hz hu] at h2
  rw [List.replicate_succ] at h2
  simp only [sampleLoop, List.cons.injEq] at h2
  have h3 := h2.1
  rw [applyAll_afterUnit _ hu, zero_add] at h3
  have hneg : ((buildFilters realMath (30 : ℝ)).map fun f => f.b1 - f.a1).sum < 0 := by
    apply sum_neg_of_forall_neg
    · simp [buildFilters, notches]
    · intro x hx
      rw [List.mem_map] at hx
      obtain ⟨f, hf, rfl⟩ := hx
      exact buildFilters_real_slope f hf
  have := clamp_neg hneg
  rw [h3] at this
  exact lt_irrefl _ this

theorem impulseBuffer_length : impulseBuffer.length = 1000 := by
  unfold impulseBuffer
  rw [List.length_append, List.length_cons, List.length_replicate, List.length_replicate]

theorem clamp_mem (x : α) : -1 ≤ clamp x (-1) 1 ∧ clamp x (-1) 1 ≤ 1 := by
  unfold clamp
  split_ifs with h1 h2
  · constructor <;> norm_num
  · constructor <;> norm_num
  · exact ⟨not_lt.mp h1, not_lt.mp h2⟩

theorem sampleLoop_length (fs : List (Biquad α)) (xs : List α) :
    (sampleLoop fs xs).1.length = xs.length := by
  induction xs generalizing fs with
  | nil => rfl
  | cons x xs ih => simp [sampleLoop, ih]

theorem sampleLoop_mem (fs : List (Biquad α)) (xs : List α) :
    ∀ y ∈ (sampleLoop fs xs).1, -1 ≤ y ∧ y ≤ 1 := by
  induction xs generalizing fs with
  | nil => intro y hy; simp [sampleLoop] at hy
  | cons x xs ih =>
    intro y hy
    simp only [sampleLoop, List.mem_cons] at hy
    rcases hy with rfl | hy
    · exact clamp_mem _
    · exact ih _ y hy

/-! ### Claims on the filter -/

/-- C1 (as stated, refuted): on the 1000-sample buffer that is zero except for a one at
index 499, with the default filter (notch enabled, base Q 30, real arithmetic), one call
of `processChunk` and two calls on the halves `[0, 500)` and `[500, 1000)` of the same
object give different outputs. -/
theorem chunk_continuity_fails :
    impulseBuffer.length = 1000 ∧
    (VoiceGenderFilter.new : VoiceGenderFilter ℝ).male_notch = true ∧
    (processChunk realMath VoiceGenderFilter.new impulseBuffer).2 ≠
      processTwoChunks realMath VoiceGenderFilter.new 500 impulseBuffer :=
  ⟨impulseBuffer_length, rfl, impulse_gap 499 499⟩

/-- C1 (amended): for a 1000-sample buffer and an enabled filter, one call of
`processChunk` is the sample loop over the first 500 samples followed by the sample loop
over the last 500 continued from the delay registers the first half left behind, whereas
two calls on the halves give the loop over the first half followed by the loop over the
second half restarted from freshly built stages (zero delay registers); the filter object
itself (flag and base Q) is unchanged by the calls. -/
theorem processChunk_two_chunks (M : MathFns α) (F : VoiceGenderFilter α) (B : List α)
    (hF : F.male_notch = true) (hB : B.length = 1000) :
    (processChunk M F B).2 =
        (sampleLoop (buildFilters M F.notch_Q) (B.take 500)).1 ++
          (sampleLoop (sampleLoop (buildFilters M F.notch_Q) (B.take 500)).2 (B.drop 500)).1 ∧
      processTwoChunks M F 500 B =
        (sampleLoop (buildFilters M F.notch_Q) (B.take 500)).1 ++
          (sampleLoop (buildFilters M F.notch_Q) (B.drop 500)).1 ∧
      (processChunk M (processChunk M F (B.take 500)).1 (B.drop 500)).1 = F := by
  have h1 : B ≠ [] := by intro h; rw [h] at hB; simp at hB
  have h2 : B.take 500 ≠ [] := by
    intro h; have := congrArg List.length h; rw [List.length_take, hB] at this; simp at this
  have h3 : B.drop 500 ≠ [] := by
    intro h; have := congrArg List.length h; rw [List.length_drop, hB] at this; simp at this
  refine ⟨?_, ?_, ?_⟩
  · rw [processChunk_enabled M F B hF h1]
    conv_lhs => rw [← List.take_append_drop 500 B]
    rw [sampleLoop_append]
  · rw [processTwoChunks, processChunk_enabled M F _ hF h2]
    simp only
    rw [processChunk_enabled M F _ hF h3]
  · rw [processChunk_enabled M F _ hF h2]
    simp only
    rw [processChunk_enabled M F _ hF h3]

/-- C1 (amended), instance: the default filter over the reals on the impulse buffer. -/
theorem processChunk_two_chunks_witness :
    (processChunk realMath VoiceGenderFilter.new impulseBuffer).2 =
        (sampleLoop (buildFilters realMath 30) (impulseBuffer.take 500)).1 ++
          (sampleLoop (sampleLoop (buildFilters realMath 30) (impulseBuffer.take 500)).2
            (impulseBuffer.drop 500)).1 ∧
      processTwoChunks realMath VoiceGenderFilter.new 500 impulseBuffer =
        (sampleLoop (buildFilters realMath 30) (impulseBuffer.take 500)).1 ++
          (sampleLoop (buildFilters realMath 30) (impulseBuffer.drop 500)).1 ∧
      (processChunk realMath (processChunk realMath VoiceGenderFilter.new
        (impulseBuffer.take 500)).1 (impulseBuffer.drop 500)).1 = VoiceGenderFilter.new :=
  processChunk_two_chunks realMath VoiceGenderFilter.new impulseBuffer rfl impulseBuffer_length

/-- C5: with the notch disabled by `enableMaleNotch(false)`, and likewise on an empty
buffer, `processChunk` returns the buffer exactly as it was (no clamping) and the filter
object with its flag and base Q as they were, for every buffer and every base Q. -/
theorem processChunk_noop (M : MathFns α) (F : VoiceGenderFilter α) (audio : List α) :
    processChunk M (F.enableMaleNotch false) audio = (F.enableMaleNotch false, audio) ∧
      (F.enableMaleNotch false).notch_Q = F.notch_Q ∧
      (F.male_notch = false → processChunk M F audio = (F, audio)) ∧
      processChunk M F [] = (F, []) := by
  refine ⟨by simp [processChunk, VoiceGenderFilter.enableMaleNotch], rfl, ?_, ?_⟩
  · intro h; simp [processChunk, h]
  · simp [processChunk]

end Filter

/-! ## Theorems on the codec

### Little-endian integers -/

theorem leBytes_length (w v : Nat) : (leBytes w v).length = w := by
  induction w generalizing v with
  | zero => rfl
  | succ w ih => simp [leBytes, ih]

theorem leValue_leBytes (w v : Nat) : leValue (leBytes w v) = v % 256 ^ w := by
  induction w generalizing v with
  | zero => simp [leBytes, leValue, Nat.mod_one]
  | succ w ih =>
    simp only [leBytes, leValue, ih]
    rw [pow_succ, Nat.mul_comm (256 ^ w) 256, Nat.mod_mul]

theorem leValue_lt (bs : List Byte) : leValue bs < 256 ^ bs.length := by
  induction bs with
  | nil => simp [leValue]
  | cons b bs ih =>
    simp only [leValue, List.length_cons, pow_succ]
    have := b.isLt
    omega

theorem leBytes_leValue (bs : List Byte) : leBytes bs.length (leValue bs) = bs := by
  induction bs with
  | nil => rfl
  | cons b bs ih =>
    simp only [List.length_cons, leBytes, leValue]
    have hb := b.isLt
    have h1 : (b.val + 256 * leValue bs) % 256 = b.val := by omega
    have h2 : (b.val + 256 * leValue bs) / 256 = leValue bs := by omega
    rw [h2, ih]
    congr 1
    exact Fin.ext h1

theorem storeLE_full (w old : Nat) (bs : List Byte) (h : bs.length = w) :
    storeLE w old bs = leValue bs := by
  unfold storeLE
  rw [List.drop_of_length_le (by rw [leBytes_length]; omega), List.append_nil]

/-! ### Stream lemmas -/

theorem read_bad (s : IStream) (n : Nat) (h : s.eofbit = true ∨ s.failbit = true) :
    s.read n = ([], { s with failbit := true }) := by
  unfold IStream.read
  rcases h with h | h <;> simp [h]

theorem read_failbit_of_failbit (s : IStream) (n : Nat) (h : s.failbit = true) :
    (s.read n).2.failbit = true := by
  rw [read_bad s n (Or.inr h)]

theorem read_good (s : IStream) (n : Nat) (he : s.eofbit = false) (hf : s.failbit = false)
    (hlen : s.pos + n ≤ s.data.length) :
    s.read n = ((s.data.drop s.pos).take n, { s with pos := s.pos + n }) := by
  unfold IStream.read
  have : ((s.data.drop s.pos).take n).length = n := by
    rw [List.length_take, List.length_drop]; omega
  simp [he, hf, this]

theorem read_short (s : IStream) (n : Nat) (hlen : s.data.length < s.pos + n) (hn : 0 < n) :
    (s.read n).2.failbit = true ∧ ((s.read n).2.eofbit = true ∨ s.failbit = true) := by
  simp only [IStream.read]
  by_cases hb : (s.eofbit || s.failbit) = true
  · simp only [hb, if_true]
    simp only [Bool.or_eq_true] at hb
    rcases hb with hb | hb
    · exact ⟨trivial, Or.inl hb⟩
    · exact ⟨trivial, Or.inr hb⟩
  · have : ((s.data.drop s.pos).take n).length ≠ n := by
      rw [List.length_take, List.length_drop]; omega
    simp only [hb, this, if_false]
    exact ⟨rfl, Or.inl rfl⟩

theorem read_data (s : IStream) (n : Nat) : (s.read n).2.data = s.data := by
  simp only [IStream.read]
  split_ifs <;> rfl

/-- Reading from a good stream whose remaining bytes start with `bs`. -/
theorem read_of_drop (s : IStream) (bs rest : List Byte) (he : s.eofbit = false)
    (hf : s.failbit = false) (hd : s.data.drop s.pos = bs ++ rest) :
    s.read bs.length = (bs, { s with pos := s.pos + bs.length }) := by
  simp only [IStream.read, he, hf, hd, Bool.or_self, Bool.false_eq_true, if_false,
    List.take_left', List.take_append_eq_append_take, List.take_length, Nat.sub_self,
    List.take_zero, List.append_nil, if_true]

theorem drop_add_of_drop {β : Type} (l bs rest : List β) (p : Nat) (hd : l.drop p = bs ++ rest) :
    l.drop (p + bs.length) = rest := by
  rw [← List.drop_drop, hd, List.drop_left']
  rfl


/-! ### The RIFF header -/

theorem header_short (fuel : Nat) (file : List Byte) (h : file.length < 12) :
    readWavAsFloats fuel file = some (.returned []) := by
  have key : ((((⟨file, 0, false, false⟩ : IStream).read 4).2.readInt 4 0).2.read 4).2.failbit
      = true := by
    simp only [IStream.readInt, IStream.read, List.length_take, List.length_drop]
    split_ifs <;> (simp_all; try omega)
  unfold readWavAsFloats
  simp only [key, Bool.true_or, if_true]

theorem header_reads (file : List Byte) (h : 12 ≤ file.length) :
    ((⟨file, 0, false, false⟩ : IStream).read 4) = (file.take 4, ⟨file, 4, false, false⟩) ∧
    ((⟨file, 4, false, false⟩ : IStream).readInt 4 0).2 = ⟨file, 8, false, false⟩ ∧
    ((⟨file, 8, false, false⟩ : IStream).read 4) =
      ((file.drop 8).take 4, ⟨file, 12, false, false⟩) := by
  refine ⟨?_, ?_, ?_⟩
  · rw [read_good _ 4 rfl rfl (by simp only; omega)]; rfl
  · simp only [IStream.readInt]
    rw [read_good _ 4 rfl rfl (by simp only; omega)]
  · rw [read_good _ 4 rfl rfl (by simp only; omega)]

theorem header_bad_magic (fuel : Nat) (file : List Byte)
    (h : file.take 4 ≠ tagRIFF ∨ (file.drop 8).take 4 ≠ tagWAVE) :
    readWavAsFloats fuel file = some (.returned []) := by
  by_cases hl : file.length < 12
  · exact header_short fuel file hl
  · obtain ⟨h1, h2, h3⟩ := header_reads file (by omega)
    unfold readWavAsFloats
    simp only [h1, h2, h3]
    rcases h with h | h <;> simp [h]

/-- After a good header the decoder is the chunk walk followed by the sample loops. -/
theorem readWav_of_header (fuel : Nat) (file : List Byte) (hl : 12 ≤ file.length)
    (hr : file.take 4 = tagRIFF) (hw : (file.drop 8).take 4 = tagWAVE) :
    readWavAsFloats fuel file =
      (walkChunks fuel ⟨file, 12, false, false⟩ WavVars.init).map
        fun r => extractSamples r.1 r.2 := by
  obtain ⟨h1, h2, h3⟩ := header_reads file hl
  unfold readWavAsFloats
  simp only [h1, h2, h3, hr, hw]
  cases walkChunks fuel ⟨file, 12, false, false⟩ WavVars.init <;> simp

/-! ### Reads and seeks on a good stream -/

theorem read_lit (data : List Byte) (pos : Nat) (bs rest : List Byte)
    (hd : data.drop pos = bs ++ rest) :
    (⟨data, pos, false, false⟩ : IStream).read bs.length =
      (bs, ⟨data, pos + bs.length, false, false⟩) :=
  read_of_drop ⟨data, pos, false, false⟩ bs rest rfl rfl hd

theorem read_within (data : List Byte) (p0 k n : Nat) (a b : List Byte)
    (hd : data.drop p0 = a ++ b) (hk : k + n ≤ a.length) (hn : 0 < n) :
    (⟨data, p0 + k, false, false⟩ : IStream).read n =
      ((a.drop k).take n, ⟨data, p0 + k + n, false, false⟩) := by
  have hlen := congrArg List.length hd
  rw [List.length_drop, List.length_append] at hlen
  rw [read_good _ n rfl rfl (by simp only; omega)]
  simp only
  rw [← List.drop_drop, hd, List.drop_append_of_le_length (by omega),
    List.take_append_of_le_length (by rw [List.length_drop]; omega)]

theorem readInt_within (data : List Byte) (p0 k n old : Nat) (a b : List Byte)
    (hd : data.drop p0 = a ++ b) (hk : k + n ≤ a.length) (hn : 0 < n) :
    (⟨data, p0 + k, false, false⟩ : IStream).readInt n old =
      (leValue ((a.drop k).take n), ⟨data, p0 + k + n, false, false⟩) := by
  unfold IStream.readInt
  rw [read_within data p0 k n a b hd hk hn]
  simp only
  rw [storeLE_full]
  rw [List.length_take, List.length_drop]; omega

theorem seekCur_nat (data : List Byte) (p : Nat) (e : Bool) (n : Nat) :
    (⟨data, p, e, false⟩ : IStream).seekCur (n : Int) = ⟨data, p + n, false, false⟩ := by
  unfold IStream.seekCur
  have h : ¬ ((p : Int) + (n : Int) < 0) := by omega
  simp only [Bool.false_eq_true, if_false, h]
  have e : ((p : Int) + (n : Int)).toNat = p + n := by omega
  rw [e]

theorem toInt32_small (n : Nat) (h : n < 2147483648) : toInt32 n = (n : Int) := by
  unfold toInt32
  have : n % 4294967296 = n := Nat.mod_eq_of_lt (by omega)
  simp [this, h]

theorem encode_length (c : Chunk) :
    c.encode.length = c.id.length + 4 + c.payload.length + c.payload.length % 2 := by
  unfold Chunk.encode
  simp only [List.length_append, leBytes_length]
  split_ifs with h
  · simp [h]
  · have : c.payload.length % 2 = 0 := by omega
    simp [this]

/-- The six reads of the `fmt ` branch when the sixteen bytes are there. -/
theorem fmtBranch_reads (data : List Byte) (p0 : Nat) (v : WavVars) (P rest : List Byte)
    (chunkSize : Nat) (hd : data.drop p0 = P ++ rest) (h16 : 16 ≤ P.length) :
    fmtBranch ⟨data, p0, false, false⟩ v chunkSize =
      (if chunkSize > 16 then
          (⟨data, p0 + 16, false, false⟩ : IStream).seekCur (toInt32 (chunkSize - 16))
        else ⟨data, p0 + 16, false, false⟩,
        { v with
          audioFormat := leValue (P.take 2)
          numChannels := leValue ((P.drop 2).take 2)
          sampleRate := leValue ((P.drop 4).take 4)
          bitsPerSample := leValue ((P.drop 14).take 2) }) := by
  unfold fmtBranch
  have e0 : (⟨data, p0, false, false⟩ : IStream) = ⟨data, p0 + 0, false, false⟩ := rfl
  rw [e0, readInt_within data p0 0 2 0 P rest hd (by omega) (by norm_num)]
  simp only
  rw [show p0 + 0 + 2 = p0 + 2 from rfl,
    readInt_within data p0 2 2 _ P rest hd (by omega) (by norm_num)]
  simp only
  rw [show p0 + 2 + 2 = p0 + 4 from rfl,
    readInt_within data p0 4 4 _ P rest hd (by omega) (by norm_num)]
  simp only
  rw [show p0 + 4 + 4 = p0 + 8 from rfl,
    readInt_within data p0 8 4 _ P rest hd (by omega) (by norm_num)]
  simp only
  rw [show p0 + 8 + 4 = p0 + 12 from rfl,
    readInt_within data p0 12 2 _ P rest hd (by omega) (by norm_num)]
  simp only
  rw [show p0 + 12 + 2 = p0 + 14 from rfl,
    readInt_within data p0 14 2 _ P rest hd (by omega) (by norm_num)]
  simp only [List.drop_zero]

/-- The `fmt ` branch on a chunk whose payload holds the sixteen mandatory bytes. -/
theorem fmtBranch_chunk (data : List Byte) (p0 : Nat) (v : WavVars) (P rest : List Byte)
    (hd : data.drop p0 = P ++ rest) (h16 : 16 ≤ P.length) (hext : P.length < 2147483664) :
    fmtBranch ⟨data, p0, false, false⟩ v P.length =
      (⟨data, p0 + P.length, false, false⟩,
        { v with
          audioFormat := leValue (P.take 2)
          numChannels := leValue ((P.drop 2).take 2)
          sampleRate := leValue ((P.drop 4).take 4)
          bitsPerSample := leValue ((P.drop 14).take 2) }) := by
  rw [fmtBranch_reads data p0 v P rest P.length hd h16]
  by_cases hL : P.length > 16
  · rw [if_pos hL, toInt32_small _ (by omega), seekCur_nat]
    congr 2
    omega
  · rw [if_neg hL]
    congr 2
    omega

theorem readInt_lit (data : List Byte) (pos L : Nat) (rest : List Byte) (hL : L < 4294967296)
    (hd : data.drop pos = leBytes 4 L ++ rest) :
    (⟨data, pos, false, false⟩ : IStream).readInt 4 0 = (L, ⟨data, pos + 4, false, false⟩) := by
  unfold IStream.readInt
  have h := read_lit data pos (leBytes 4 L) rest hd
  rw [leBytes_length] at h
  rw [h]
  simp only
  rw [storeLE_full _ _ _ (leBytes_length 4 L), leValue_leBytes]
  congr 1
  exact Nat.mod_eq_of_lt (by norm_num; exact hL)

theorem pad_seek (data : List Byte) (p L : Nat) (e : Bool) :
    (if L % 2 = 1 then (⟨data, p + L, e, false⟩ : IStream).seekCur 1
      else ⟨data, p + L, false, false⟩) = ⟨data, p + L + L % 2, false, false⟩ := by
  split_ifs with h
  · have := seekCur_nat data (p + L) e 1
    simp only [Nat.cast_one] at this
    rw [this, h]
  · have : L % 2 = 0 := by omega
    rw [this]; rfl

/-- One pass of the loop body over a well-formed chunk. -/
theorem walkBody_chunk (data : List Byte) (p : Nat) (v : WavVars) (c : Chunk)
    (rest : List Byte) (hd : data.drop p = c.encode ++ rest) (hwf : c.WellFormed) :
    walkBody ⟨data, p, false, false⟩ v =
      .next ⟨data, p + c.encode.length, false, false⟩ (c.update p v) := by
  obtain ⟨hid, hlen, hfmt⟩ := hwf
  have hd1 : data.drop p = c.id ++ (leBytes 4 c.payload.length ++
      (c.payload ++ ((if c.payload.length % 2 = 1 then [c.pad] else []) ++ rest))) := by
    rw [hd]; simp only [Chunk.encode, List.append_assoc]
  have r1 := read_lit data p c.id _ hd1
  rw [hid] at r1
  have hd2 := drop_add_of_drop _ _ _ _ hd1
  rw [hid] at hd2
  have r2 := readInt_lit data (p + 4) c.payload.length _ hlen hd2
  have hd3 := drop_add_of_drop _ _ _ _ hd2
  rw [leBytes_length] at hd3
  have henc : p + c.encode.length = p + 4 + 4 + c.payload.length + c.payload.length % 2 := by
    rw [encode_length, hid]; omega
  rw [henc]
  unfold walkBody
  simp only [r1, r2, Bool.or_self, Bool.false_eq_true, if_false]
  by_cases hf : c.id = tagFmt
  · obtain ⟨h16, hext⟩ := hfmt hf
    simp only [hf, if_true]
    rw [fmtBranch_chunk data (p + 4 + 4) v c.payload _ hd3 h16 hext]
    simp only
    rw [pad_seek]
    simp [Chunk.update, hf, Chunk.formatTag, Chunk.bits]
  · by_cases hdt : c.id = tagData
    · have hne : tagData ≠ tagFmt := by decide
      simp only [hdt, hne, if_false, if_true, seekCur_nat]
      rw [pad_seek]
      simp [Chunk.update, hdt, hne]
    · simp only [hf, hdt, if_false, seekCur_nat]
      rw [pad_seek]
      simp [Chunk.update, hf, hdt]

/-- The loop stops at the first pass that starts at or beyond the end of the file. -/
theorem walkChunks_at_end (fuel : Nat) (data : List Byte) (p : Nat) (v : WavVars)
    (hp : data.length ≤ p) :
    walkChunks (fuel + 1) ⟨data, p, false, false⟩ v = some (⟨data, p, true, true⟩, v) := by
  have hr : (⟨data, p, false, false⟩ : IStream).read 4 = ([], ⟨data, p, true, true⟩) := by
    simp [IStream.read, List.drop_of_length_le hp]
  simp [walkChunks, walkBody, hr]

/-- The chunk walk over a sequence of well-formed chunks. -/
theorem walkChunks_chunks (cs : List Chunk) (fuel : Nat) (data : List Byte) (p : Nat)
    (v : WavVars) (rest : List Byte) (hd : data.drop p = encodeChunks cs ++ rest)
    (hwf : ∀ c ∈ cs, c.WellFormed) :
    walkChunks (cs.length + fuel) ⟨data, p, false, false⟩ v =
      walkChunks fuel ⟨data, p + (encodeChunks cs).length, false, false⟩ (scanVars p v cs) := by
  induction cs generalizing p v with
  | nil => simp [encodeChunks, scanVars]
  | cons c cs ih =>
    have hd1 : data.drop p = c.encode ++ (encodeChunks cs ++ rest) := by
      rw [hd]; simp [encodeChunks]
    have hstep := walkBody_chunk data p v c _ hd1 (hwf c (List.mem_cons_self _ _))
    have hd2 := drop_add_of_drop _ _ _ _ hd1
    have := ih (p + c.encode.length) (c.update p v) hd2
      (fun x hx => hwf x (List.mem_cons_of_mem _ hx))
    rw [show (c :: cs).length + fuel = (cs.length + fuel) + 1 by simp; omega]
    simp only [walkChunks, hstep, Bool.false_eq_true, if_false]
    rw [this]
    simp [encodeChunks, scanVars, Nat.add_assoc]

/-! ### The sample loops -/

theorem floatSamples_short (bs : List Byte) (h : bs.length < 4) : floatSamples bs = [] := by
  match bs, h with
  | [], _ => rfl
  | [_], _ => rfl
  | [_, _], _ => rfl
  | [_, _, _], _ => rfl
  | _ :: _ :: _ :: _ :: _, h => simp at h; omega

theorem pcmSamples_short (bs : List Byte) (h : bs.length < 2) : pcmSamples bs = [] := by
  match bs, h with
  | [], _ => rfl
  | [_], _ => rfl
  | _ :: _ :: _, h => simp at h; omega

theorem readFloatSamples_eq (n : Nat) (data : List Byte) (p : Nat) :
    readFloatSamples n ⟨data, p, false, false⟩ = (floatSamples (data.drop p)).take n := by
  induction n generalizing p with
  | zero => simp [readFloatSamples]
  | succ n ih =>
    by_cases hlen : (data.drop p).length < 4
    · have hs := read_short ⟨data, p, false, false⟩ 4
        (by rw [List.length_drop] at hlen; simp only; omega) (by norm_num)
      simp [readFloatSamples, hs.1, floatSamples_short _ hlen]
    · obtain ⟨b0, b1, b2, b3, rest, hd⟩ :
          ∃ b0 b1 b2 b3 rest, data.drop p = [b0, b1, b2, b3] ++ rest := by
        match hq : data.drop p, hlen with
        | [], h => simp at h
        | [_], h => simp at h
        | [_, _], h => simp at h
        | [_, _, _], h => simp at h
        | b0 :: b1 :: b2 :: b3 :: rest, _ => exact ⟨b0, b1, b2, b3, rest, rfl⟩
      have hr := read_lit data p [b0, b1, b2, b3] rest hd
      have hd2 := drop_add_of_drop _ _ _ _ hd
      simp only [List.length_cons, List.length_nil] at hr hd2
      simp only [readFloatSamples, hr, Bool.false_eq_true, if_false, ih, hd2, hd,
        List.cons_append, List.nil_append, floatSamples, List.take_succ_cons]

theorem readPcmSamples_eq (n : Nat) (data : List Byte) (p : Nat) :
    readPcmSamples n ⟨data, p, false, false⟩ = (pcmSamples (data.drop p)).take n := by
  induction n generalizing p with
  | zero => simp [readPcmSamples]
  | succ n ih =>
    by_cases hlen : (data.drop p).length < 2
    · have hs := read_short ⟨data, p, false, false⟩ 2
        (by rw [List.length_drop] at hlen; simp only; omega) (by norm_num)
      simp [readPcmSamples, hs.1, pcmSamples_short _ hlen]
    · obtain ⟨b0, b1, rest, hd⟩ : ∃ b0 b1 rest, data.drop p = [b0, b1] ++ rest := by
        match hq : data.drop p, hlen with
        | [], h => simp at h
        | [_], h => simp at h
        | b0 :: b1 :: rest, _ => exact ⟨b0, b1, rest, rfl⟩
      have hr := read_lit data p [b0, b1] rest hd
      have hd2 := drop_add_of_drop _ _ _ _ hd
      simp only [List.length_cons, List.length_nil] at hr hd2
      simp only [readPcmSamples, hr, Bool.false_eq_true, if_false, ih, hd2, hd,
        List.cons_append, List.nil_append, pcmSamples, List.take_succ_cons]

theorem floatSamples_length (bs : List Byte) : (floatSamples bs).length = bs.length / 4 := by
  induction bs using floatSamples.induct with
  | case1 b0 b1 b2 b3 rest ih =>
    simp only [floatSamples, List.length_cons, ih]; omega
  | case2 bs h =>
    have hl : bs.length < 4 := by
      match bs, h with
      | [], _ => simp
      | [_], _ => simp
      | [_, _], _ => simp
      | [_, _, _], _ => simp
      | b0 :: b1 :: b2 :: b3 :: rest, h => exact absurd rfl (h b0 b1 b2 b3 rest)
    rw [floatSamples_short _ hl]; simp; omega

theorem pcmSamples_length (bs : List Byte) : (pcmSamples bs).length = bs.length / 2 := by
  induction bs using pcmSamples.induct with
  | case1 b0 b1 rest ih =>
    simp only [pcmSamples, List.length_cons, ih]; omega
  | case2 bs h =>
    have hl : bs.length < 2 := by
      match bs, h with
      | [], _ => simp
      | [_], _ => simp
      | b0 :: b1 :: rest, h => exact absurd rfl (h b0 b1 rest)
    rw [pcmSamples_short _ hl]; simp; omega

theorem floatSamples_append_take (bs rest : List Byte) :
    (floatSamples (bs ++ rest)).take (bs.length / 4) = floatSamples bs := by
  induction bs using floatSamples.induct with
  | case1 b0 b1 b2 b3 tl ih =>
    have : (b0 :: b1 :: b2 :: b3 :: tl).length / 4 = tl.length / 4 + 1 := by
      simp only [List.length_cons]; omega
    rw [this]
    simp only [List.cons_append, floatSamples, List.take_succ_cons]
    exact congrArg (List.cons _) ih
  | case2 bs h =>
    have hl : bs.length < 4 := by
      match bs, h with
      | [], _ => simp
      | [_], _ => simp
      | [_, _], _ => simp
      | [_, _, _], _ => simp
      | b0 :: b1 :: b2 :: b3 :: rest, h => exact absurd rfl (h b0 b1 b2 b3 rest)
    rw [floatSamples_short _ hl, Nat.div_eq_of_lt hl, List.take_zero]

theorem pcmSamples_append_take (bs rest : List Byte) :
    (pcmSamples (bs ++ rest)).take (bs.length / 2) = pcmSamples bs := by
  induction bs using pcmSamples.induct with
  | case1 b0 b1 tl ih =>
    have : (b0 :: b1 :: tl).length / 2 = tl.length / 2 + 1 := by
      simp only [List.length_cons]; omega
    rw [this]
    simp only [List.cons_append, pcmSamples, List.take_succ_cons]
    exact congrArg (List.cons _) ih
  | case2 bs h =>
    have hl : bs.length < 2 := by
      match bs, h with
      | [], _ => simp
      | [_], _ => simp
      | b0 :: b1 :: rest, h => exact absurd rfl (h b0 b1 rest)
    rw [pcmSamples_short _ hl, Nat.div_eq_of_lt hl, List.take_zero]

/-! ### Variables after the walk -/

theorem encodeChunks_cons (c : Chunk) (cs : List Chunk) :
    encodeChunks (c :: cs) = c.encode ++ encodeChunks cs := by
  simp [encodeChunks]

theorem encodeChunks_append (a b : List Chunk) :
    encodeChunks (a ++ b) = encodeChunks a ++ encodeChunks b := by
  simp [encodeChunks]

theorem scanVars_append (p : Nat) (v : WavVars) (a b : List Chunk) :
    scanVars p v (a ++ b) = scanVars (p + (encodeChunks a).length) (scanVars p v a) b := by
  induction a generalizing p v with
  | nil => simp [scanVars, encodeChunks]
  | cons c a ih =>
    simp only [List.cons_append, scanVars, encodeChunks_cons, List.length_append]
    rw [← Nat.add_assoc]
    exact ih _ _

theorem scanVars_no_data (cs : List Chunk) (h : ∀ c ∈ cs, c.id ≠ tagData) (p : Nat)
    (v : WavVars) :
    (scanVars p v cs).dataPos = v.dataPos ∧ (scanVars p v cs).dataSize = v.dataSize := by
  induction cs generalizing p v with
  | nil => exact ⟨rfl, rfl⟩
  | cons c cs ih =>
    have hc := h c (List.mem_cons_self _ _)
    have := ih (fun x hx => h x (List.mem_cons_of_mem _ hx)) (p + c.encode.length)
      (c.update p v)
    simp only [scanVars, this]
    unfold Chunk.update
    split_ifs <;> exact ⟨rfl, rfl⟩

theorem scanVars_no_fmt (cs : List Chunk) (h : ∀ c ∈ cs, c.id ≠ tagFmt) (p : Nat)
    (v : WavVars) :
    (scanVars p v cs).audioFormat = v.audioFormat ∧
      (scanVars p v cs).bitsPerSample = v.bitsPerSample := by
  induction cs generalizing p v with
  | nil => exact ⟨rfl, rfl⟩
  | cons c cs ih =>
    have hc := h c (List.mem_cons_self _ _)
    have := ih (fun x hx => h x (List.mem_cons_of_mem _ hx)) (p + c.encode.length)
      (c.update p v)
    simp only [scanVars, this]
    simp only [Chunk.update, hc, if_false]
    split_ifs <;> exact ⟨rfl, rfl⟩

theorem scanVars_last_data (pre post : List Chunk) (d : Chunk) (hd : d.id = tagData)
    (hpost : ∀ c ∈ post, c.id ≠ tagData) (p : Nat) (v : WavVars) :
    (scanVars p v (pre ++ d :: post)).dataPos = some (p + (encodeChunks pre).length + 8) ∧
      (scanVars p v (pre ++ d :: post)).dataSize = d.payload.length := by
  have hne : tagData ≠ tagFmt := by decide
  rw [scanVars_append]
  simp only [scanVars]
  have := scanVars_no_data post hpost (p + (encodeChunks pre).length + d.encode.length)
    (d.update (p + (encodeChunks pre).length) (scanVars p v pre))
  rw [this.1, this.2]
  simp [Chunk.update, hd, hne]

theorem scanVars_last_fmt (pre post : List Chunk) (f : Chunk) (hf : f.id = tagFmt)
    (hpost : ∀ c ∈ post, c.id ≠ tagFmt) (p : Nat) (v : WavVars) :
    (scanVars p v (pre ++ f :: post)).audioFormat = f.formatTag ∧
      (scanVars p v (pre ++ f :: post)).bitsPerSample = f.bits := by
  rw [scanVars_append]
  simp only [scanVars]
  have := scanVars_no_fmt post hpost (p + (encodeChunks pre).length + f.encode.length)
    (f.update (p + (encodeChunks pre).length) (scanVars p v pre))
  rw [this.1, this.2]
  simp [Chunk.update, hf]

/-! ### Whole files -/

theorem riff_header (sz body : List Byte) (hsz : sz.length = 4) :
    12 ≤ (tagRIFF ++ sz ++ tagWAVE ++ body).length ∧
      (tagRIFF ++ sz ++ tagWAVE ++ body).take 4 = tagRIFF ∧
      ((tagRIFF ++ sz ++ tagWAVE ++ body).drop 8).take 4 = tagWAVE ∧
      (tagRIFF ++ sz ++ tagWAVE ++ body).drop 12 = body := by
  match sz, hsz with
  | [a, b, c, d], _ => simp [tagRIFF, tagWAVE]

/-- The decoder on a file with a good header whose body is a sequence of well-formed
chunks followed by bytes `tail`: the walk continues on `tail`. -/
theorem readWav_body (fuel : Nat) (sz : List Byte) (cs : List Chunk) (tail : List Byte)
    (hsz : sz.length = 4) (hwf : ∀ c ∈ cs, c.WellFormed) :
    readWavAsFloats (cs.length + fuel) (tagRIFF ++ sz ++ tagWAVE ++ (encodeChunks cs ++ tail)) =
      (walkChunks fuel ⟨tagRIFF ++ sz ++ tagWAVE ++ (encodeChunks cs ++ tail),
          12 + (encodeChunks cs).length, false, false⟩ (scanVars 12 WavVars.init cs)).map
        fun r => extractSamples r.1 r.2 := by
  obtain ⟨h1, h2, h3, h4⟩ := riff_header sz (encodeChunks cs ++ tail) hsz
  rw [readWav_of_header _ _ h1 h2 h3, walkChunks_chunks cs fuel _ 12 _ tail h4 hwf]

theorem extractSamples_float (s : IStream) (v : WavVars) (q : Nat)
    (hq : v.dataPos = some q) (ht : v.audioFormat = 3) (hb : v.bitsPerSample = 32) :
    extractSamples s v = .returned ((floatSamples (s.data.drop q)).take (v.dataSize / 4)) := by
  unfold extractSamples
  simp only [hq, ht, hb, IStream.clearSeek, readFloatSamples_eq]
  simp

theorem extractSamples_pcm (s : IStream) (v : WavVars) (q : Nat)
    (hq : v.dataPos = some q) (ht : v.audioFormat = 1) (hb : v.bitsPerSample = 16) :
    extractSamples s v = .returned ((pcmSamples (s.data.drop q)).take (v.dataSize / 2)) := by
  unfold extractSamples
  simp only [hq, ht, hb, IStream.clearSeek, readPcmSamples_eq]
  simp

/-- The bytes of a file from the payload of the chunk `d` on. -/
theorem drop_to_payload (sz : List Byte) (pre post : List Chunk) (d : Chunk) (tail : List Byte)
    (hsz : sz.length = 4) (hid : d.id.length = 4) :
    (tagRIFF ++ sz ++ tagWAVE ++ (encodeChunks (pre ++ d :: post) ++ tail)).drop
        (12 + (encodeChunks pre).length + 8) =
      d.payload ++ ((if d.payload.length % 2 = 1 then [d.pad] else []) ++
        (encodeChunks post ++ tail)) := by
  obtain ⟨_, _, _, h4⟩ := riff_header sz (encodeChunks (pre ++ d :: post) ++ tail) hsz
  rw [Nat.add_assoc, ← List.drop_drop, h4, encodeChunks_append, encodeChunks_cons,
    ← List.drop_drop]
  simp only [List.append_assoc]
  rw [List.drop_left']
  · have : d.encode ++ (encodeChunks post ++ tail) =
        (d.id ++ leBytes 4 d.payload.length) ++ (d.payload ++
          ((if d.payload.length % 2 = 1 then [d.pad] else []) ++
            (encodeChunks post ++ tail))) := by
      simp only [Chunk.encode, List.append_assoc]
    rw [this, List.drop_left']
    rw [List.length_append, hid, leBytes_length]
  · rfl

/-! ### Floats as bit patterns -/

theorem f32OfBytes_toBytes (x : F32) : f32OfBytes (f32ToBytes x) = x := by
  unfold f32OfBytes f32ToBytes
  apply Fin.ext
  simp only [leValue_leBytes]
  have := x.isLt
  omega

theorem f32ToBytes_length (x : F32) : (f32ToBytes x).length = 4 := leBytes_length 4 _

theorem floatSamples_flatten (l : List F32) :
    floatSamples (l.map f32ToBytes).flatten = l := by
  induction l with
  | nil => rfl
  | cons x l ih =>
    have hx := f32OfBytes_toBytes x
    have hl := f32ToBytes_length x
    simp only [List.map_cons, List.flatten_cons]
    match hq : f32ToBytes x, hl with
    | [b0, b1, b2, b3], _ =>
      rw [hq] at hx
      simp only [List.cons_append, floatSamples, hx]
      exact congrArg (List.cons x) ih

theorem flatten_f32_length (l : List F32) : (l.map f32ToBytes).flatten.length = 4 * l.length := by
  induction l with
  | nil => rfl
  | cons x l ih =>
    simp only [List.map_cons, List.flatten_cons, List.length_append, f32ToBytes_length, ih,
      List.length_cons]
    omega

/-- A sample already in `[-1.0, 1.0]` is left unchanged, bit for bit, by the clamp. -/
theorem clampSample_of_mem (v : F32) (h1 : f32Le f32NegOne v = true)
    (h2 : f32Le v f32One = true) : clampSample v = v := by
  have hv := v.isLt
  simp only [f32Le, Bool.and_eq_true, Bool.not_eq_true', decide_eq_true_eq] at h1 h2
  obtain ⟨⟨_, hn⟩, hk1⟩ := h1
  obtain ⟨⟨_, hn1⟩, hk2⟩ := h2
  have key1 : f32Key f32One = 1065353216 := by decide
  have keyN : f32Key f32NegOne = -1065353216 := by decide
  have nan1 : f32IsNaN f32One = false := by decide
  have nanN : f32IsNaN f32NegOne = false := by decide
  rw [key1] at hk2
  rw [keyN] at hk1
  unfold clampSample f32Min f32Max f32Lt
  simp only [hn, nan1, nanN, key1, keyN, Bool.not_false, Bool.true_and]
  by_cases ha : f32Key v < 1065353216
  · simp only [ha, decide_True, if_true, hn, Bool.not_false, Bool.true_and]
    by_cases hb : -1065353216 < f32Key v
    · simp [hb]
    · simp only [hb, decide_False, Bool.false_eq_true, if_false]
      have : f32Key v = -1065353216 := by omega
      apply Fin.ext
      unfold f32Key at this
      simp only [f32NegOne]
      split_ifs at this
      all_goals omega
  · simp only [ha, decide_False, Bool.false_eq_true, if_false, nan1, key1, Bool.not_false,
      Bool.true_and]
    have : f32Key v = 1065353216 := by omega
    have e : v = f32One := by
      apply Fin.ext
      unfold f32Key at this
      simp only [f32One]
      split_ifs at this <;> omega
    rw [e]
    decide

/-- The clamp always lands in `[-1.0, 1.0]` (NaN is sent to `1.0`). -/
theorem clampSample_mem (v : F32) :
    f32Le f32NegOne (clampSample v) = true ∧ f32Le (clampSample v) f32One = true := by
  have key1 : f32Key f32One = 1065353216 := by decide
  have keyN : f32Key f32NegOne = -1065353216 := by decide
  have nan1 : f32IsNaN f32One = false := by decide
  have nanN : f32IsNaN f32NegOne = false := by decide
  unfold clampSample f32Min f32Max
  by_cases ha : f32Lt v f32One = true
  · simp only [ha, if_true]
    by_cases hb : f32Lt f32NegOne v = true
    · simp only [hb, if_true]
      simp only [f32Lt, f32Le, Bool.and_eq_true, Bool.not_eq_true', decide_eq_true_eq] at *
      exact ⟨⟨⟨nanN, ha.1.1⟩, by omega⟩, ⟨⟨ha.1.1, nan1⟩, by omega⟩⟩
    · have hb2 : f32Lt f32NegOne v = false := by simpa using hb
      simp only [hb2, Bool.false_eq_true, if_false]
      decide
  · have ha2 : f32Lt v f32One = false := by simpa using ha
    simp only [ha2, Bool.false_eq_true, if_false]
    decide

/-! ### Decoding well-formed files -/

/-- On a well-formed file the walk ends after one pass per chunk and one more. -/
theorem readWav_wellformed (fuel : Nat) (sz : List Byte) (cs : List Chunk)
    (hsz : sz.length = 4) (hwf : ∀ c ∈ cs, c.WellFormed) (hfuel : cs.length < fuel) :
    readWavAsFloats fuel (wavFile sz cs) =
      some (extractSamples ⟨wavFile sz cs, 12 + (encodeChunks cs).length, true, true⟩
        (scanVars 12 WavVars.init cs)) := by
  obtain ⟨k, rfl⟩ : ∃ k, fuel = cs.length + (k + 1) := ⟨fuel - cs.length - 1, by omega⟩
  have h := readWav_body (k + 1) sz cs [] hsz hwf
  simp only [List.append_nil] at h
  have hlen : (tagRIFF ++ sz ++ tagWAVE ++ encodeChunks cs).length ≤
      12 + (encodeChunks cs).length := by
    simp only [List.length_append, tagRIFF, tagWAVE, hsz, List.length_cons, List.length_nil]
    omega
  rw [walkChunks_at_end k _ _ _ hlen] at h
  exact h

/-- Float path: the last `fmt ` chunk says (3, 32); the samples are those of the payload
of the last `data` chunk. -/
theorem readWav_float32 (fuel : Nat) (sz : List Byte) (pre post pre2 post2 : List Chunk)
    (d f : Chunk) (hsz : sz.length = 4) (hwf : ∀ c ∈ pre ++ d :: post, c.WellFormed)
    (hd : d.id = tagData) (hpost : ∀ c ∈ post, c.id ≠ tagData)
    (hcs : pre ++ d :: post = pre2 ++ f :: post2)
    (hf : f.id = tagFmt) (hpost2 : ∀ c ∈ post2, c.id ≠ tagFmt)
    (ht : f.formatTag = 3) (hb : f.bits = 32) (hfuel : (pre ++ d :: post).length < fuel) :
    readWavAsFloats fuel (wavFile sz (pre ++ d :: post)) =
      some (.returned (floatSamples d.payload)) := by
  rw [readWav_wellformed fuel sz _ hsz hwf hfuel]
  have hD := scanVars_last_data pre post d hd hpost 12 WavVars.init
  have hF := scanVars_last_fmt pre2 post2 f hf hpost2 12 WavVars.init
  rw [← hcs] at hF
  rw [extractSamples_float _ _ _ hD.1 (hF.1.trans ht) (hF.2.trans hb), hD.2]
  have hdrop := drop_to_payload sz pre post d [] hsz
    (hwf d (List.mem_append_right _ (List.mem_cons_self _ _))).1
  simp only [List.append_nil] at hdrop
  simp only [wavFile, hdrop, floatSamples_append_take]

/-- PCM path: the last `fmt ` chunk says (1, 16); the samples are those of the payload of
the last `data` chunk. -/
theorem readWav_pcm16 (fuel : Nat) (sz : List Byte) (pre post pre2 post2 : List Chunk)
    (d f : Chunk) (hsz : sz.length = 4) (hwf : ∀ c ∈ pre ++ d :: post, c.WellFormed)
    (hd : d.id = tagData) (hpost : ∀ c ∈ post, c.id ≠ tagData)
    (hcs : pre ++ d :: post = pre2 ++ f :: post2)
    (hf : f.id = tagFmt) (hpost2 : ∀ c ∈ post2, c.id ≠ tagFmt)
    (ht : f.formatTag = 1) (hb : f.bits = 16) (hfuel : (pre ++ d :: post).length < fuel) :
    readWavAsFloats fuel (wavFile sz (pre ++ d :: post)) =
      some (.returned (pcmSamples d.payload)) := by
  rw [readWav_wellformed fuel sz _ hsz hwf hfuel]
  have hD := scanVars_last_data pre post d hd hpost 12 WavVars.init
  have hF := scanVars_last_fmt pre2 post2 f hf hpost2 12 WavVars.init
  rw [← hcs] at hF
  rw [extractSamples_pcm _ _ _ hD.1 (hF.1.trans ht) (hF.2.trans hb), hD.2]
  have hdrop := drop_to_payload sz pre post d [] hsz
    (hwf d (List.mem_append_right _ (List.mem_cons_self _ _))).1
  simp only [List.append_nil] at hdrop
  simp only [wavFile, hdrop, pcmSamples_append_take]

/-! ### The encoder -/

theorem map_clamp_bytes (samples : List F32) :
    (samples.map fun v => f32ToBytes (clampSample v)) =
      (samples.map clampSample).map f32ToBytes := by
  rw [List.map_map]; rfl

/-- The file `writeWAVFile` writes is a RIFF/WAVE stream of two chunks. -/
theorem writeWAVFile_eq (samples : List F32) (sampleRate : Int)
    (h : 4 * samples.length < 4294967296) :
    writeWAVFile samples sampleRate =
      wavFile (leBytes 4 ((36 + 4 * samples.length) % 4294967296))
        [⟨tagFmt, leBytes 2 3 ++ leBytes 2 1 ++ leBytes 4 (sampleRate % 4294967296).toNat ++
            leBytes 4 ((sampleRate % 4294967296).toNat * 4 % 4294967296) ++
            leBytes 2 4 ++ leBytes 2 32, 0⟩,
         ⟨tagData, ((samples.map clampSample).map f32ToBytes).flatten, 0⟩] := by
  have h1 : samples.length * 4 % 4294967296 = 4 * samples.length := by omega
  have h2 : (((samples.map clampSample).map f32ToBytes).flatten).length = 4 * samples.length := by
    rw [flatten_f32_length, List.length_map]
  have h3 : ¬ ((4 * samples.length) % 2 = 1) := by omega
  simp only [writeWAVFile, wavFile, encodeChunks, Chunk.encode, h1, h2, h3, List.map_cons,
    List.map_nil, List.flatten_cons, List.flatten_nil, List.append_nil, List.length_append,
    leBytes_length, if_false, List.append_assoc, Nat.mul_one, map_clamp_bytes, Nat.reduceMod,
    Nat.reduceAdd, Nat.reduceMul]
  rfl

/-! ### The value of a decoded 16-bit sample -/

/-- Value of a normal float given by its sign, exponent field and mantissa field. -/
theorem f32ToRat_fields (x : F32) (s E M : Nat) (hs : s ≤ 1) (hE0 : 0 < E) (hE : E < 255)
    (hM : M < 8388608) (hx : x.val = s * 2147483648 + E * 8388608 + M) :
    f32ToRat x = (if s = 0 then 1 else -1) * (8388608 + (M : ℚ)) * (2 : ℚ) ^ ((E : Int) - 150) := by
  have h1 : x.val / 8388608 % 256 = E := by omega
  have h2 : x.val % 8388608 = M := by omega
  have h3 : x.val < 2147483648 ↔ s = 0 := by omega
  unfold f32ToRat
  simp only [h1, h2, h3]
  have hE1 : E ≠ 255 := by omega
  have hE2 : E ≠ 0 := by omega
  simp only [hE1, hE2, if_false]

theorem pow_split (e : Nat) (he : e ≤ 23) : 2 ^ (23 - e) * 2 ^ e = 8388608 := by
  rw [← pow_add, Nat.sub_add_cancel he]; norm_num

theorem topBit_spec (k m : Nat) (h0 : 0 < m) (hk : m < 2 ^ (k + 1)) :
    2 ^ topBit k m ≤ m ∧ m < 2 ^ (topBit k m + 1) ∧ topBit k m ≤ k := by
  induction k generalizing m with
  | zero => simp only [topBit]; omega
  | succ k ih =>
    unfold topBit
    split_ifs with h2
    · have hk2 : m / 2 < 2 ^ (k + 1) := by
        rw [pow_succ] at hk; omega
      obtain ⟨h1, h3, h4⟩ := ih (m / 2) (by omega) hk2
      refine ⟨?_, ?_, by omega⟩
      · rw [pow_succ]; omega
      · rw [pow_succ]; omega
    · simp only [pow_zero, zero_add, pow_one]; omega

/-- The float produced for a 16-bit sample has the value `pcm / 32768`. -/
theorem f32OfPcm_value (p : Int) (h1 : -32768 ≤ p) (h2 : p ≤ 32767) :
    f32ToRat (f32OfPcm p) = (p : ℚ) / 32768 := by
  by_cases hp : p = 0
  · subst hp
    simp [f32OfPcm, f32ToRat]
  · have hm0 : p.natAbs ≠ 0 := by simpa using hp
    have hm : p.natAbs ≤ 32768 := by omega
    obtain ⟨hlo, hhi, he⟩ := topBit_spec 16 p.natAbs (by omega) (by norm_num; omega)
    have he : topBit 16 p.natAbs < 16 := by
      by_contra hcon
      have : 2 ^ 16 ≤ 2 ^ topBit 16 p.natAbs := Nat.pow_le_pow_right (by norm_num) (by omega)
      norm_num at this
      omega
    generalize hE : topBit 16 p.natAbs = e at hlo hhi he
    have hsplit := pow_split e (by omega)
    have hM : (p.natAbs - 2 ^ e) * 2 ^ (23 - e) < 8388608 := by
      have : p.natAbs - 2 ^ e < 2 ^ e := by rw [pow_succ] at hhi; omega
      calc (p.natAbs - 2 ^ e) * 2 ^ (23 - e) < 2 ^ e * 2 ^ (23 - e) :=
            Nat.mul_lt_mul_of_pos_right this (by positivity)
        _ = 8388608 := by rw [Nat.mul_comm]; exact hsplit
    have hval : (f32OfPcm p).val = (if p < 0 then 1 else 0) * 2147483648 + (e + 112) * 8388608
        + (p.natAbs - 2 ^ e) * 2 ^ (23 - e) := by
      simp only [f32OfPcm, hp, if_false, hE]
      split_ifs <;> omega
    rw [f32ToRat_fields _ (if p < 0 then 1 else 0) (e + 112) _ (by split_ifs <;> omega)
      (by omega) (by omega) hM hval]
    have hcast : (8388608 : ℚ) + (((p.natAbs - 2 ^ e) * 2 ^ (23 - e) : ℕ) : ℚ) =
        (2 : ℚ) ^ (23 - e) * (p.natAbs : ℚ) := by
      have : 8388608 + (p.natAbs - 2 ^ e) * 2 ^ (23 - e) = 2 ^ (23 - e) * p.natAbs := by
        rw [Nat.sub_mul, Nat.mul_comm (2 ^ e), hsplit, Nat.mul_comm p.natAbs]
        have : 8388608 ≤ 2 ^ (23 - e) * p.natAbs := by
          rw [← hsplit]; exact Nat.mul_le_mul_left _ hlo
        omega
      exact_mod_cast this
    rw [hcast]
    have hz : (2 : ℚ) ^ (23 - e) * (2 : ℚ) ^ (((e + 112 : ℕ) : Int) - 150) = 1 / 32768 := by
      rw [← zpow_natCast, ← zpow_add₀ (by norm_num)]
      have : ((23 - e : ℕ) : Int) + (((e + 112 : ℕ) : Int) - 150) = -15 := by omega
      rw [this]; norm_num
    have habs : (p.natAbs : ℚ) = if p < 0 then -(p : ℚ) else (p : ℚ) := by
      split_ifs with hneg
      · have : (p.natAbs : Int) = -p := by omega
        rw [← Int.cast_natCast, this, Int.cast_neg]
      · have : (p.natAbs : Int) = p := by omega
        rw [← Int.cast_natCast, this]
    rw [mul_assoc, mul_comm ((2 : ℚ) ^ (23 - e)) _, mul_assoc, hz, habs]
    split_ifs <;> simp_all <;> ring

theorem toInt16_range (n : Nat) : -32768 ≤ toInt16 n ∧ toInt16 n ≤ 32767 := by
  unfold toInt16
  split_ifs <;> omega

theorem pcmSamples_getElem (bs : List Byte) (i : Nat) (hi : i < bs.length / 2) :
    (pcmSamples bs)[i]? = some (f32OfPcm (pcmAt bs i)) := by
  induction bs using pcmSamples.induct generalizing i with
  | case1 b0 b1 rest ih =>
    cases i with
    | zero => simp [pcmSamples, pcmAt, leValue]
    | succ j =>
      have hj : j < rest.length / 2 := by simp only [List.length_cons] at hi; omega
      have e1 : 2 * (j + 1) = (2 * j + 1) + 1 := by ring
      have e2 : 2 * (j + 1) + 1 = (2 * j + 1 + 1) + 1 := by ring
      simp only [pcmSamples, List.getElem?_cons_succ, ih j hj, pcmAt]
      rw [e2, e1]
      simp only [List.getD_cons_succ]
  | case2 bs h =>
    exfalso
    match bs, h with
    | [], _ => simp at hi
    | [_], _ => simp only [List.length_cons, List.length_nil] at hi; omega
    | b0 :: b1 :: rest, h => exact h b0 b1 rest rfl

/-! ### A chunk walk that does not end -/

/-- The loop body on `loopFile` comes back to the offset it started from. -/
theorem walkBody_loopFile (v : WavVars) :
    walkBody ⟨loopFile, 12, false, false⟩ v =
      .next ⟨loopFile, 12, false, false⟩
        { v with audioFormat := 1, numChannels := 1, sampleRate := 48000, bitsPerSample := 16 } := by
  have hd1 : loopFile.drop 12 =
      tagFmt ++ (leBytes 4 4294967288 ++ (fmtPayload 1 1 48000 96000 2 16 ++ [])) := by decide
  have r1 := read_lit loopFile 12 tagFmt _ hd1
  have hd2 := drop_add_of_drop _ _ _ _ hd1
  have r2 := readInt_lit loopFile (12 + 4) 4294967288 _ (by norm_num) hd2
  have hd3 := drop_add_of_drop _ _ _ _ hd2
  have r3 := fmtBranch_reads loopFile (12 + 4 + 4) v (fmtPayload 1 1 48000 96000 2 16) []
    4294967288 hd3 (by decide)
  have hoff : toInt32 (4294967288 - 16) = -24 := by decide
  have hseek : (⟨loopFile, 12 + 4 + 4 + 16, false, false⟩ : IStream).seekCur (-24) =
      ⟨loopFile, 12, false, false⟩ := by
    simp [IStream.seekCur]
  have v1 : leValue ((fmtPayload 1 1 48000 96000 2 16).take 2) = 1 := by decide
  have v2 : leValue (((fmtPayload 1 1 48000 96000 2 16).drop 2).take 2) = 1 := by decide
  have v3 : leValue (((fmtPayload 1 1 48000 96000 2 16).drop 4).take 4) = 48000 := by decide
  have v4 : leValue (((fmtPayload 1 1 48000 96000 2 16).drop 14).take 2) = 16 := by decide
  have hgt : 4294967288 > 16 := by norm_num
  rw [if_pos hgt, hoff, hseek, v1, v2, v3, v4] at r3
  unfold walkBody
  simp only [show tagFmt.length = 4 from rfl] at r1
  simp only [r1, r2, r3, Bool.or_self, Bool.false_eq_true, if_false, if_true]
  rfl

theorem walkChunks_loopFile (fuel : Nat) (v : WavVars) :
    walkChunks fuel ⟨loopFile, 12, false, false⟩ v = none := by
  induction fuel generalizing v with
  | zero => rfl
  | succ n ih => simp only [walkChunks, walkBody_loopFile, Bool.false_eq_true, if_false, ih]

/-! ### A `data` chunk cut short by the end of the file -/

/-- One pass of the loop body over the header of a `data` chunk, whatever follows. -/
theorem walkBody_data_header (data : List Byte) (p : Nat) (v : WavVars) (D : Nat)
    (tail : List Byte) (hD : D < 4294967296)
    (hd : data.drop p = tagData ++ (leBytes 4 D ++ tail)) :
    walkBody ⟨data, p, false, false⟩ v =
      .next ⟨data, p + 4 + 4 + D + D % 2, false, false⟩
        { v with dataSize := D, dataPos := some (p + 4 + 4) } := by
  have r1 := read_lit data p tagData _ hd
  have hd2 := drop_add_of_drop _ _ _ _ hd
  simp only [show tagData.length = 4 from rfl] at r1 hd2
  have r2 := readInt_lit data (p + 4) D _ hD hd2
  have hne : tagData ≠ tagFmt := by decide
  unfold walkBody
  simp only [r1, r2, Bool.or_self, Bool.false_eq_true, if_false, hne, if_true, seekCur_nat]
  rw [pad_seek]

theorem riff_length (sz body : List Byte) (hsz : sz.length = 4) :
    (tagRIFF ++ sz ++ tagWAVE ++ body).length = 12 + body.length := by
  simp only [List.length_append, tagRIFF, tagWAVE, hsz, List.length_cons, List.length_nil]

/-- The decoder on a well-formed chunk sequence followed by a `data` chunk whose
declared size `D` exceeds the bytes `part` that are left in the file. -/
theorem readWav_truncated (fuel : Nat) (sz : List Byte) (cs : List Chunk) (D : Nat)
    (part : List Byte) (hsz : sz.length = 4) (hwf : ∀ c ∈ cs, c.WellFormed)
    (hD : D < 4294967296) (hpart : part.length ≤ D) (hfuel : cs.length + 1 < fuel) :
    readWavAsFloats fuel (wavFile sz cs ++ tagData ++ leBytes 4 D ++ part) =
      some (extractSamples
        ⟨wavFile sz cs ++ tagData ++ leBytes 4 D ++ part,
          12 + (encodeChunks cs).length + 4 + 4 + D + D % 2, true, true⟩
        { scanVars 12 WavVars.init cs with
          dataSize := D, dataPos := some (12 + (encodeChunks cs).length + 4 + 4) }) ∧
      (wavFile sz cs ++ tagData ++ leBytes 4 D ++ part).drop
        (12 + (encodeChunks cs).length + 4 + 4) = part := by
  obtain ⟨k, rfl⟩ : ∃ k, fuel = cs.length + (k + 1 + 1) := ⟨fuel - cs.length - 2, by omega⟩
  have hfile : wavFile sz cs ++ tagData ++ leBytes 4 D ++ part =
      tagRIFF ++ sz ++ tagWAVE ++ (encodeChunks cs ++ (tagData ++ (leBytes 4 D ++ part))) := by
    simp only [wavFile, List.append_assoc]
  rw [hfile]
  obtain ⟨_, _, _, h4⟩ := riff_header sz (encodeChunks cs ++ (tagData ++ (leBytes 4 D ++ part))) hsz
  have hdrop : (tagRIFF ++ sz ++ tagWAVE ++
      (encodeChunks cs ++ (tagData ++ (leBytes 4 D ++ part)))).drop
        (12 + (encodeChunks cs).length) = tagData ++ (leBytes 4 D ++ part) := by
    rw [← List.drop_drop, h4, List.drop_left']; rfl
  have hlen := riff_length sz (encodeChunks cs ++ (tagData ++ (leBytes 4 D ++ part))) hsz
  have hlen2 : (encodeChunks cs ++ (tagData ++ (leBytes 4 D ++ part))).length =
      (encodeChunks cs).length + 4 + 4 + part.length := by
    simp only [List.length_append, leBytes_length, show tagData.length = 4 from rfl]
    omega
  constructor
  · rw [readWav_body (k + 1 + 1) sz cs _ hsz hwf]
    have hstep := walkBody_data_header _ (12 + (encodeChunks cs).length)
      (scanVars 12 WavVars.init cs) D part hD hdrop
    rw [walkChunks]
    simp only [Bool.false_eq_true, if_false, hstep]
    rw [walkChunks_at_end k _ _ _ (by rw [hlen, hlen2]; omega)]
    rfl
  · have h2 := drop_add_of_drop _ _ _ _ hdrop
    have h3 := drop_add_of_drop _ _ _ _ h2
    simp only [leBytes_length, show tagData.length = 4 from rfl] at h2 h3
    exact h3

/-! ### Further facts used by the claims -/

theorem scanVars_fmt_zero (cs : List Chunk) (p : Nat) (v : WavVars) (hv : v.audioFormat = 0)
    (h : ∀ c ∈ cs, c.id = tagFmt → c.formatTag = 0) :
    (scanVars p v cs).audioFormat = 0 := by
  induction cs generalizing p v with
  | nil => exact hv
  | cons c cs ih =>
    apply ih _ _ _ (fun x hx => h x (List.mem_cons_of_mem _ hx))
    unfold Chunk.update
    split_ifs with h1 h2
    · exact h c (List.mem_cons_self _ _) h1
    · exact hv
    · exact hv

/-- Missing chunks in a well-formed file: without a `data` chunk, or without a `fmt `
chunk with a non-zero format tag, the decoder returns the empty sequence. -/
theorem readWav_missing_chunks (fuel : Nat) (sz : List Byte) (cs : List Chunk)
    (hsz : sz.length = 4) (hwf : ∀ c ∈ cs, c.WellFormed) (hfuel : cs.length < fuel)
    (h : (∀ c ∈ cs, c.id ≠ tagData) ∨ (∀ c ∈ cs, c.id = tagFmt → c.formatTag = 0)) :
    readWavAsFloats fuel (wavFile sz cs) = some (.returned []) := by
  rw [readWav_wellformed fuel sz cs hsz hwf hfuel]
  rcases h with h | h
  · have hnone : (scanVars 12 WavVars.init cs).dataPos = none :=
      (scanVars_no_data cs h 12 WavVars.init).1
    unfold extractSamples
    simp only [hnone]
  · have := scanVars_fmt_zero cs 12 WavVars.init rfl h
    unfold extractSamples
    split
    · rfl
    · simp [this]

/-- Unsupported formats with at least eight bits per sample, in a well-formed file:
the decoder returns the empty sequence. -/
theorem readWav_unsupported (fuel : Nat) (sz : List Byte) (pre2 post2 : List Chunk) (f : Chunk)
    (hsz : sz.length = 4) (hwf : ∀ c ∈ pre2 ++ f :: post2, c.WellFormed)
    (hf : f.id = tagFmt) (hpost2 : ∀ c ∈ post2, c.id ≠ tagFmt)
    (h8 : 8 ≤ f.bits) (h1 : ¬ (f.formatTag = 3 ∧ f.bits = 32))
    (h2 : ¬ (f.formatTag = 1 ∧ f.bits = 16)) (hfuel : (pre2 ++ f :: post2).length < fuel) :
    readWavAsFloats fuel (wavFile sz (pre2 ++ f :: post2)) = some (.returned []) := by
  rw [readWav_wellformed fuel sz _ hsz hwf hfuel]
  have hF := scanVars_last_fmt pre2 post2 f hf hpost2 12 WavVars.init
  unfold extractSamples
  split
  · rfl
  · have h8' : ¬ (f.bits / 8 = 0) := by omega
    simp only [hF.1, hF.2, h8', h1, h2, if_false]
    split_ifs <;> rfl

theorem riff_size_field (sz body : List Byte) (hsz : sz.length = 4) :
    ((tagRIFF ++ sz ++ tagWAVE ++ body).drop 4).take 4 = sz := by
  match sz, hsz with
  | [a, b, c, d], _ => simp [tagRIFF]

/-- The size field `writeWAVFile` emits holds `36 + 4n` reduced modulo `2^32`. -/
theorem size_field (samples : List F32) (sampleRate : Int)
    (h : 4 * samples.length < 4294967296) :
    leValue (((writeWAVFile samples sampleRate).drop 4).take 4) =
      (36 + 4 * samples.length) % 4294967296 := by
  rw [writeWAVFile_eq samples sampleRate h, wavFile, riff_size_field _ _ (leBytes_length _ _),
    leValue_leBytes]
  norm_num

theorem fmtPayload_fields (tag channels rate byteRate align bits : Nat) :
    leValue ((fmtPayload tag channels rate byteRate align bits).take 2) = tag % 65536 ∧
      leValue (((fmtPayload tag channels rate byteRate align bits).drop 14).take 2) =
        bits % 65536 ∧
      (fmtPayload tag channels rate byteRate align bits).length = 16 := by
  refine ⟨?_, ?_, ?_⟩
  · simp only [fmtPayload, leBytes, List.cons_append, List.nil_append, List.take_succ_cons,
      List.take_zero, leValue]
    omega
  · simp only [fmtPayload, leBytes, List.cons_append, List.nil_append, List.drop_succ_cons,
      List.drop_zero, List.take_succ_cons, List.take_zero, leValue]
    omega
  · simp [fmtPayload, leBytes_length]

/-! ### Claims on the codec -/

/-- C2: for every sample sequence `s` with `4 * len(s) < 2^32` and every sample rate,
`readWavAsFloats` applied to the bytes `writeWAVFile` writes returns exactly
`map clamp s`; the result has the length of `s`, every returned sample lies in
`[-1.0, 1.0]`, and a sample of `s` already in `[-1.0, 1.0]` comes back bit for bit. -/
theorem float32_roundtrip (samples : List F32) (sampleRate : Int) (fuel : Nat)
    (h : 4 * samples.length < 4294967296) (hfuel : 3 ≤ fuel) :
    readWavAsFloats fuel (writeWAVFile samples sampleRate) =
        some (.returned (samples.map clampSample)) ∧
      (samples.map clampSample).length = samples.length ∧
      (∀ v ∈ samples, f32Le f32NegOne (clampSample v) = true ∧
        f32Le (clampSample v) f32One = true) ∧
      ((∀ v ∈ samples, f32Le f32NegOne v = true ∧ f32Le v f32One = true) →
        samples.map clampSample = samples) := by
  refine ⟨?_, List.length_map _ _, fun v _ => clampSample_mem v, ?_⟩
  · rw [writeWAVFile_eq samples sampleRate h]
    have hlen : (((samples.map clampSample).map f32ToBytes).flatten).length =
        4 * samples.length := by
      rw [flatten_f32_length, List.length_map]
    have hfields := fmtPayload_fields 3 1 (sampleRate % 4294967296).toNat
      ((sampleRate % 4294967296).toNat * 4 % 4294967296) 4 32
    have := readWav_float32 fuel (leBytes 4 ((36 + 4 * samples.length) % 4294967296))
      [⟨tagFmt, fmtPayload 3 1 (sampleRate % 4294967296).toNat
        ((sampleRate % 4294967296).toNat * 4 % 4294967296) 4 32, 0⟩] []
      [] [⟨tagData, ((samples.map clampSample).map f32ToBytes).flatten, 0⟩]
      ⟨tagData, ((samples.map clampSample).map f32ToBytes).flatten, 0⟩
      ⟨tagFmt, fmtPayload 3 1 (sampleRate % 4294967296).toNat
        ((sampleRate % 4294967296).toNat * 4 % 4294967296) 4 32, 0⟩
      (leBytes_length _ _)
      (by
        intro c hc
        simp only [List.cons_append, List.nil_append, List.mem_cons, List.mem_singleton,
          List.not_mem_nil, or_false] at hc
        rcases hc with rfl | rfl
        · refine ⟨rfl, ?_, fun _ => ?_⟩
          · simp only [hfields.2.2]; norm_num
          · simp only [hfields.2.2]; norm_num
        · refine ⟨rfl, ?_, fun hc => absurd hc (show tagData ≠ tagFmt by decide)⟩
          simp only [hlen]; exact h)
      rfl (by simp) rfl rfl
      (by
        intro c hc
        simp only [List.mem_singleton] at hc
        subst hc
        exact (show tagData ≠ tagFmt by decide))
      (by simp only [Chunk.formatTag, hfields.1])
      (by simp only [Chunk.bits, hfields.2.1])
      (by simp only [List.cons_append, List.nil_append, List.length_cons, List.length_nil]; omega)
    simp only [fmtPayload, List.cons_append, List.nil_append] at this ⊢
    rw [this, floatSamples_flatten]
  · intro hmem
    conv_rhs => rw [← List.map_id samples]
    apply List.map_congr_left
    intro v hv
    exact clampSample_of_mem v (hmem v hv).1 (hmem v hv).2

/-- C2, instance: three samples (`0.5`, `2.0`, NaN) at 48000 Hz; the second and third
come back as `1.0`. -/
theorem float32_roundtrip_witness :
    readWavAsFloats 3 (writeWAVFile [f32Half, f32Two, f32NaN] 48000) =
      some (.returned [f32Half, f32One, f32One]) :=
  (float32_roundtrip [f32Half, f32Two, f32NaN] 48000 3 (by decide) (by decide)).1.trans
    (by decide)

/-- C4 (failing input): on `fourBitFile` (format tag 1, 4 bits per sample, a `data`
chunk) the decoder divides by zero in `dataSize / (bitsPerSample / 8)` and never
reaches the branch that reports an unsupported format. -/
theorem fourBitFile_divides_by_zero (fuel : Nat) :
    readWavAsFloats (fuel + 3) fourBitFile = some .divideByZero := by
  unfold fourBitFile
  rw [readWav_wellformed (fuel + 3) [38, 0, 0, 0] fourBitChunks rfl (by decide)
    (by simp [fourBitChunks])]
  rfl

/-- C6 (as stated, refuted): for the 1073741823-sample buffer (`4n = 2^32 - 4 < 2^32`)
the size field `writeWAVFile` emits holds 32, not `36 + 4n`. -/
theorem size_field_wraps :
    4 * hugeBuffer.length < 4294967296 ∧
      leValue (((writeWAVFile hugeBuffer 48000).drop 4).take 4) = 32 ∧
      leValue (((writeWAVFile hugeBuffer 48000).drop 4).take 4) ≠ 36 + 4 * hugeBuffer.length := by
  have hl : hugeBuffer.length = 1073741823 := List.length_replicate _ _
  have h : 4 * hugeBuffer.length < 4294967296 := by rw [hl]; norm_num
  have hs := size_field hugeBuffer 48000 h
  rw [hl] at hs
  refine ⟨h, ?_, ?_⟩
  · rw [hs]
  · rw [hs, hl]; norm_num

/-- C6 (amended): for `n` samples with `4n < 2^32` and a sample rate `sr` in
`[0, 2^32)`, `writeWAVFile` emits exactly `44 + 4n` bytes: `RIFF`, the u32
`(36 + 4n) mod 2^32`, `WAVE`, `fmt `, u32 16, u16 3, u16 1, u32 `sr`, u32
`4 * sr mod 2^32`, u16 4, u16 32, `data`, u32 `4n`, then the `n` samples, each clamped
to `[-1.0, 1.0]`, as four bytes each.  The size field holds `36 + 4n` itself exactly
when `36 + 4n < 2^32`. -/
theorem writeWAVFile_layout (samples : List F32) (sr : Int)
    (h : 4 * samples.length < 4294967296) (hsr : 0 ≤ sr ∧ sr < 4294967296) :
    writeWAVFile samples sr =
        tagRIFF ++ leBytes 4 ((36 + 4 * samples.length) % 4294967296) ++ tagWAVE ++ tagFmt ++
          leBytes 4 16 ++ leBytes 2 3 ++ leBytes 2 1 ++ leBytes 4 sr.toNat ++
          leBytes 4 (4 * sr.toNat % 4294967296) ++ leBytes 2 4 ++ leBytes 2 32 ++ tagData ++
          leBytes 4 (4 * samples.length) ++
          ((samples.map clampSample).map f32ToBytes).flatten ∧
      (writeWAVFile samples sr).length = 44 + 4 * samples.length ∧
      leValue (((writeWAVFile samples sr).drop 4).take 4) =
        (36 + 4 * samples.length) % 4294967296 ∧
      floatSamples ((writeWAVFile samples sr).drop 44) = samples.map clampSample ∧
      ∀ v ∈ samples.map clampSample, f32Le f32NegOne v = true ∧ f32Le v f32One = true := by
  have h1 : samples.length * 4 % 4294967296 = 4 * samples.length := by omega
  have h2 : sr % 4294967296 = sr := Int.emod_eq_of_lt hsr.1 hsr.2
  have h3 : sr.toNat * 1 * 4 = 4 * sr.toNat := by omega
  have hlay : writeWAVFile samples sr =
        tagRIFF ++ leBytes 4 ((36 + 4 * samples.length) % 4294967296) ++ tagWAVE ++ tagFmt ++
          leBytes 4 16 ++ leBytes 2 3 ++ leBytes 2 1 ++ leBytes 4 sr.toNat ++
          leBytes 4 (4 * sr.toNat % 4294967296) ++ leBytes 2 4 ++ leBytes 2 32 ++ tagData ++
          leBytes 4 (4 * samples.length) ++
          ((samples.map clampSample).map f32ToBytes).flatten := by
    simp only [writeWAVFile, h1, h2, h3, map_clamp_bytes]
  refine ⟨hlay, ?_, size_field samples sr h, ?_, ?_⟩
  · rw [hlay]
    simp only [List.length_append, leBytes_length, flatten_f32_length, List.length_map,
      show tagRIFF.length = 4 from rfl, show tagWAVE.length = 4 from rfl,
      show tagFmt.length = 4 from rfl, show tagData.length = 4 from rfl]
  · rw [hlay, List.drop_left', floatSamples_flatten]
    simp only [List.length_append, leBytes_length,
      show tagRIFF.length = 4 from rfl, show tagWAVE.length = 4 from rfl,
      show tagFmt.length = 4 from rfl, show tagData.length = 4 from rfl]
  · intro v hv
    rw [List.mem_map] at hv
    obtain ⟨w, _, rfl⟩ := hv
    exact clampSample_mem w

/-- C6 (amended), instance: three samples at 48000 Hz give 56 bytes whose size field
holds 48. -/
theorem writeWAVFile_layout_witness :
    (writeWAVFile [f32Half, f32Two, f32NaN] 48000).length = 44 + 4 * 3 ∧
      floatSamples ((writeWAVFile [f32Half, f32Two, f32NaN] 48000).drop 44) =
        [f32Half, f32One, f32One] :=
  ⟨(writeWAVFile_layout [f32Half, f32Two, f32NaN] 48000 (by decide) (by decide)).2.1,
    (writeWAVFile_layout [f32Half, f32Two, f32NaN] 48000 (by decide) (by decide)).2.2.2.1.trans
      (by decide)⟩

/-- C7: a byte stream shorter than 12 bytes, or whose bytes 0..3 are not `RIFF`, or
whose bytes 8..11 are not `WAVE`, makes `readWavAsFloats` return the empty sequence,
whatever the other bytes are; the chunk walk is not entered. -/
theorem malformed_container (fuel : Nat) (file : List Byte)
    (h : file.length < 12 ∨ file.take 4 ≠ tagRIFF ∨ (file.drop 8).take 4 ≠ tagWAVE) :
    readWavAsFloats fuel file = some (.returned []) := by
  rcases h with h | h | h
  · exact header_short fuel file h
  · exact header_bad_magic fuel file (Or.inl h)
  · exact header_bad_magic fuel file (Or.inr h)

/-- C7, instance: the zero-byte stream. -/
theorem malformed_container_witness : readWavAsFloats 0 [] = some (.returned []) :=
  malformed_container 0 [] (Or.inl (by decide))

/-- C8 (failing input): `loopFile` has a valid `RIFF`/`WAVE` header and no `data` chunk,
yet `readWavAsFloats` never returns on it: the chunk walk does not finish within any
number of passes. -/
theorem loopFile_never_returns (fuel : Nat) :
    loopFile.take 4 = tagRIFF ∧ (loopFile.drop 8).take 4 = tagWAVE ∧
      readWavAsFloats fuel loopFile = none := by
  refine ⟨by decide, by decide, ?_⟩
  rw [readWav_of_header fuel loopFile (by decide) (by decide) (by decide),
    walkChunks_loopFile]
  rfl

/-- C9: in a well-formed WAV stream (good header, well-formed chunks) whose last `fmt `
chunk declares format tag 1 and 16 bits per sample and whose last `data` chunk holds
`2n` bytes, `readWavAsFloats` returns exactly `n` samples; sample `i` is the float whose
value is the signed 16-bit little-endian integer at data bytes `2i`, `2i+1` divided by
32768, so it lies in `[-1, 32767/32768]` and is within `1/32768` of that amplitude. -/
theorem pcm16_decoding (fuel n : Nat) (sz : List Byte) (pre post pre2 post2 : List Chunk)
    (d f : Chunk) (hsz : sz.length = 4) (hwf : ∀ c ∈ pre ++ d :: post, c.WellFormed)
    (hd : d.id = tagData) (hpost : ∀ c ∈ post, c.id ≠ tagData)
    (hcs : pre ++ d :: post = pre2 ++ f :: post2)
    (hf : f.id = tagFmt) (hpost2 : ∀ c ∈ post2, c.id ≠ tagFmt)
    (ht : f.formatTag = 1) (hb : f.bits = 16) (hn : d.payload.length = 2 * n)
    (hfuel : (pre ++ d :: post).length < fuel) :
    readWavAsFloats fuel (wavFile sz (pre ++ d :: post)) =
        some (.returned (pcmSamples d.payload)) ∧
      (pcmSamples d.payload).length = n ∧
      ∀ i, i < n →
        (pcmSamples d.payload)[i]? = some (f32OfPcm (pcmAt d.payload i)) ∧
        f32ToRat (f32OfPcm (pcmAt d.payload i)) = (pcmAt d.payload i : ℚ) / 32768 ∧
        -1 ≤ f32ToRat (f32OfPcm (pcmAt d.payload i)) ∧
        f32ToRat (f32OfPcm (pcmAt d.payload i)) ≤ 32767 / 32768 ∧
        |f32ToRat (f32OfPcm (pcmAt d.payload i)) - (pcmAt d.payload i : ℚ) / 32768| <
          1 / 32768 := by
  have hlen : d.payload.length / 2 = n := by omega
  refine ⟨readWav_pcm16 fuel sz pre post pre2 post2 d f hsz hwf hd hpost hcs hf hpost2 ht hb
    hfuel, by rw [pcmSamples_length, hlen], ?_⟩
  intro i hi
  have hr := toInt16_range ((d.payload.getD (2 * i) 0).val +
    256 * (d.payload.getD (2 * i + 1) 0).val)
  have hv := f32OfPcm_value (pcmAt d.payload i) hr.1 hr.2
  have h1 : (-32768 : ℚ) ≤ (pcmAt d.payload i : ℚ) := by exact_mod_cast hr.1
  have h2 : (pcmAt d.payload i : ℚ) ≤ 32767 := by exact_mod_cast hr.2
  refine ⟨pcmSamples_getElem _ i (by omega), hv, ?_, ?_, ?_⟩
  · rw [hv, le_div_iff₀ (by norm_num)]; linarith
  · rw [hv, div_le_div_iff_of_pos_right (by norm_num)]; exact h2
  · rw [hv, sub_self, abs_zero]; norm_num

/-- C9, instance: the three samples `-32768`, `32767`, `1` of `pcmExample` decode to
`-1.0`, `32767/32768` and `1/32768`. -/
theorem pcm16_decoding_witness :
    readWavAsFloats 4 (wavFile [0, 0, 0, 0] pcmExample) =
      some (.returned [f32NegOne, 1065352704, 939524096]) :=
  (pcm16_decoding 4 3 [0, 0, 0, 0]
    [⟨tagFmt, fmtPayload 1 1 48000 96000 2 16, 0⟩, ⟨[76, 73, 83, 84], [1, 2, 3], 0⟩] []
    [] [⟨[76, 73, 83, 84], [1, 2, 3], 0⟩, ⟨tagData, [0, 128, 255, 127, 1, 0], 0⟩]
    ⟨tagData, [0, 128, 255, 127, 1, 0], 0⟩ ⟨tagFmt, fmtPayload 1 1 48000 96000 2 16, 0⟩
    rfl (by decide) rfl (by decide) rfl rfl (by decide) (by decide) (by decide) rfl
    (by decide)).1.trans (by decide)

/-- C10: in a stream with a good header and well-formed chunks whose last `fmt ` chunk
declares float32 (tag 3, 32 bits) or PCM16 (tag 1, 16 bits), followed by a `data` chunk
that declares `n` samples while the file ends after `k < n` complete samples (and
possibly some bytes of the next one), `readWavAsFloats` returns normally with exactly
the `k` complete samples present, in order: they are the first `k` samples of any
completion of the data. -/
theorem truncated_data (fuel n : Nat) (sz : List Byte) (pre2 post2 : List Chunk) (f : Chunk)
    (part : List Byte) (hsz : sz.length = 4) (hwf : ∀ c ∈ pre2 ++ f :: post2, c.WellFormed)
    (hf : f.id = tagFmt) (hpost2 : ∀ c ∈ post2, c.id ≠ tagFmt)
    (hfmt : (f.formatTag = 3 ∧ f.bits = 32) ∨ (f.formatTag = 1 ∧ f.bits = 16))
    (hdecl : f.bits / 8 * n < 4294967296) (hk : part.length / (f.bits / 8) < n)
    (hfuel : (pre2 ++ f :: post2).length + 1 < fuel) :
    readWavAsFloats fuel
        (wavFile sz (pre2 ++ f :: post2) ++ tagData ++ leBytes 4 (f.bits / 8 * n) ++ part) =
        some (.returned (samplesOf f.bits part)) ∧
      (samplesOf f.bits part).length = part.length / (f.bits / 8) ∧
      ∀ more : List Byte,
        (samplesOf f.bits (part ++ more)).take (part.length / (f.bits / 8)) =
          samplesOf f.bits part := by
  have hF := scanVars_last_fmt pre2 post2 f hf hpost2 12 WavVars.init
  rcases hfmt with ⟨ht, hb⟩ | ⟨ht, hb⟩
  · have hw : f.bits / 8 = 4 := by rw [hb]
    rw [hw] at hdecl hk ⊢
    have hpart : part.length ≤ 4 * n := by omega
    obtain ⟨hrun, hdrop⟩ := readWav_truncated fuel sz _ (4 * n) part hsz hwf hdecl hpart hfuel
    have hsam : samplesOf f.bits = floatSamples := by funext bs; simp [samplesOf, hb]
    rw [hsam]
    refine ⟨?_, floatSamples_length part, fun more => floatSamples_append_take part more⟩
    have hx := extractSamples_float
      ⟨wavFile sz (pre2 ++ f :: post2) ++ tagData ++ leBytes 4 (4 * n) ++ part,
        12 + (encodeChunks (pre2 ++ f :: post2)).length + 4 + 4 + 4 * n + 4 * n % 2, true, true⟩
      { scanVars 12 WavVars.init (pre2 ++ f :: post2) with
        dataSize := 4 * n
        dataPos := some (12 + (encodeChunks (pre2 ++ f :: post2)).length + 4 + 4) }
      _ rfl (hF.1.trans ht) (hF.2.trans hb)
    simp only [hdrop] at hx
    rw [List.take_of_length_le (by rw [floatSamples_length]; omega)] at hx
    rw [hrun]
    exact congrArg some hx
  · have hw : f.bits / 8 = 2 := by rw [hb]
    rw [hw] at hdecl hk ⊢
    have hpart : part.length ≤ 2 * n := by omega
    obtain ⟨hrun, hdrop⟩ := readWav_truncated fuel sz _ (2 * n) part hsz hwf hdecl hpart hfuel
    have hsam : samplesOf f.bits = pcmSamples := by funext bs; simp [samplesOf, hb]
    rw [hsam]
    refine ⟨?_, pcmSamples_length part, fun more => pcmSamples_append_take part more⟩
    have hx := extractSamples_pcm
      ⟨wavFile sz (pre2 ++ f :: post2) ++ tagData ++ leBytes 4 (2 * n) ++ part,
        12 + (encodeChunks (pre2 ++ f :: post2)).length + 4 + 4 + 2 * n + 2 * n % 2, true, true⟩
      { scanVars 12 WavVars.init (pre2 ++ f :: post2) with
        dataSize := 2 * n
        dataPos := some (12 + (encodeChunks (pre2 ++ f :: post2)).length + 4 + 4) }
      _ rfl (hF.1.trans ht) (hF.2.trans hb)
    simp only [hdrop] at hx
    rw [List.take_of_length_le (by rw [pcmSamples_length]; omega)] at hx
    rw [hrun]
    exact congrArg some hx

/-- C10, instance: a float32 file that declares four samples and ends after nine data
bytes gives the two complete samples. -/
theorem truncated_data_witness :
    readWavAsFloats 3
        (wavFile [0, 0, 0, 0] [⟨tagFmt, fmtPayload 3 1 48000 192000 4 32, 0⟩] ++ tagData ++
          leBytes 4 16 ++ [0, 0, 0, 63, 0, 0, 128, 63, 7]) =
      some (.returned [f32Half, f32One]) :=
  (truncated_data 3 4 [0, 0, 0, 0] [] [] ⟨tagFmt, fmtPayload 3 1 48000 192000 4 32, 0⟩
    [0, 0, 0, 63, 0, 0, 128, 63, 7] rfl (by decide) rfl (by decide) (Or.inl (by decide))
    (by decide) (by decide) (by decide)).1.trans (by decide)

/-! ## Theorems on single stages and on the cascade -/

section Stage

variable {α : Type} [LinearOrderedField α]

theorem applyAll_first (fs : List (Biquad α)) (h : ZeroState fs) (hu : UnitGain fs) (x : α) :
    (applyAll x fs).1 = x := by
  induction fs with
  | nil => rfl
  | cons f fs ih =>
    have hf := h f (List.mem_cons_self _ _)
    have hfu := hu f (List.mem_cons_self _ _)
    have hfs : ZeroState fs := fun g hg => h g (List.mem_cons_of_mem _ hg)
    have hfsu : UnitGain fs := fun g hg => hu g (List.mem_cons_of_mem _ hg)
    simp only [applyAll, applyBiquad, hf.1, hfu, one_mul, add_zero, ih hfs hfsu]

/-- C20: for every non-empty buffer and every base Q, with the notch enabled, the first
sample `processChunk` stores is the first input sample clamped to `[-1, 1]`. -/
theorem first_sample_passes (M : MathFns α) (F : VoiceGenderFilter α) (x : α) (rest : List α)
    (hF : F.male_notch = true) :
    (processChunk M F (x :: rest)).2.head? = some (clamp x (-1) 1) := by
  rw [processChunk_enabled M F _ hF (List.cons_ne_nil _ _)]
  simp only [sampleLoop, List.head?_cons,
    applyAll_first _ (buildFilters_zeroState M F.notch_Q) (buildFilters_unitGain M F.notch_Q)]

end Stage

/-- C20, instance: the default filter over the reals on the buffer `[3, 1/2]` stores `1`
first. -/
theorem first_sample_passes_witness :
    (processChunk realMath VoiceGenderFilter.new [3, 1 / 2]).2.head? = some (clamp 3 (-1) 1) :=
  first_sample_passes realMath VoiceGenderFilter.new 3 [1 / 2] rfl

/-! ## Theorems on the notch design over the reals -/

section Stage

variable {α : Type} [LinearOrderedField α]

theorem runBiquad_length (f : Biquad α) (xs : List α) : (runBiquad f xs).1.length = xs.length := by
  induction xs generalizing f with
  | nil => rfl
  | cons x xs ih => simp [runBiquad, ih]

/-- The transposed form started from the registers that a history leaves behind is the
difference equation started from that history. -/
theorem runBiquad_eq_differenceEquation (f : Biquad α) (x1 x2 y1 y2 : α) (xs : List α)
    (h1 : f.s1 = f.b1 * x1 - f.a1 * y1 + (f.b2 * x2 - f.a2 * y2))
    (h2 : f.s2 = f.b2 * x1 - f.a2 * y1) :
    (runBiquad f xs).1 = differenceEquation f.b0 f.b1 f.b2 f.a1 f.a2 x1 x2 y1 y2 xs := by
  induction xs generalizing f x1 x2 y1 y2 with
  | nil => rfl
  | cons x xs ih =>
    obtain ⟨b0, b1, b2, a1, a2, s1, s2⟩ := f
    simp only at h1 h2
    subst h1 h2
    simp only [runBiquad, differenceEquation, applyBiquad]
    have hy : b0 * x + (b1 * x1 - a1 * y1 + (b2 * x2 - a2 * y2)) =
        b0 * x + b1 * x1 + b2 * x2 - a1 * y1 - a2 * y2 := by ring
    rw [hy]
    congr 1
    refine ih _ x x1 (b0 * x + b1 * x1 + b2 * x2 - a1 * y1 - a2 * y2) y1 ?_ ?_ <;> rfl

theorem differenceEquation_length (f : Biquad α) (x1 x2 y1 y2 : α) (xs : List α) :
    (differenceEquation f.b0 f.b1 f.b2 f.a1 f.a2 x1 x2 y1 y2 xs).length = xs.length := by
  induction xs generalizing x1 x2 y1 y2 with
  | nil => rfl
  | cons x xs ih => simp [differenceEquation, ih]

/-- Sample `k` of the difference equation, with the history put in front of the
sequences. -/
theorem differenceEquation_getD (f : Biquad α) (x1 x2 y1 y2 : α) (xs : List α) (k : Nat)
    (hk : k < xs.length) :
    (differenceEquation f.b0 f.b1 f.b2 f.a1 f.a2 x1 x2 y1 y2 xs).getD k 0 =
      f.b0 * (x2 :: x1 :: xs).getD (k + 2) 0 + f.b1 * (x2 :: x1 :: xs).getD (k + 1) 0 +
        f.b2 * (x2 :: x1 :: xs).getD k 0 -
        f.a1 * (y2 :: y1 :: differenceEquation f.b0 f.b1 f.b2 f.a1 f.a2 x1 x2 y1 y2 xs).getD (k + 1) 0 -
        f.a2 * (y2 :: y1 :: differenceEquation f.b0 f.b1 f.b2 f.a1 f.a2 x1 x2 y1 y2 xs).getD k 0 := by
  induction xs generalizing x1 x2 y1 y2 k with
  | nil => simp at hk
  | cons x xs ih =>
    cases k with
    | zero => simp [differenceEquation]
    | succ k =>
      have hk2 : k < xs.length := by simpa using hk
      have := ih x x1 (f.b0 * x + f.b1 * x1 + f.b2 * x2 - f.a1 * y1 - f.a2 * y2) y1 k hk2
      simp only [differenceEquation, List.getD_cons_succ] at this ⊢
      exact this

theorem extend_cons_zero (l : List α) : extend (0 :: l) = shift (extend l) := by
  funext k
  cases k with
  | zero => rfl
  | succ k => simp [extend, shift]

theorem shift_extend (l : List α) (k : Nat) : shift (extend l) k = delayed l 1 k := by
  cases k with
  | zero => simp [shift, delayed]
  | succ k => simp [shift, delayed, extend]

theorem shift_shift_extend (l : List α) (k : Nat) :
    shift (shift (extend l)) k = delayed l 2 k := by
  match k with
  | 0 => simp [shift, delayed]
  | 1 => simp [shift, delayed]
  | k + 2 => simp [shift, delayed, extend]

theorem delayed_zero (l : List α) (k : Nat) : delayed l 0 k = extend l k := by
  simp [delayed, extend]

/-- The outputs of a stage at rest, as sequences: `(1 + a1 z^-1 + a2 z^-2) y` and
`(b0 + b1 z^-1 + b2 z^-2) x` agree on the length of the buffer. -/
theorem runBiquad_fir (f : Biquad α) (xs : List α) (h1 : f.s1 = 0) (h2 : f.s2 = 0)
    (k : Nat) (hk : k < xs.length) :
    fir 1 f.a1 f.a2 (extend (runBiquad f xs).1) k = fir f.b0 f.b1 f.b2 (extend xs) k := by
  have he := runBiquad_eq_differenceEquation f 0 0 0 0 xs (by rw [h1]; ring) (by rw [h2]; ring)
  have hd := differenceEquation_getD f 0 0 0 0 xs k hk
  rw [← he] at hd
  have ex : ∀ l : List α, ∀ j, (0 :: 0 :: l).getD j 0 = shift (shift (extend l)) j := by
    intro l j
    show extend (0 :: 0 :: l) j = _
    rw [extend_cons_zero, extend_cons_zero]
  simp only [ex] at hd
  simp only [fir, one_mul]
  have e1 : ∀ u : Nat → α, shift (shift u) (k + 2) = u k := fun u => rfl
  have e2 : ∀ u : Nat → α, shift (shift u) (k + 1) = shift u k := fun u => rfl
  simp only [e1, e2] at hd
  have e3 : (runBiquad f xs).1.getD k 0 = extend (runBiquad f xs).1 k := rfl
  rw [e3] at hd
  rw [hd]
  ring

/-- In exact arithmetic, starting from zero delay registers, the outputs `y` that
successive calls of `applyBiquad` produce on the inputs `x` are those of the difference
equation, and for every `k` within the buffer
`y[k] = b0 x[k] + b1 x[k-1] + b2 x[k-2] - a1 y[k-1] - a2 y[k-2]`, terms with a negative
index taken as zero. -/
theorem runBiquad_difference_equation (f : Biquad α) (xs : List α) (h1 : f.s1 = 0)
    (h2 : f.s2 = 0) :
    (runBiquad f xs).1 = differenceEquation f.b0 f.b1 f.b2 f.a1 f.a2 0 0 0 0 xs ∧
      (runBiquad f xs).1.length = xs.length ∧
      ∀ k, k < xs.length →
        delayed (runBiquad f xs).1 0 k =
          f.b0 * delayed xs 0 k + f.b1 * delayed xs 1 k + f.b2 * delayed xs 2 k -
            f.a1 * delayed (runBiquad f xs).1 1 k - f.a2 * delayed (runBiquad f xs).1 2 k := by
  refine ⟨runBiquad_eq_differenceEquation f 0 0 0 0 xs (by rw [h1]; ring) (by rw [h2]; ring),
    runBiquad_length f xs, ?_⟩
  intro k hk
  have := runBiquad_fir f xs h1 h2 k hk
  simp only [fir, one_mul, shift_extend, shift_shift_extend] at this
  rw [delayed_zero, delayed_zero]
  linarith

end Stage

/-! ## The cascade, stage by stage -/

section Stage

variable {α : Type} [LinearOrderedField α]

theorem sampleLoop_eq_raw (fs : List (Biquad α)) (xs : List α) :
    sampleLoop fs xs =
      ((sampleLoopRaw fs xs).1.map (fun x => clamp x (-1) 1), (sampleLoopRaw fs xs).2) := by
  induction xs generalizing fs with
  | nil => rfl
  | cons x xs ih => simp [sampleLoop, sampleLoopRaw, ih]

theorem sampleLoopRaw_nil (xs : List α) : sampleLoopRaw ([] : List (Biquad α)) xs = (xs, []) := by
  induction xs with
  | nil => rfl
  | cons x xs ih => simp [sampleLoopRaw, applyAll, ih]

theorem sampleLoopRaw_cons (f : Biquad α) (fs : List (Biquad α)) (xs : List α) :
    sampleLoopRaw (f :: fs) xs =
      ((sampleLoopRaw fs (runBiquad f xs).1).1,
        (runBiquad f xs).2 :: (sampleLoopRaw fs (runBiquad f xs).1).2) := by
  induction xs generalizing f fs with
  | nil => rfl
  | cons x xs ih => simp [sampleLoopRaw, applyAll, runBiquad, ih]

/-- The sample-by-sample loop without the clamp is the stage-by-stage cascade. -/
theorem sampleLoopRaw_eq_cascade (fs : List (Biquad α)) (xs : List α) :
    (sampleLoopRaw fs xs).1 = cascadeStages fs xs := by
  induction fs generalizing xs with
  | nil => simp [sampleLoopRaw_nil, cascadeStages]
  | cons f fs ih =>
    rw [sampleLoopRaw_cons]
    simp only [cascadeStages, List.foldl_cons]
    exact ih _

theorem buildFilters_table (M : MathFns α) (q : α) :
    buildFilters M q =
      [makeNotch M 135 48000 (q * (1 / 7)), makeNotch M 275 48000 (q * 2),
        makeNotch M 561 48000 (q * 2), makeNotch M 396 48000 (q * 4),
        makeNotch M 530 48000 (q * 2), makeNotch M 50 48000 (q * (1 / 5)),
        makeNotch M 105 48000 (q * (1 / 7)), makeNotch M 4088 48000 (q * (1 / 5)),
        makeNotch M 68 48000 (q * (1 / 5)), makeNotch M 131 48000 (q * (1 / 5))] := by
  simp [buildFilters, notches]

/-- C17: for every non-empty buffer and base Q, with the notch enabled, the
sample-by-sample loop of `processChunk` gives the same buffer as filtering the whole
buffer through stage 1, the result through stage 2, and so on to stage 10, and then
clamping every sample to `[-1, 1]`, the stages being `makeNotch(f_i, 48000, baseQ * m_i)`
for the ten table entries in table order. -/
theorem processChunk_stagewise (M : MathFns α) (F : VoiceGenderFilter α) (audio : List α)
    (hF : F.male_notch = true) (ha : audio ≠ []) :
    (processChunk M F audio).2 =
        (cascadeStages
          [makeNotch M 135 48000 (F.notch_Q * (1 / 7)), makeNotch M 275 48000 (F.notch_Q * 2),
            makeNotch M 561 48000 (F.notch_Q * 2), makeNotch M 396 48000 (F.notch_Q * 4),
            makeNotch M 530 48000 (F.notch_Q * 2), makeNotch M 50 48000 (F.notch_Q * (1 / 5)),
            makeNotch M 105 48000 (F.notch_Q * (1 / 7)),
            makeNotch M 4088 48000 (F.notch_Q * (1 / 5)),
            makeNotch M 68 48000 (F.notch_Q * (1 / 5)),
            makeNotch M 131 48000 (F.notch_Q * (1 / 5))] audio).map
          (fun x => clamp x (-1) 1) := by
  rw [processChunk_enabled M F audio hF ha, sampleLoop_eq_raw, sampleLoopRaw_eq_cascade,
    buildFilters_table]

end Stage

/-- C17, instance: the default filter over the reals on the buffer `[1/2, -1/4]`. -/
theorem processChunk_stagewise_witness :
    (processChunk realMath VoiceGenderFilter.new [1 / 2, -1 / 4]).2 =
        (cascadeStages
          [makeNotch realMath 135 48000 (30 * (1 / 7)), makeNotch realMath 275 48000 (30 * 2),
            makeNotch realMath 561 48000 (30 * 2), makeNotch realMath 396 48000 (30 * 4),
            makeNotch realMath 530 48000 (30 * 2), makeNotch realMath 50 48000 (30 * (1 / 5)),
            makeNotch realMath 105 48000 (30 * (1 / 7)),
            makeNotch realMath 4088 48000 (30 * (1 / 5)),
            makeNotch realMath 68 48000 (30 * (1 / 5)),
            makeNotch realMath 131 48000 (30 * (1 / 5))] [1 / 2, -1 / 4]).map
          (fun x => clamp x (-1) 1) :=
  processChunk_stagewise realMath VoiceGenderFilter.new [1 / 2, -1 / 4] rfl
    (List.cons_ne_nil _ _)

/-! ## Stages commute -/

section Stage

variable {α : Type} [LinearOrderedField α]

theorem shift_fir (c0 c1 c2 : α) (u : Nat → α) :
    shift (fir c0 c1 c2 u) = fir c0 c1 c2 (shift u) := by
  funext k
  cases k with
  | zero => simp [fir, shift]
  | succ k => rfl

/-- Two three-tap operators commute. -/
theorem fir_comm (a0 a1 a2 b0 b1 b2 : α) (u : Nat → α) :
    fir a0 a1 a2 (fir b0 b1 b2 u) = fir b0 b1 b2 (fir a0 a1 a2 u) := by
  funext k
  have e1 : ∀ v : Nat → α, ∀ c0 c1 c2 : α,
      fir c0 c1 c2 v k = c0 * v k + c1 * shift v k + c2 * shift (shift v) k := fun _ _ _ _ => rfl
  rw [e1 (fir b0 b1 b2 u), e1 (fir a0 a1 a2 u), shift_fir, shift_fir, shift_fir, shift_fir]
  simp only [e1]
  ring

theorem shift_congr (n : Nat) (u v : Nat → α) (h : ∀ j, j < n → u j = v j) :
    ∀ k, k < n → shift u k = shift v k := by
  intro k hk
  cases k with
  | zero => rfl
  | succ k => exact h k (by omega)

/-- A three-tap operator is causal. -/
theorem fir_congr (c0 c1 c2 : α) (n : Nat) (u v : Nat → α) (h : ∀ j, j < n → u j = v j) :
    ∀ k, k < n → fir c0 c1 c2 u k = fir c0 c1 c2 v k := by
  intro k hk
  have h1 := shift_congr n u v h
  have h2 := shift_congr n _ _ h1
  simp only [fir, h k hk, h1 k hk, h2 k hk]

/-- A monic three-tap operator determines its argument. -/
theorem fir_monic_inj (a1 a2 : α) (n : Nat) (u v : Nat → α)
    (h : ∀ k, k < n → fir 1 a1 a2 u k = fir 1 a1 a2 v k) : ∀ k, k < n → u k = v k := by
  intro k
  induction k using Nat.strong_induction_on with
  | _ k ih =>
    intro hk
    have hlow : ∀ j, j < k → u j = v j := fun j hj => ih j hj (by omega)
    have h1 := shift_congr k u v hlow
    have h2 := shift_congr k _ _ h1
    have hk0 := h k hk
    simp only [fir, one_mul] at hk0
    cases k with
    | zero => simpa [shift] using hk0
    | succ k =>
      have s1 : shift u (k + 1) = shift v (k + 1) := hlow k (by omega)
      have s2 : shift (shift u) (k + 1) = shift (shift v) (k + 1) := h1 k (by omega)
      rw [s1, s2] at hk0
      linarith

theorem extend_eq_of_lt (l l2 : List α) (hlen : l.length = l2.length)
    (h : ∀ k, k < l.length → extend l k = extend l2 k) : l = l2 := by
  apply List.ext_getElem hlen
  intro k h1 h2
  have := h k h1
  simp only [extend, List.getD_eq_getElem?_getD, List.getElem?_eq_getElem h1,
    List.getElem?_eq_getElem h2, Option.getD_some] at this
  exact this

/-- Two stages at rest commute on every buffer. -/
theorem runBiquad_comm (A B : Biquad α) (xs : List α) (hA : A.s1 = 0 ∧ A.s2 = 0)
    (hB : B.s1 = 0 ∧ B.s2 = 0) :
    (runBiquad B (runBiquad A xs).1).1 = (runBiquad A (runBiquad B xs).1).1 := by
  have lA := runBiquad_length A xs
  have lB := runBiquad_length B xs
  have lAB := runBiquad_length B (runBiquad A xs).1
  have lBA := runBiquad_length A (runBiquad B xs).1
  apply extend_eq_of_lt _ _ (by rw [lAB, lBA, lA, lB])
  rw [lAB, lA]
  have e1 : ∀ k, k < xs.length →
      fir 1 A.a1 A.a2 (extend (runBiquad A xs).1) k = fir A.b0 A.b1 A.b2 (extend xs) k :=
    fun k hk => runBiquad_fir A xs hA.1 hA.2 k hk
  have e2 : ∀ k, k < xs.length →
      fir 1 B.a1 B.a2 (extend (runBiquad B (runBiquad A xs).1).1) k =
        fir B.b0 B.b1 B.b2 (extend (runBiquad A xs).1) k :=
    fun k hk => runBiquad_fir B _ hB.1 hB.2 k (by rw [lA]; exact hk)
  have e3 : ∀ k, k < xs.length →
      fir 1 B.a1 B.a2 (extend (runBiquad B xs).1) k = fir B.b0 B.b1 B.b2 (extend xs) k :=
    fun k hk => runBiquad_fir B xs hB.1 hB.2 k hk
  have e4 : ∀ k, k < xs.length →
      fir 1 A.a1 A.a2 (extend (runBiquad A (runBiquad B xs).1).1) k =
        fir A.b0 A.b1 A.b2 (extend (runBiquad B xs).1) k :=
    fun k hk => runBiquad_fir A _ hA.1 hA.2 k (by rw [lB]; exact hk)
  apply fir_monic_inj B.a1 B.a2
  apply fir_monic_inj A.a1 A.a2
  intro k hk
  calc fir 1 A.a1 A.a2 (fir 1 B.a1 B.a2 (extend (runBiquad B (runBiquad A xs).1).1)) k
      = fir 1 A.a1 A.a2 (fir B.b0 B.b1 B.b2 (extend (runBiquad A xs).1)) k :=
        fir_congr _ _ _ _ _ _ e2 k hk
    _ = fir B.b0 B.b1 B.b2 (fir 1 A.a1 A.a2 (extend (runBiquad A xs).1)) k := by rw [fir_comm]
    _ = fir B.b0 B.b1 B.b2 (fir A.b0 A.b1 A.b2 (extend xs)) k := fir_congr _ _ _ _ _ _ e1 k hk
    _ = fir A.b0 A.b1 A.b2 (fir B.b0 B.b1 B.b2 (extend xs)) k := by rw [fir_comm]
    _ = fir A.b0 A.b1 A.b2 (fir 1 B.a1 B.a2 (extend (runBiquad B xs).1)) k :=
        (fir_congr _ _ _ _ _ _ e3 k hk).symm
    _ = fir 1 B.a1 B.a2 (fir A.b0 A.b1 A.b2 (extend (runBiquad B xs).1)) k := by rw [fir_comm]
    _ = fir 1 B.a1 B.a2 (fir 1 A.a1 A.a2 (extend (runBiquad A (runBiquad B xs).1).1)) k :=
        (fir_congr _ _ _ _ _ _ e4 k hk).symm
    _ = fir 1 A.a1 A.a2 (fir 1 B.a1 B.a2 (extend (runBiquad A (runBiquad B xs).1).1)) k := by
        rw [fir_comm]

/-- The cascade of stages at rest does not depend on their order. -/
theorem cascadeStages_perm (l1 l2 : List (Biquad α)) (hp : l1.Perm l2) (hz : ZeroState l1)
    (xs : List α) : cascadeStages l1 xs = cascadeStages l2 xs := by
  induction hp generalizing xs with
  | nil => rfl
  | cons f _ ih =>
    simp only [cascadeStages, List.foldl_cons]
    exact ih (fun g hg => hz g (List.mem_cons_of_mem _ hg)) _
  | swap a b l =>
    simp only [cascadeStages, List.foldl_cons]
    rw [runBiquad_comm b a xs (hz b (List.mem_cons_self _ _))
      (hz a (List.mem_cons_of_mem _ (List.mem_cons_self _ _)))]
  | trans h1 _ ih1 ih2 =>
    rw [ih1 hz, ih2 (fun g hg => hz g (h1.mem_iff.mpr hg))]

end Stage

section Stage

variable {α : Type} [LinearOrderedField α]

theorem makeNotch_table_zeroState (M : MathFns α) (q : α) (table : List (α × α)) :
    ZeroState (table.map fun p => makeNotch M p.1 48000 (q * p.2)) := by
  intro f hf
  simp only [List.mem_map] at hf
  obtain ⟨p, _, rfl⟩ := hf
  exact ⟨rfl, rfl⟩

/-- C14: in exact arithmetic, two stages with zero delay registers commute on every
buffer (A then B gives the same sequence as B then A), and `processChunk` run with any
permutation of the ten-entry notch table returns what it returns with the table
order. -/
theorem stage_order_irrelevant (M : MathFns α) (F : VoiceGenderFilter α) (A B : Biquad α)
    (table : List (α × α)) (audio : List α) (hA : A.s1 = 0 ∧ A.s2 = 0)
    (hB : B.s1 = 0 ∧ B.s2 = 0) (hperm : table.Perm notches) :
    (runBiquad B (runBiquad A audio).1).1 = (runBiquad A (runBiquad B audio).1).1 ∧
      processChunkWith table M F audio = processChunk M F audio := by
  refine ⟨runBiquad_comm A B audio hA hB, ?_⟩
  unfold processChunkWith processChunk
  split_ifs with h
  · rfl
  · rw [sampleLoop_eq_raw, sampleLoop_eq_raw, sampleLoopRaw_eq_cascade,
      sampleLoopRaw_eq_cascade]
    simp only [buildFilters]
    rw [cascadeStages_perm _ _ (hperm.map _) (makeNotch_table_zeroState M F.notch_Q table)]

end Stage

/-- C14, instance: over the reals, two table stages on the buffer `[1, 0, 0]`, and the
table in reverse order. -/
theorem stage_order_irrelevant_witness :
    (runBiquad (makeNotch realMath 275 48000 60)
        (runBiquad (makeNotch realMath 135 48000 30) [1, 0, 0]).1).1 =
      (runBiquad (makeNotch realMath 135 48000 30)
        (runBiquad (makeNotch realMath 275 48000 60) [1, 0, 0]).1).1 ∧
      processChunkWith notches.reverse realMath VoiceGenderFilter.new [1, 0, 0] =
        processChunk realMath VoiceGenderFilter.new [1, 0, 0] :=
  stage_order_irrelevant realMath VoiceGenderFilter.new (makeNotch realMath 135 48000 30)
    (makeNotch realMath 275 48000 60) notches.reverse [1, 0, 0] ⟨rfl, rfl⟩ ⟨rfl, rfl⟩
    (List.reverse_perm _)

/-! ## The last `fmt ` and `data` chunks decide -/

theorem lastChunk_split (id : List Byte) (cs : List Chunk) (d : Chunk)
    (h : lastChunk id cs = some d) :
    ∃ A B, cs = A ++ d :: B ∧ d.id = id ∧ ∀ c ∈ B, c.id ≠ id := by
  induction cs using List.reverseRecOn with
  | nil => simp [lastChunk] at h
  | append_singleton l x ih =>
    unfold lastChunk at h
    rw [List.filter_append] at h
    by_cases hx : x.id = id
    · have : List.filter (fun c => decide (c.id = id)) [x] = [x] := by simp [hx]
      rw [this, List.getLast?_append_of_ne_nil _ (by simp)] at h
      simp only [List.getLast?_singleton, Option.some.injEq] at h
      subst h
      exact ⟨l, [], rfl, hx, by simp⟩
    · have : List.filter (fun c => decide (c.id = id)) [x] = [] := by simp [hx]
      rw [this, List.append_nil] at h
      obtain ⟨A, B, rfl, hd, hB⟩ := ih h
      refine ⟨A, B ++ [x], by simp, hd, ?_⟩
      intro c hc
      rw [List.mem_append, List.mem_singleton] at hc
      rcases hc with hc | rfl
      · exact hB c hc
      · exact hx

theorem lastChunk_none (id : List Byte) (cs : List Chunk) (h : lastChunk id cs = none) :
    ∀ c ∈ cs, c.id ≠ id := by
  intro c hc hid
  unfold lastChunk at h
  rw [List.getLast?_eq_none_iff] at h
  have : c ∈ cs.filter fun c => decide (c.id = id) := by
    rw [List.mem_filter]; exact ⟨hc, by simpa using hid⟩
  rw [h] at this
  simp at this

theorem lastChunk_of_split (id : List Byte) (A B : List Chunk) (d : Chunk) (hd : d.id = id)
    (hB : ∀ c ∈ B, c.id ≠ id) : lastChunk id (A ++ d :: B) = some d := by
  unfold lastChunk
  have hB2 : List.filter (fun c => decide (c.id = id)) B = [] := by
    rw [List.filter_eq_nil_iff]
    intro c hc
    simpa using hB c hc
  rw [List.filter_append, List.filter_cons_of_pos (by simpa using hd), hB2,
    List.getLast?_append_of_ne_nil _ (by simp)]
  rfl

theorem lastChunk_insert (id : List Byte) (pre post : List Chunk) (C : Chunk) (hC : C.id ≠ id) :
    lastChunk id (pre ++ C :: post) = lastChunk id (pre ++ post) := by
  unfold lastChunk
  rw [List.filter_append, List.filter_append, List.filter_cons_of_neg (by simpa using hC)]

/-- The decoder on a well-formed file: the last `fmt ` chunk and the last `data` chunk
decide the result. -/
theorem readWav_result (fuel : Nat) (sz : List Byte) (cs : List Chunk) (hsz : sz.length = 4)
    (hwf : ∀ c ∈ cs, c.WellFormed) (hfuel : cs.length < fuel) :
    readWavAsFloats fuel (wavFile sz cs) =
      some (decodeChunks (lastChunk tagFmt cs) (lastChunk tagData cs)) := by
  cases hdata : lastChunk tagData cs with
  | none =>
    rw [readWav_missing_chunks fuel sz cs hsz hwf hfuel
      (Or.inl (lastChunk_none tagData cs hdata))]
    rfl
  | some d =>
    cases hfmt : lastChunk tagFmt cs with
    | none =>
      rw [readWav_missing_chunks fuel sz cs hsz hwf hfuel
        (Or.inr (fun c hc hid => absurd hid (lastChunk_none tagFmt cs hfmt c hc)))]
      rfl
    | some f =>
      obtain ⟨A, B, hcs, hd, hB⟩ := lastChunk_split tagData cs d hdata
      obtain ⟨A2, B2, hcs2, hf, hB2⟩ := lastChunk_split tagFmt cs f hfmt
      subst hcs
      rw [readWav_wellformed fuel sz _ hsz hwf hfuel]
      have hD := scanVars_last_data A B d hd hB 12 WavVars.init
      have hF := scanVars_last_fmt A2 B2 f hf hB2 12 WavVars.init
      rw [← hcs2] at hF
      have hdrop := drop_to_payload sz A B d [] hsz
        (hwf d (List.mem_append_right _ (List.mem_cons_self _ _))).1
      simp only [List.append_nil] at hdrop
      simp only [decodeChunks, decodePayload]
      unfold extractSamples
      simp only [hD.1, hD.2, hF.1, hF.2, IStream.clearSeek, readFloatSamples_eq,
        readPcmSamples_eq]
      simp only [wavFile] at hdrop ⊢
      split_ifs with h1 h2 h3 h4
      · rfl
      · rfl
      · rw [h3.2, hdrop]
        exact congrArg (fun l => some (Outcome.returned l)) (floatSamples_append_take _ _)
      · rw [h4.2, hdrop]
        exact congrArg (fun l => some (Outcome.returned l)) (pcmSamples_append_take _ _)
      · rfl

/-- The chunk walk over a well-formed file ends at the end of the file with the
variables the chunk sequence determines. -/
theorem walkChunks_wellformed (fuel : Nat) (sz : List Byte) (cs : List Chunk)
    (hsz : sz.length = 4) (hwf : ∀ c ∈ cs, c.WellFormed) (hfuel : cs.length < fuel) :
    walkChunks fuel ⟨wavFile sz cs, 12, false, false⟩ WavVars.init =
      some (⟨wavFile sz cs, 12 + (encodeChunks cs).length, true, true⟩,
        scanVars 12 WavVars.init cs) := by
  obtain ⟨k, rfl⟩ : ∃ k, fuel = cs.length + (k + 1) := ⟨fuel - cs.length - 1, by omega⟩
  obtain ⟨_, _, _, h4⟩ := riff_header sz (encodeChunks cs ++ []) hsz
  simp only [List.append_nil] at h4
  have h := walkChunks_chunks cs (k + 1) (wavFile sz cs) 12 WavVars.init []
    (by simpa [wavFile] using h4) hwf
  rw [h, walkChunks_at_end k _ _ _ (by rw [wavFile, riff_length _ _ hsz])]

/-- C16: in a well-formed WAV stream (good header, well-formed chunks) with any number
of `data` and `fmt ` chunks, the chunk walk ends with the size and offset of the last
`data` chunk and the format fields of the last `fmt ` chunk, and `readWavAsFloats`
returns what these two chunks give: for float32 and PCM16 the samples of the last `data`
chunk and nothing of the earlier ones. -/
theorem last_chunk_wins (fuel : Nat) (sz : List Byte) (pre post pre2 post2 : List Chunk)
    (d f : Chunk) (hsz : sz.length = 4) (hwf : ∀ c ∈ pre ++ d :: post, c.WellFormed)
    (hd : d.id = tagData) (hpost : ∀ c ∈ post, c.id ≠ tagData)
    (hcs : pre ++ d :: post = pre2 ++ f :: post2)
    (hf : f.id = tagFmt) (hpost2 : ∀ c ∈ post2, c.id ≠ tagFmt)
    (hfuel : (pre ++ d :: post).length < fuel) :
    (∃ s v, walkChunks fuel ⟨wavFile sz (pre ++ d :: post), 12, false, false⟩ WavVars.init =
          some (s, v) ∧
        v.dataSize = d.payload.length ∧
        v.dataPos = some (12 + (encodeChunks pre).length + 8) ∧
        v.audioFormat = f.formatTag ∧ v.bitsPerSample = f.bits) ∧
      readWavAsFloats fuel (wavFile sz (pre ++ d :: post)) =
        some (decodePayload f.formatTag f.bits d.payload) ∧
      decodePayload 3 32 d.payload = .returned (floatSamples d.payload) ∧
      decodePayload 1 16 d.payload = .returned (pcmSamples d.payload) := by
  have hD := scanVars_last_data pre post d hd hpost 12 WavVars.init
  have hF := scanVars_last_fmt pre2 post2 f hf hpost2 12 WavVars.init
  rw [← hcs] at hF
  refine ⟨⟨_, _, walkChunks_wellformed fuel sz _ hsz hwf hfuel, hD.2, hD.1, hF.1, hF.2⟩,
    ?_, by simp [decodePayload], by simp [decodePayload]⟩
  rw [readWav_result fuel sz _ hsz hwf hfuel, lastChunk_of_split tagData pre post d hd hpost,
    hcs, lastChunk_of_split tagFmt pre2 post2 f hf hpost2]
  rfl

/-- C16, instance: on `twoDataExample` the decoder returns the two floats of the second
`data` chunk, read as the second `fmt ` chunk says. -/
theorem last_chunk_wins_witness :
    readWavAsFloats 5 (wavFile [0, 0, 0, 0] twoDataExample) =
      some (.returned [f32Half, f32One]) :=
  (last_chunk_wins 5 [0, 0, 0, 0]
    [⟨tagFmt, fmtPayload 1 1 48000 96000 2 16, 0⟩, ⟨tagData, [1, 2, 3, 4], 0⟩,
      ⟨tagFmt, fmtPayload 3 1 48000 192000 4 32, 0⟩] []
    [⟨tagFmt, fmtPayload 1 1 48000 96000 2 16, 0⟩, ⟨tagData, [1, 2, 3, 4], 0⟩]
    [⟨tagData, [0, 0, 0, 63, 0, 0, 128, 63], 0⟩]
    ⟨tagData, [0, 0, 0, 63, 0, 0, 128, 63], 0⟩ ⟨tagFmt, fmtPayload 3 1 48000 192000 4 32, 0⟩
    rfl (by decide) rfl (by decide) rfl rfl (by decide) (by decide)).2.1.trans (by decide)

/-- C15: for a well-formed WAV stream `W` (good header, well-formed chunks) and a chunk
`C` whose four-byte identifier is neither `fmt ` nor `data`, with any payload and a pad
byte exactly when its size is odd, inserting `C` at any chunk boundary of `W` (after
the header, between two chunks, or at the end) leaves what `readWavAsFloats` returns
unchanged, and the decoder returns on both streams. -/
theorem unknown_chunk_transparent (fuel : Nat) (sz : List Byte) (pre post : List Chunk)
    (C : Chunk) (hsz : sz.length = 4) (hwf : ∀ c ∈ pre ++ post, c.WellFormed)
    (hC : C.id.length = 4 ∧ C.payload.length < 4294967296)
    (hid : C.id ≠ tagFmt ∧ C.id ≠ tagData) (hfuel : (pre ++ C :: post).length < fuel) :
    readWavAsFloats fuel (wavFile sz (pre ++ C :: post)) =
        readWavAsFloats fuel (wavFile sz (pre ++ post)) ∧
      readWavAsFloats fuel (wavFile sz (pre ++ post)) =
        some (decodeChunks (lastChunk tagFmt (pre ++ post)) (lastChunk tagData (pre ++ post))) := by
  have hwf2 : ∀ c ∈ pre ++ C :: post, c.WellFormed := by
    intro c hc
    rw [List.mem_append, List.mem_cons] at hc
    rcases hc with hc | rfl | hc
    · exact hwf c (List.mem_append_left _ hc)
    · exact ⟨hC.1, hC.2, fun h => absurd h hid.1⟩
    · exact hwf c (List.mem_append_right _ hc)
  have hlen : (pre ++ post).length < fuel := by
    simp only [List.length_append, List.length_cons] at hfuel ⊢
    omega
  have h1 := readWav_result fuel sz _ hsz hwf2 hfuel
  have h2 := readWav_result fuel sz _ hsz hwf hlen
  rw [lastChunk_insert tagFmt pre post C hid.1, lastChunk_insert tagData pre post C hid.2] at h1
  exact ⟨h1.trans h2.symm, h2⟩

/-- C15, instance: a `LIST` chunk of three bytes (and its pad byte) between the `fmt `
and the `data` chunk of a 16-bit file. -/
theorem unknown_chunk_transparent_witness :
    readWavAsFloats 4 (wavFile [0, 0, 0, 0]
        [⟨tagFmt, fmtPayload 1 1 48000 96000 2 16, 0⟩, ⟨[76, 73, 83, 84], [1, 2, 3], 0⟩,
          ⟨tagData, [0, 128, 255, 127, 1, 0], 0⟩]) =
      readWavAsFloats 4 (wavFile [0, 0, 0, 0]
        [⟨tagFmt, fmtPayload 1 1 48000 96000 2 16, 0⟩,
          ⟨tagData, [0, 128, 255, 127, 1, 0], 0⟩]) :=
  (unknown_chunk_transparent 4 [0, 0, 0, 0] [⟨tagFmt, fmtPayload 1 1 48000 96000 2 16, 0⟩]
    [⟨tagData, [0, 128, 255, 127, 1, 0], 0⟩] ⟨[76, 73, 83, 84], [1, 2, 3], 0⟩ rfl
    (by decide) (by decide) (by decide) (by decide)).1

/-! ## Bounds on what the decoder returns on any byte stream -/

theorem seekCur_data (s : IStream) (off : Int) : (s.seekCur off).data = s.data := by
  simp only [IStream.seekCur]
  split_ifs <;> rfl

theorem readInt_data (s : IStream) (w old : Nat) : (s.readInt w old).2.data = s.data := by
  simp only [IStream.readInt, read_data]

theorem fmtBranch_data (s : IStream) (v : WavVars) (n : Nat) :
    (fmtBranch s v n).1.data = s.data := by
  simp only [fmtBranch]
  split_ifs <;> simp only [seekCur_data, readInt_data]

theorem walkBody_data (s : IStream) (v : WavVars) :
    (∀ s1 v1, walkBody s v = .done s1 v1 → s1.data = s.data) ∧
      (∀ s1 v1, walkBody s v = .next s1 v1 → s1.data = s.data) := by
  constructor
  · intro s1 v1 h
    simp only [walkBody] at h
    split_ifs at h <;>
      (injection h with h1 _; rw [← h1]; simp only [read_data, readInt_data])
  · intro s1 v1 h
    simp only [walkBody] at h
    split_ifs at h <;>
      (injection h with h1 _; rw [← h1]
       simp only [seekCur_data, fmtBranch_data, read_data, readInt_data])

theorem walkChunks_data (fuel : Nat) (s : IStream) (v : WavVars) (s1 : IStream) (v1 : WavVars)
    (h : walkChunks fuel s v = some (s1, v1)) : s1.data = s.data := by
  induction fuel generalizing s v with
  | zero => simp [walkChunks] at h
  | succ n ih =>
    simp only [walkChunks] at h
    split_ifs at h with he
    · simp only [Option.some.injEq, Prod.mk.injEq] at h
      rw [← h.1]
    · cases hb : walkBody s v with
      | done s2 v2 =>
        rw [hb] at h
        simp only [Option.some.injEq, Prod.mk.injEq] at h
        rw [← h.1]
        exact (walkBody_data s v).1 s2 v2 hb
      | next s2 v2 =>
        rw [hb] at h
        rw [ih s2 v2 h]
        exact (walkBody_data s v).2 s2 v2 hb

theorem floatSamples_take (l : List Byte) (D : Nat) :
    (floatSamples l).take (D / 4) = floatSamples (l.take D) := by
  induction l using floatSamples.induct generalizing D with
  | case1 b0 b1 b2 b3 rest ih =>
    by_cases hD : 4 ≤ D
    · obtain ⟨E, rfl⟩ : ∃ E, D = E + 4 := ⟨D - 4, by omega⟩
      have e : (E + 4) / 4 = E / 4 + 1 := by omega
      rw [e]
      simp only [floatSamples, List.take_succ_cons]
      exact congrArg (List.cons _) (ih E)
    · have e : D / 4 = 0 := by omega
      rw [e, List.take_zero, floatSamples_short]
      rw [List.length_take]; omega
  | case2 bs h =>
    have hl : bs.length < 4 := by
      match bs, h with
      | [], _ => simp
      | [_], _ => simp
      | [_, _], _ => simp
      | [_, _, _], _ => simp
      | b0 :: b1 :: b2 :: b3 :: rest, h => exact absurd rfl (h b0 b1 b2 b3 rest)
    rw [floatSamples_short _ hl, List.take_nil, floatSamples_short]
    rw [List.length_take]; omega

theorem pcmSamples_take (l : List Byte) (D : Nat) :
    (pcmSamples l).take (D / 2) = pcmSamples (l.take D) := by
  induction l using pcmSamples.induct generalizing D with
  | case1 b0 b1 rest ih =>
    by_cases hD : 2 ≤ D
    · obtain ⟨E, rfl⟩ : ∃ E, D = E + 2 := ⟨D - 2, by omega⟩
      have e : (E + 2) / 2 = E / 2 + 1 := by omega
      rw [e]
      simp only [pcmSamples, List.take_succ_cons]
      exact congrArg (List.cons _) (ih E)
    · have e : D / 2 = 0 := by omega
      rw [e, List.take_zero, pcmSamples_short]
      rw [List.length_take]; omega
  | case2 bs h =>
    have hl : bs.length < 2 := by
      match bs, h with
      | [], _ => simp
      | [_], _ => simp
      | b0 :: b1 :: rest, h => exact absurd rfl (h b0 b1 rest)
    rw [pcmSamples_short _ hl, List.take_nil, pcmSamples_short]
    rw [List.length_take]; omega

/-- What `extractSamples` returns, in terms of the bytes of the declared data range. -/
theorem extractSamples_returned (s : IStream) (v : WavVars) (samples : List F32)
    (h : extractSamples s v = .returned samples) :
    samples = [] ∨ ∃ q, v.dataPos = some q ∧
      (v.bitsPerSample = 32 ∨ v.bitsPerSample = 16) ∧
      samples = samplesOf v.bitsPerSample ((s.data.drop q).take v.dataSize) := by
  unfold extractSamples at h
  split at h
  · simp only [Outcome.returned.injEq] at h
    exact Or.inl h.symm
  · rename_i q hq
    split_ifs at h with h1 h2 h3 h4
    · exact Or.inl (by simpa using h.symm)
    · simp only [Outcome.returned.injEq, IStream.clearSeek, readFloatSamples_eq] at h
      refine Or.inr ⟨q, hq, Or.inl h3.2, ?_⟩
      rw [← h, h3.2, samplesOf, if_pos rfl]
      exact floatSamples_take _ _
    · simp only [Outcome.returned.injEq, IStream.clearSeek, readPcmSamples_eq] at h
      refine Or.inr ⟨q, hq, Or.inr h4.2, ?_⟩
      rw [← h, h4.2, samplesOf, if_neg (by norm_num)]
      exact pcmSamples_take _ _
    · exact Or.inl (by simpa using h.symm)

theorem samplesOf_length (bits : Nat) (hb : bits = 32 ∨ bits = 16) (bs : List Byte) :
    (samplesOf bits bs).length = bs.length / (bits / 8) := by
  rcases hb with rfl | rfl
  · simp [samplesOf, floatSamples_length]
  · simp [samplesOf, pcmSamples_length]

/-- C19: on every byte stream on which `readWavAsFloats` returns a sample sequence, the
sequence is empty, or the chunk walk ended with a recorded `data` offset `q`, size
`dataSize` and bit depth such that the returned samples are exactly the complete samples
among the bytes `[q, q + dataSize)` of the file: there are at most
`dataSize / (bitsPerSample / 8)` of them, at most as many as complete samples are
present after offset `q`, and no byte beyond the declared end of the data is used. -/
theorem decoded_length_bound (fuel : Nat) (file : List Byte) (samples : List F32)
    (h : readWavAsFloats fuel file = some (.returned samples)) :
    samples = [] ∨ ∃ s v q, walkChunks fuel ⟨file, 12, false, false⟩ WavVars.init = some (s, v) ∧
      v.dataPos = some q ∧
      samples.length ≤ v.dataSize / (v.bitsPerSample / 8) ∧
      samples.length ≤ (file.length - q) / (v.bitsPerSample / 8) ∧
      samples = samplesOf v.bitsPerSample ((file.drop q).take v.dataSize) := by
  by_cases hbad : file.length < 12 ∨ file.take 4 ≠ tagRIFF ∨ (file.drop 8).take 4 ≠ tagWAVE
  · rcases hbad with hb | hb | hb
    · rw [header_short fuel file hb] at h
      exact Or.inl (by simpa using h.symm)
    · rw [header_bad_magic fuel file (Or.inl hb)] at h
      exact Or.inl (by simpa using h.symm)
    · rw [header_bad_magic fuel file (Or.inr hb)] at h
      exact Or.inl (by simpa using h.symm)
  · simp only [not_or, not_lt, ne_eq, not_not] at hbad
    rw [readWav_of_header fuel file hbad.1 hbad.2.1 hbad.2.2] at h
    cases hw : walkChunks fuel ⟨file, 12, false, false⟩ WavVars.init with
    | none => rw [hw] at h; simp at h
    | some r =>
      obtain ⟨s, v⟩ := r
      rw [hw] at h
      simp only [Option.map_some', Option.some.injEq] at h
      have hdata : s.data = file := walkChunks_data fuel _ _ s v hw
      rcases extractSamples_returned s v samples h with h0 | ⟨q, hq, hb, hs⟩
      · exact Or.inl h0
      · rw [hdata] at hs
        refine Or.inr ⟨s, v, q, rfl, hq, ?_, ?_, hs⟩
        · rw [hs, samplesOf_length _ hb, List.length_take]
          exact Nat.div_le_div_right (Nat.min_le_left _ _)
        · rw [hs, samplesOf_length _ hb, List.length_take, List.length_drop]
          exact Nat.div_le_div_right (Nat.min_le_right _ _)

/-- C19, instance: on `trailingExample` two samples are returned, which uses the four
declared data bytes and none of the chunk behind them. -/
theorem decoded_length_bound_witness :
    [f32NegOne, (1065352704 : F32)] = [] ∨
      ∃ s v q, walkChunks 4 ⟨wavFile [0, 0, 0, 0] trailingExample, 12, false, false⟩
          WavVars.init = some (s, v) ∧
        v.dataPos = some q ∧
        [f32NegOne, (1065352704 : F32)].length ≤ v.dataSize / (v.bitsPerSample / 8) ∧
        [f32NegOne, (1065352704 : F32)].length ≤
          ((wavFile [0, 0, 0, 0] trailingExample).length - q) / (v.bitsPerSample / 8) ∧
        [f32NegOne, (1065352704 : F32)] =
          samplesOf v.bitsPerSample
            (((wavFile [0, 0, 0, 0] trailingExample).drop q).take v.dataSize) :=
  decoded_length_bound 4 (wavFile [0, 0, 0, 0] trailingExample) [f32NegOne, 1065352704]
    (by decide)

/-! ## Binary32: the finite values and rounding to nearest -/

theorem rep_finite : {x : ℝ | Rep x}.Finite := by
  have h : (Set.image (fun p : ℤ × ℕ => (((p.1 * 2 ^ p.2 : ℤ) : ℝ)) / 2 ^ 149)
      ((Set.Icc (-(2 : ℤ) ^ 24) (2 ^ 24)) ×ˢ (Set.Iic 253))).Finite :=
    ((Set.finite_Icc _ _).prod (Set.finite_Iic _)).image _
  apply h.subset
  rintro x ⟨m, e, hm, he, rfl⟩
  have hm2 := abs_lt.mp hm
  exact ⟨(m, e), ⟨⟨by simp only; omega, by simp only; omega⟩, he⟩, rfl⟩

theorem rep_zero : Rep 0 := ⟨0, 0, by norm_num, by norm_num, by norm_num⟩

theorem exists_nearest (x : ℝ) : ∃ f, IsNearest x f := by
  obtain ⟨f, hf, hmin⟩ := Set.exists_min_image {x : ℝ | Rep x} (fun f => |x - f|) rep_finite
    ⟨0, rep_zero⟩
  exact ⟨f, hf, fun g hg => hmin g hg⟩

/-! ### Ties to even -/

/-- Every significand-exponent pair can be brought to the form with `2^23 <= |m|` or
the least exponent. -/
theorem canonical_int (e : ℕ) : ∀ m : ℤ, |m| < 2 ^ 24 →
    ∃ (m1 : ℤ) (e1 : ℕ), |m1| < 2 ^ 24 ∧ e1 ≤ e ∧ (2 ^ 23 ≤ |m1| ∨ e1 = 0) ∧
      m1 * 2 ^ e1 = m * 2 ^ e := by
  induction e with
  | zero => exact fun m hm => ⟨m, 0, hm, le_rfl, Or.inr rfl, rfl⟩
  | succ e ih =>
    intro m hm
    by_cases h : 2 ^ 23 ≤ |m|
    · exact ⟨m, e + 1, hm, le_rfl, Or.inl h, rfl⟩
    · push_neg at h
      have h2 : |2 * m| < 2 ^ 24 := by
        rw [abs_mul, abs_two]
        omega
      obtain ⟨m1, e1, a, b, c, d⟩ := ih (2 * m) h2
      exact ⟨m1, e1, a, by omega, c, by rw [d, pow_succ]; ring⟩

/-- Of two neighbouring finite binary32 values that are not negative, given as integer
multiples `F < G` of `2^-149`, one has an even significand. -/
theorem adjacent_even_nonneg (F G : ℤ)
    (hF : ∃ (m : ℤ) (e : ℕ), |m| < 2 ^ 24 ∧ e ≤ 253 ∧ F = m * 2 ^ e)
    (hG : ∃ (m : ℤ) (e : ℕ), |m| < 2 ^ 24 ∧ e ≤ 253 ∧ G = m * 2 ^ e)
    (h0 : 0 ≤ F) (hFG : F < G)
    (hadj : ∀ H : ℤ, (∃ (m : ℤ) (e : ℕ), |m| < 2 ^ 24 ∧ e ≤ 253 ∧ H = m * 2 ^ e) →
      ¬(F < H ∧ H < G)) :
    (∃ (m : ℤ) (e : ℕ), |m| < 2 ^ 24 ∧ e ≤ 253 ∧ (2 ^ 23 ≤ |m| ∨ e = 0) ∧ 2 ∣ m ∧
        F = m * 2 ^ e) ∨
      ∃ (m : ℤ) (e : ℕ), |m| < 2 ^ 24 ∧ e ≤ 253 ∧ (2 ^ 23 ≤ |m| ∨ e = 0) ∧ 2 ∣ m ∧
        G = m * 2 ^ e := by
  obtain ⟨m0, e0, hm0, he0, rfl⟩ := hF
  obtain ⟨m, e, hm, hee, hcan, hval⟩ := canonical_int e0 m0 hm0
  have he : e ≤ 253 := hee.trans he0
  rw [← hval] at h0 hFG hadj ⊢
  have hpe : (0 : ℤ) < 2 ^ e := by positivity
  have hmnn : 0 ≤ m := by
    by_contra hc
    push_neg at hc
    have : m * 2 ^ e < 0 := mul_neg_of_neg_of_pos hc hpe
    omega
  have hmlt : m < 2 ^ 24 := (abs_lt.mp hm).2
  have habs : |m| = m := abs_of_nonneg hmnn
  by_cases hpar : 2 ∣ m
  · exact Or.inl ⟨m, e, hm, he, hcan, hpar, rfl⟩
  right
  have hodd : m % 2 = 1 := by omega
  obtain ⟨mG, eG, hmG, heG, rfl⟩ := hG
  have hpG : (0 : ℤ) < 2 ^ eG := by positivity
  have hmGpos : 0 < mG := by
    by_contra hc
    push_neg at hc
    have : mG * 2 ^ eG ≤ 0 := mul_nonpos_of_nonpos_of_nonneg hc hpG.le
    omega
  have hmGlt : mG < 2 ^ 24 := (abs_lt.mp hmG).2
  -- every finite value above `m * 2^e` is at least `(m + 1) * 2^e`
  have hge : (m + 1) * 2 ^ e ≤ mG * 2 ^ eG := by
    by_cases hle : e ≤ eG
    · obtain ⟨d, rfl⟩ := Nat.exists_eq_add_of_le hle
      have e1 : mG * 2 ^ (e + d) = (mG * 2 ^ d) * 2 ^ e := by rw [pow_add]; ring
      rw [e1] at hFG ⊢
      have h3 : m < mG * 2 ^ d := lt_of_mul_lt_mul_right hFG hpe.le
      exact mul_le_mul_of_nonneg_right (by omega) hpe.le
    · exfalso
      push_neg at hle
      have he1 : 1 ≤ e := by omega
      have hm23 : (2 : ℤ) ^ 23 ≤ m := by
        rcases hcan with h | h
        · rwa [habs] at h
        · omega
      obtain ⟨d, rfl⟩ : ∃ d, e = eG + 1 + d := ⟨e - eG - 1, by omega⟩
      have e1 : (2 : ℤ) ^ (eG + 1 + d) = 2 ^ eG * (2 * 2 ^ d) := by
        rw [pow_add, pow_succ]
        ring
      have hd : (1 : ℤ) ≤ 2 ^ d := one_le_pow₀ (by norm_num)
      have h4 : mG * 2 ^ eG < 2 ^ 24 * 2 ^ eG := mul_lt_mul_of_pos_right hmGlt hpG
      have h5 : (2 : ℤ) ^ 24 * 2 ^ eG ≤ m * (2 ^ eG * (2 * 2 ^ d)) := by
        have : (2 : ℤ) ^ 24 * 2 ^ eG = 2 ^ 23 * (2 ^ eG * (2 * 1)) := by ring
        rw [this]
        apply mul_le_mul hm23 _ (by positivity) hmnn
        apply mul_le_mul_of_nonneg_left _ hpG.le
        linarith
      rw [e1] at hFG
      linarith
  -- `(m + 1) * 2^e` is a finite value with an even significand
  by_cases hB : m + 1 < 2 ^ 24
  · have hrep : ∃ (m1 : ℤ) (e1 : ℕ), |m1| < 2 ^ 24 ∧ e1 ≤ 253 ∧ (m + 1) * 2 ^ e = m1 * 2 ^ e1 :=
      ⟨m + 1, e, by rw [abs_of_nonneg (by omega)]; exact hB, he, rfl⟩
    have hle2 : mG * 2 ^ eG ≤ (m + 1) * 2 ^ e := by
      by_contra hc
      push_neg at hc
      exact hadj _ hrep ⟨mul_lt_mul_of_pos_right (by omega) hpe, hc⟩
    refine ⟨m + 1, e, by rw [abs_of_nonneg (by omega)]; exact hB, he, ?_, by omega,
      le_antisymm hle2 hge⟩
    rcases hcan with h | h
    · left
      rw [habs] at h
      rw [abs_of_nonneg (by omega)]
      omega
    · exact Or.inr h
  · have hm1 : m + 1 = 2 ^ 24 := by omega
    have he253 : e < 253 := by
      by_contra hc
      have he2 : e = 253 := by omega
      subst he2
      have h6 : (2 : ℤ) ^ eG ≤ 2 ^ 253 := pow_le_pow_right₀ (by norm_num) heG
      have h7 : mG * 2 ^ eG ≤ (2 ^ 24 - 1) * 2 ^ 253 :=
        mul_le_mul (by omega) h6 hpG.le (by norm_num)
      have h8 : m * 2 ^ 253 = (2 ^ 24 - 1) * 2 ^ 253 := by
        have : m = 2 ^ 24 - 1 := by omega
        rw [this]
      rw [h8] at hFG
      omega
    have e2 : (m + 1) * 2 ^ e = 2 ^ 23 * 2 ^ (e + 1) := by
      rw [hm1, pow_succ]
      ring
    have hrep : ∃ (m1 : ℤ) (e1 : ℕ), |m1| < 2 ^ 24 ∧ e1 ≤ 253 ∧ (m + 1) * 2 ^ e = m1 * 2 ^ e1 :=
      ⟨2 ^ 23, e + 1, by norm_num, by omega, e2⟩
    have hle2 : mG * 2 ^ eG ≤ (m + 1) * 2 ^ e := by
      by_contra hc
      push_neg at hc
      exact hadj _ hrep ⟨mul_lt_mul_of_pos_right (by omega) hpe, hc⟩
    exact ⟨2 ^ 23, e + 1, by norm_num, by omega, Or.inl (by norm_num), by norm_num,
      (le_antisymm hle2 hge).trans e2⟩

/-- Of two neighbouring finite binary32 values, given as integer multiples `F < G` of
`2^-149`, one has an even significand. -/
theorem adjacent_even (F G : ℤ)
    (hF : ∃ (m : ℤ) (e : ℕ), |m| < 2 ^ 24 ∧ e ≤ 253 ∧ F = m * 2 ^ e)
    (hG : ∃ (m : ℤ) (e : ℕ), |m| < 2 ^ 24 ∧ e ≤ 253 ∧ G = m * 2 ^ e)
    (hFG : F < G)
    (hadj : ∀ H : ℤ, (∃ (m : ℤ) (e : ℕ), |m| < 2 ^ 24 ∧ e ≤ 253 ∧ H = m * 2 ^ e) →
      ¬(F < H ∧ H < G)) :
    (∃ (m : ℤ) (e : ℕ), |m| < 2 ^ 24 ∧ e ≤ 253 ∧ (2 ^ 23 ≤ |m| ∨ e = 0) ∧ 2 ∣ m ∧
        F = m * 2 ^ e) ∨
      ∃ (m : ℤ) (e : ℕ), |m| < 2 ^ 24 ∧ e ≤ 253 ∧ (2 ^ 23 ≤ |m| ∨ e = 0) ∧ 2 ∣ m ∧
        G = m * 2 ^ e := by
  have hneg : ∀ N : ℤ, (∃ (m : ℤ) (e : ℕ), |m| < 2 ^ 24 ∧ e ≤ 253 ∧ N = m * 2 ^ e) →
      ∃ (m : ℤ) (e : ℕ), |m| < 2 ^ 24 ∧ e ≤ 253 ∧ -N = m * 2 ^ e := by
    rintro N ⟨m, e, a, b, rfl⟩
    exact ⟨-m, e, by rwa [abs_neg], b, by ring⟩
  have hnegE : ∀ N : ℤ,
      (∃ (m : ℤ) (e : ℕ), |m| < 2 ^ 24 ∧ e ≤ 253 ∧ (2 ^ 23 ≤ |m| ∨ e = 0) ∧ 2 ∣ m ∧
        -N = m * 2 ^ e) →
      ∃ (m : ℤ) (e : ℕ), |m| < 2 ^ 24 ∧ e ≤ 253 ∧ (2 ^ 23 ≤ |m| ∨ e = 0) ∧ 2 ∣ m ∧
        N = m * 2 ^ e := by
    rintro N ⟨m, e, a, b, c, d, h⟩
    exact ⟨-m, e, by rwa [abs_neg], b, by rwa [abs_neg], (dvd_neg).mpr d, by
      have : N = -(-N) := by ring
      rw [this, h]
      ring⟩
  by_cases h0 : 0 ≤ F
  · exact adjacent_even_nonneg F G hF hG h0 hFG hadj
  · push_neg at h0
    by_cases hG0 : 0 < G
    · exact absurd ⟨h0, hG0⟩ (hadj 0 ⟨0, 0, by norm_num, by norm_num, by norm_num⟩)
    · push_neg at hG0
      have := adjacent_even_nonneg (-G) (-F) (hneg G hG) (hneg F hF) (by omega) (by omega)
        (by
          intro H hH hb
          have h1 := hneg H hH
          exact hadj (-H) h1 ⟨by omega, by omega⟩)
      rcases this with h | h
      · exact Or.inr (hnegE G h)
      · exact Or.inl (hnegE F h)

/-- Rounding to nearest with ties to even is defined on every real number. -/
theorem exists_nearest_even (x : ℝ) : ∃ f, IsNearestEven x f := by
  obtain ⟨f, hf⟩ := exists_nearest x
  by_cases huniq : ∃ g, IsNearest x g ∧ g ≠ f
  · obtain ⟨g, hg, hne⟩ := huniq
    have key : ∀ a b : ℝ, IsNearest x a → IsNearest x b → a < b →
        EvenSignificand a ∨ EvenSignificand b := by
      intro a b ha hb hab
      obtain ⟨ma, ea, hma, hea, rfl⟩ := ha.1
      obtain ⟨mb, eb, hmb, heb, rfl⟩ := hb.1
      have hp : (0 : ℝ) < 2 ^ 149 := by positivity
      have hlt : ma * 2 ^ ea < mb * 2 ^ eb := by
        rw [div_lt_div_iff_of_pos_right hp] at hab
        exact_mod_cast hab
      have hadj : ∀ H : ℤ, (∃ (m : ℤ) (e : ℕ), |m| < 2 ^ 24 ∧ e ≤ 253 ∧ H = m * 2 ^ e) →
          ¬(ma * 2 ^ ea < H ∧ H < mb * 2 ^ eb) := by
        rintro H ⟨m, e, hm, he, rfl⟩ ⟨h1, h2⟩
        have hr : Rep (((m * 2 ^ e : ℤ) : ℝ) / 2 ^ 149) := ⟨m, e, hm, he, rfl⟩
        have c1 : ((ma * 2 ^ ea : ℤ) : ℝ) / 2 ^ 149 < ((m * 2 ^ e : ℤ) : ℝ) / 2 ^ 149 := by
          rw [div_lt_div_iff_of_pos_right hp]
          exact_mod_cast h1
        have c2 : ((m * 2 ^ e : ℤ) : ℝ) / 2 ^ 149 < ((mb * 2 ^ eb : ℤ) : ℝ) / 2 ^ 149 := by
          rw [div_lt_div_iff_of_pos_right hp]
          exact_mod_cast h2
        have n1 := ha.2 _ hr
        have n2 := hb.2 _ hr
        by_cases hx : x ≤ ((m * 2 ^ e : ℤ) : ℝ) / 2 ^ 149
        · rw [abs_of_nonpos (by linarith), abs_of_nonpos (by linarith)] at n2
          linarith
        · push_neg at hx
          rw [abs_of_nonneg (by linarith), abs_of_nonneg (by linarith)] at n1
          linarith
      rcases adjacent_even _ _ ⟨ma, ea, hma, hea, rfl⟩ ⟨mb, eb, hmb, heb, rfl⟩ hlt hadj with
        ⟨m, e, h1, h2, h3, h4, h5⟩ | ⟨m, e, h1, h2, h3, h4, h5⟩
      · exact Or.inl ⟨m, e, h1, h2, h3, h4, by rw [h5]⟩
      · exact Or.inr ⟨m, e, h1, h2, h3, h4, by rw [h5]⟩
    rcases lt_or_gt_of_ne hne with hlt | hlt
    · rcases key g f hg hf hlt with h | h
      · exact ⟨g, hg, fun _ => h⟩
      · exact ⟨f, hf, fun _ => h⟩
    · rcases key f g hf hg hlt with h | h
      · exact ⟨f, hf, fun _ => h⟩
      · exact ⟨g, hg, fun _ => h⟩
  · exact ⟨f, hf, fun h => absurd h huniq⟩

theorem nearest_even (x : ℝ) : IsNearestEven x (nearest x) :=
  Classical.epsilon_spec (exists_nearest_even x)

theorem nearest_spec (x : ℝ) : IsNearest x (nearest x) := (nearest_even x).1

theorem nearest_rep (x : ℝ) : Rep (nearest x) := (nearest_spec x).1

theorem nearest_ge {lo x : ℝ} (hlo : Rep lo) (h : lo ≤ x) : lo ≤ nearest x := by
  by_contra hc
  push_neg at hc
  have := (nearest_spec x).2 lo hlo
  rw [abs_of_nonneg (by linarith), abs_of_nonneg (by linarith)] at this
  linarith

theorem nearest_le {hi x : ℝ} (hhi : Rep hi) (h : x ≤ hi) : nearest x ≤ hi := by
  by_contra hc
  push_neg at hc
  have := (nearest_spec x).2 hi hhi
  rw [abs_of_nonpos (by linarith), abs_of_nonpos (by linarith)] at this
  linarith

theorem nearest_of_rep {x : ℝ} (h : Rep x) : nearest x = x :=
  le_antisymm (nearest_le h le_rfl) (nearest_ge h le_rfl)

theorem rep_int (n : ℤ) (h : |n| < 2 ^ 24) : Rep (n : ℝ) :=
  ⟨n, 149, h, by norm_num, by push_cast; norm_num⟩

theorem rep_abs_le {x : ℝ} (h : Rep x) : |x| ≤ (2 ^ 24 - 1) * 2 ^ 104 := by
  obtain ⟨m, e, hm, he, rfl⟩ := h
  have hm1 : |(m : ℝ)| ≤ 2 ^ 24 - 1 := by
    have : |m| ≤ 2 ^ 24 - 1 := by omega
    have h2 : ((|m| : ℤ) : ℝ) ≤ ((2 ^ 24 - 1 : ℤ) : ℝ) := by exact_mod_cast this
    rw [Int.cast_abs] at h2
    norm_num at h2 ⊢
    exact h2
  have he1 : (2 : ℝ) ^ e ≤ 2 ^ 253 := pow_le_pow_right₀ (by norm_num) he
  push_cast
  rw [abs_div, abs_mul, abs_of_pos (by positivity : (0 : ℝ) < 2 ^ e),
    abs_of_pos (by positivity : (0 : ℝ) < 2 ^ 149), div_le_iff₀ (by positivity)]
  calc |(m : ℝ)| * 2 ^ e ≤ (2 ^ 24 - 1) * 2 ^ 253 :=
        mul_le_mul hm1 he1 (by positivity) (by norm_num)
    _ = (2 ^ 24 - 1) * 2 ^ 104 * 2 ^ 149 := by norm_num

theorem fround_of_abs_lt {x : ℝ} (h : |x| < overflowBound) : fround x = .finite (nearest x) := by
  have := abs_lt.mp h
  unfold fround
  rw [if_neg (by linarith), if_neg (by linarith)]

theorem rep_lt_overflow {x : ℝ} (h : Rep x) : |x| < overflowBound := by
  have := rep_abs_le h
  unfold overflowBound
  norm_num at this ⊢
  linarith

theorem fround_of_rep {x : ℝ} (h : Rep x) : fround x = .finite x := by
  rw [fround_of_abs_lt (rep_lt_overflow h), nearest_of_rep h]

theorem rep_mk (m : ℤ) (e : ℕ) (hm : |m| < 2 ^ 24) (he : e ≤ 253) :
    Rep (((m * 2 ^ e : ℤ) : ℝ) / 2 ^ 149) := ⟨m, e, hm, he, rfl⟩

theorem rep_one : Rep 1 := by simpa using rep_int 1 (by norm_num)

theorem fmul_finite (a b : ℝ) : fmul (.finite a) (.finite b) = fround (a * b) := rfl

theorem fadd_finite (a b : ℝ) : fadd (.finite a) (.finite b) = fround (a + b) := rfl

theorem fsub_finite (a b : ℝ) : fsub (.finite a) (.finite b) = fround (a - b) := by
  simp only [fsub, fneg, fadd_finite, sub_eq_add_neg]

theorem fround_zero : fround 0 = .finite 0 := fround_of_rep rep_zero

theorem fmul_finite_zero (a : ℝ) : fmul (.finite a) (.finite 0) = .finite 0 := by
  rw [fmul_finite, mul_zero, fround_zero]

theorem fsub_zero_zero : fsub (.finite 0) (.finite 0) = .finite 0 := by
  rw [fsub_finite, sub_zero, fround_zero]

theorem fadd_zero_zero : fadd (.finite 0) (.finite 0) = .finite 0 := by
  rw [fadd_finite, add_zero, fround_zero]

theorem runBiquad32_length (f : Biquad Binary32) (xs : List Binary32) :
    (runBiquad32 f xs).1.length = xs.length := by
  induction xs generalizing f with
  | nil => rfl
  | cons x xs ih => simp [runBiquad32, ih]

/-- The transposed form in binary32 started from the registers that a history leaves
behind is the rounded difference equation started from that history. -/
theorem runBiquad32_eq (f : Biquad Binary32) (x1 x2 y1 y2 : Binary32) (xs : List Binary32)
    (h1 : f.s1 = fadd (fsub (fmul f.b1 x1) (fmul f.a1 y1)) (fsub (fmul f.b2 x2) (fmul f.a2 y2)))
    (h2 : f.s2 = fsub (fmul f.b2 x1) (fmul f.a2 y1)) :
    (runBiquad32 f xs).1 = differenceEquation32 f.b0 f.b1 f.b2 f.a1 f.a2 x1 x2 y1 y2 xs := by
  induction xs generalizing f x1 x2 y1 y2 with
  | nil => rfl
  | cons x xs ih =>
    obtain ⟨b0, b1, b2, a1, a2, s1, s2⟩ := f
    simp only at h1 h2
    subst h1 h2
    simp only [runBiquad32, differenceEquation32, applyBiquad32]
    congr 1
    refine ih _ x x1 _ y1 ?_ ?_ <;> rfl

/-- Sample `k` of the rounded difference equation, with the history put in front of the
sequences. -/
theorem differenceEquation32_getD (b0 b1 b2 a1 a2 x1 x2 y1 y2 : Binary32)
    (xs : List Binary32) (k : Nat) (hk : k < xs.length) :
    (differenceEquation32 b0 b1 b2 a1 a2 x1 x2 y1 y2 xs).getD k (.finite 0) =
      fadd (fmul b0 ((x2 :: x1 :: xs).getD (k + 2) (.finite 0)))
        (fadd
          (fsub (fmul b1 ((x2 :: x1 :: xs).getD (k + 1) (.finite 0)))
            (fmul a1 ((y2 :: y1 :: differenceEquation32 b0 b1 b2 a1 a2 x1 x2 y1 y2 xs).getD
              (k + 1) (.finite 0))))
          (fsub (fmul b2 ((x2 :: x1 :: xs).getD k (.finite 0)))
            (fmul a2 ((y2 :: y1 :: differenceEquation32 b0 b1 b2 a1 a2 x1 x2 y1 y2 xs).getD
              k (.finite 0))))) := by
  induction xs generalizing x1 x2 y1 y2 k with
  | nil => simp at hk
  | cons x xs ih =>
    cases k with
    | zero => simp [differenceEquation32]
    | succ k =>
      have hk2 : k < xs.length := by simpa using hk
      have := ih x x1 (fadd (fmul b0 x)
        (fadd (fsub (fmul b1 x1) (fmul a1 y1)) (fsub (fmul b2 x2) (fmul a2 y2)))) y1 k hk2
      simp only [differenceEquation32, List.getD_cons_succ] at this ⊢
      exact this

/-- In binary32, a stage with finite coefficients and zero delay registers produces the
outputs of the rounded difference equation started from a zero history. -/
theorem runBiquad32_zero (b0 : Binary32) (b1 b2 a1 a2 : ℝ) (xs : List Binary32) :
    (runBiquad32 ⟨b0, .finite b1, .finite b2, .finite a1, .finite a2, .finite 0, .finite 0⟩
        xs).1 =
      differenceEquation32 b0 (.finite b1) (.finite b2) (.finite a1) (.finite a2)
        (.finite 0) (.finite 0) (.finite 0) (.finite 0) xs := by
  apply runBiquad32_eq
  · simp only [fmul_finite_zero, fsub_zero_zero, fadd_zero_zero]
  · simp only [fmul_finite_zero, fsub_zero_zero]

/-- Every finite binary32 value of magnitude at least 1 is an integer multiple of
`2^-23`. -/
theorem rep_ge_one {g : ℝ} (h : Rep g) (hg : 1 ≤ |g|) : ∃ K : ℤ, g = (K : ℝ) / 2 ^ 23 := by
  obtain ⟨m, e, hm, he, rfl⟩ := h
  have hm1 : |(m : ℝ)| < 2 ^ 24 := by exact_mod_cast hm
  by_cases h126 : 126 ≤ e
  · obtain ⟨d, rfl⟩ := Nat.exists_eq_add_of_le h126
    refine ⟨m * 2 ^ d, ?_⟩
    push_cast
    rw [pow_add, div_eq_div_iff (by positivity) (by positivity)]
    ring
  · exfalso
    push_neg at h126
    have he1 : (2 : ℝ) ^ e ≤ 2 ^ 125 := pow_le_pow_right₀ (by norm_num) (by omega)
    have hb : |((m * 2 ^ e : ℤ) : ℝ) / 2 ^ 149| < 1 := by
      push_cast
      rw [abs_div, abs_mul, abs_of_pos (by positivity : (0 : ℝ) < 2 ^ e),
        abs_of_pos (by positivity : (0 : ℝ) < 2 ^ 149), div_lt_iff₀ (by positivity)]
      calc |(m : ℝ)| * 2 ^ e < 2 ^ 24 * 2 ^ 125 :=
            mul_lt_mul hm1 he1 (by positivity) (by positivity)
        _ = 1 * 2 ^ 149 := by norm_num
    linarith

/-- The square of `1 + 2^-23` rounds to `1 + 2^-22`. -/
theorem nearest_square :
    nearest ((1 + 1 / 2 ^ 23) * (1 + 1 / 2 ^ 23)) = 1 + 1 / 2 ^ 22 := by
  have hr : Rep (1 + 1 / 2 ^ 22) := ⟨2 ^ 22 + 1, 127, by norm_num, by norm_num, by norm_num⟩
  generalize hu : ((1 : ℝ) + 1 / 2 ^ 23) * (1 + 1 / 2 ^ 23) = u
  have e1 : u - (1 + 1 / 2 ^ 22) = 1 / 2 ^ 46 := by rw [← hu]; norm_num
  have e2 : 1 ≤ u := by rw [← hu]; norm_num
  have h1 := (nearest_spec u).2 _ hr
  have h2 : 1 ≤ nearest u := nearest_ge rep_one e2
  obtain ⟨K, hK⟩ := rep_ge_one (nearest_rep u) (by rw [abs_of_pos (by linarith)]; exact h2)
  rw [hK] at h1 ⊢
  rw [e1, abs_of_pos (by positivity : (0 : ℝ) < 1 / 2 ^ 46)] at h1
  have e3 : u = 1 + 1 / 2 ^ 22 + 1 / 2 ^ 46 := by linarith
  rw [e3] at h1
  have h3 := abs_le.mp h1
  have h4 : ((K - (2 ^ 23 + 2) : ℤ) : ℝ) < 1 := by
    push_cast
    have : (K : ℝ) = (K : ℝ) / 2 ^ 23 * 2 ^ 23 := by field_simp
    rw [this]
    norm_num at h3 ⊢
    linarith [h3.1, h3.2]
  have h5 : (-1 : ℝ) < ((K - (2 ^ 23 + 2) : ℤ) : ℝ) := by
    push_cast
    have : (K : ℝ) = (K : ℝ) / 2 ^ 23 * 2 ^ 23 := by field_simp
    rw [this]
    norm_num at h3 ⊢
    linarith [h3.1, h3.2]
  have h6 : K - (2 ^ 23 + 2) < 1 := by exact_mod_cast h4
  have h7 : -1 < K - (2 ^ 23 + 2) := by exact_mod_cast h5
  have h8 : K = 2 ^ 23 + 2 := by omega
  rw [h8]
  norm_num

/-- The stage with `b0 = 1 + 2^-23` and all other coefficients zero, applied in binary32
to the one-sample buffer `[1 + 2^-23]`, gives `1 + 2^-22`. -/
theorem runBiquad32_square :
    (runBiquad32 ⟨.finite (1 + 1 / 2 ^ 23), .finite 0, .finite 0, .finite 0, .finite 0,
        .finite 0, .finite 0⟩ [.finite (1 + 1 / 2 ^ 23)]).1 = [.finite (1 + 1 / 2 ^ 22)] := by
  have hr : Rep (1 + 1 / 2 ^ 22) := ⟨2 ^ 22 + 1, 127, by norm_num, by norm_num, by norm_num⟩
  have h1 : fround ((1 + 1 / 2 ^ 23) * (1 + 1 / 2 ^ 23)) = .finite (1 + 1 / 2 ^ 22) := by
    rw [fround_of_abs_lt, nearest_square]
    unfold overflowBound
    rw [abs_of_pos (by positivity)]
    norm_num
  simp only [runBiquad32, applyBiquad32, fmul_finite, h1, fadd_finite, add_zero,
    fround_of_rep hr]

/-! ## The numerator in binary32 -/

/-- C12 (as stated, refuted): in binary32, the stage with `b0 = 1 + 2^-23` and all other
coefficients and both delay registers zero, applied to the one-sample buffer
`[1 + 2^-23]`, returns `y[0] = 1 + 2^-22`, whereas the difference equation gives
`b0 x[0] = 1 + 2^-22 + 2^-46`. -/
theorem difference_equation_rounds :
    Rep (1 + 1 / 2 ^ 23) ∧
      (runBiquad32 ⟨.finite (1 + 1 / 2 ^ 23), .finite 0, .finite 0, .finite 0, .finite 0,
          .finite 0, .finite 0⟩ [.finite (1 + 1 / 2 ^ 23)]).1 = [.finite (1 + 1 / 2 ^ 22)] ∧
      (1 + 1 / 2 ^ 22 : ℝ) ≠
        (1 + 1 / 2 ^ 23) * (1 + 1 / 2 ^ 23) + 0 * 0 + 0 * 0 - 0 * 0 - 0 * 0 :=
  ⟨⟨2 ^ 23 + 1, 126, by norm_num, by norm_num, by norm_num⟩, runBiquad32_square, by norm_num⟩

/-- C12 (amended): starting from zero delay registers, the outputs `y` that successive
calls of `applyBiquad` produce on the inputs `x` satisfy, for every `k` within the
buffer and with terms of negative index taken as zero: in exact arithmetic,
`y[k] = b0 x[k] + b1 x[k-1] + b2 x[k-2] - a1 y[k-1] - a2 y[k-2]`; in binary32, for finite
coefficients, the same equation with every product, difference and sum rounded, in the
association `y[k] = b0 x[k] + ((b1 x[k-1] - a1 y[k-1]) + (b2 x[k-2] - a2 y[k-2]))`.  In
both each output is a function of the current input, the two preceding inputs and the
two preceding outputs. -/
theorem applyBiquad_difference_equation {α : Type} [LinearOrderedField α] (f : Biquad α)
    (xs : List α) (h1 : f.s1 = 0) (h2 : f.s2 = 0) (b0 b1 b2 a1 a2 : ℝ)
    (us : List Binary32) :
    ((runBiquad f xs).1 = differenceEquation f.b0 f.b1 f.b2 f.a1 f.a2 0 0 0 0 xs ∧
      (runBiquad f xs).1.length = xs.length ∧
      ∀ k, k < xs.length →
        delayed (runBiquad f xs).1 0 k =
          f.b0 * delayed xs 0 k + f.b1 * delayed xs 1 k + f.b2 * delayed xs 2 k -
            f.a1 * delayed (runBiquad f xs).1 1 k - f.a2 * delayed (runBiquad f xs).1 2 k) ∧
    ((runBiquad32 ⟨.finite b0, .finite b1, .finite b2, .finite a1, .finite a2, .finite 0,
          .finite 0⟩ us).1 =
        differenceEquation32 (.finite b0) (.finite b1) (.finite b2) (.finite a1) (.finite a2)
          (.finite 0) (.finite 0) (.finite 0) (.finite 0) us ∧
      (runBiquad32 ⟨.finite b0, .finite b1, .finite b2, .finite a1, .finite a2, .finite 0,
          .finite 0⟩ us).1.length = us.length ∧
      ∀ k, k < us.length →
        (runBiquad32 ⟨.finite b0, .finite b1, .finite b2, .finite a1, .finite a2, .finite 0,
            .finite 0⟩ us).1.getD k (.finite 0) =
          fadd (fmul (.finite b0) ((.finite 0 :: .finite 0 :: us).getD (k + 2) (.finite 0)))
            (fadd
              (fsub (fmul (.finite b1) ((.finite 0 :: .finite 0 :: us).getD (k + 1) (.finite 0)))
                (fmul (.finite a1)
                  ((.finite 0 :: .finite 0 :: (runBiquad32 ⟨.finite b0, .finite b1, .finite b2,
                    .finite a1, .finite a2, .finite 0, .finite 0⟩ us).1).getD (k + 1)
                    (.finite 0))))
              (fsub (fmul (.finite b2) ((.finite 0 :: .finite 0 :: us).getD k (.finite 0)))
                (fmul (.finite a2)
                  ((.finite 0 :: .finite 0 :: (runBiquad32 ⟨.finite b0, .finite b1, .finite b2,
                    .finite a1, .finite a2, .finite 0, .finite 0⟩ us).1).getD k
                    (.finite 0)))))) := by
  refine ⟨runBiquad_difference_equation f xs h1 h2, runBiquad32_zero _ _ _ _ _ us,
    runBiquad32_length _ us, ?_⟩
  intro k hk
  rw [runBiquad32_zero]
  exact differenceEquation32_getD _ _ _ _ _ _ _ _ _ us k hk

/-- C12 (amended), instance: the stage with coefficients `(1, 2, 3, 4, 5)` on the buffer
`[1, 0, 0]`, over the rationals and in binary32. -/
theorem applyBiquad_difference_equation_witness :
    (runBiquad (⟨1, 2, 3, 4, 5, 0, 0⟩ : Biquad ℚ) [1, 0, 0]).1 =
        differenceEquation 1 2 3 4 5 0 0 0 0 [1, 0, 0] ∧
      (runBiquad32 ⟨.finite 1, .finite 2, .finite 3, .finite 4, .finite 5, .finite 0,
          .finite 0⟩ [.finite 1, .finite 0, .finite 0]).1 =
        differenceEquation32 (.finite 1) (.finite 2) (.finite 3) (.finite 4) (.finite 5)
          (.finite 0) (.finite 0) (.finite 0) (.finite 0) [.finite 1, .finite 0, .finite 0] :=
  ⟨(applyBiquad_difference_equation (⟨1, 2, 3, 4, 5, 0, 0⟩ : Biquad ℚ) [1, 0, 0] rfl rfl
      1 2 3 4 5 [.finite 1, .finite 0, .finite 0]).1.1,
    (applyBiquad_difference_equation (⟨1, 2, 3, 4, 5, 0, 0⟩ : Biquad ℚ) [1, 0, 0] rfl rfl
      1 2 3 4 5 [.finite 1, .finite 0, .finite 0]).2.1⟩

end SilenceMale
